import Mathlib

/-!
# Verification of the `sseer` SSE streaming parser core

A shallow embedding of the crate's core: the line tokenizer (`src/parser.rs`),
the event builder and dispatcher (`src/event_stream.rs`), the generic streaming
adapter (`src/event_stream/generic.rs`), the `Bytes`-specialised adapter
(`src/event_stream/bytes.rs`) and the UTF-8 stitcher (`src/utf8_stream.rs`).

Bytes are modelled as natural numbers, byte buffers as `List Nat`.  Rust's
shared string handles (`Str`) are modelled by the byte lists that back them
(every such list is valid UTF-8 by construction, which the proofs do not need
to track).  Mutation is modelled by explicit state passing; the pull-based
`poll_next` functions become state-transition functions over a record that
holds the not-yet-delivered upstream items as a list (the end of the list is
upstream EOF).  `Poll::Pending` never arises because the modelled upstream
always has its next item available.
-/

namespace Sseer

/-- A byte. All values are `< 256` in any real run; the development never
needs that bound. -/
abbrev Byte := Nat

/-- `src/constants.rs`: `LF`. -/
def LF : Byte := 10

/-- `src/constants.rs`: `CR`. -/
def CR : Byte := 13

/-- `src/constants.rs`: the UTF-8 encoding of U+FEFF. -/
def BOM : List Byte := [0xEF, 0xBB, 0xBF]

/-- ASCII colon, the field separator. -/
def COLON : Byte := 0x3A

/-- ASCII space, optionally stripped after the colon. -/
def SPACE : Byte := 0x20

/-- The bytes of `"event"`. -/
def eventNameBytes : List Byte := [0x65, 0x76, 0x65, 0x6E, 0x74]

/-- The bytes of `"data"`. -/
def dataNameBytes : List Byte := [0x64, 0x61, 0x74, 0x61]

/-- The bytes of `"id"`. -/
def idNameBytes : List Byte := [0x69, 0x64]

/-- The bytes of `"retry"`. -/
def retryNameBytes : List Byte := [0x72, 0x65, 0x74, 0x72, 0x79]

/-- `src/constants.rs`: `MESSAGE_STR`, the bytes of `"message"`. -/
def messageBytes : List Byte := [0x6D, 0x65, 0x73, 0x73, 0x61, 0x67, 0x65]

/-! ## UTF-8 validation

Model of `core::str::from_utf8`.  `utf8Err bytes` is `none` when `bytes` is
valid UTF-8 and `some p` when validation fails, where `p` is the Rust
`Utf8Error::valid_up_to()` position: the start of the first byte sequence that
is not a valid, complete UTF-8 encoding (a truncated final sequence also
fails, with `p` the start of the truncated sequence). -/

/-- Is `b` a UTF-8 continuation byte in the inclusive range `[lo, hi]`? -/
def contIn (lo hi b : Byte) : Bool := lo ≤ b && b ≤ hi

/-- Position of the first invalid byte sequence (Rust `valid_up_to`), or
`none` if the whole list is valid UTF-8. -/
def utf8Err : List Byte → Option Nat
  | [] => none
  | b :: rest =>
    if b < 0x80 then (utf8Err rest).map (· + 1)
    else if b < 0xC2 then some 0
    else if b ≤ 0xDF then
      match rest with
      | c :: rest2 => if contIn 0x80 0xBF c then (utf8Err rest2).map (· + 2) else some 0
      | [] => some 0
    else if b ≤ 0xEF then
      let lo : Byte := if b = 0xE0 then 0xA0 else 0x80
      let hi : Byte := if b = 0xED then 0x9F else 0xBF
      match rest with
      | c :: rest2 =>
        if contIn lo hi c then
          match rest2 with
          | d :: rest3 => if contIn 0x80 0xBF d then (utf8Err rest3).map (· + 3) else some 0
          | [] => some 0
        else some 0
      | [] => some 0
    else if b ≤ 0xF4 then
      let lo : Byte := if b = 0xF0 then 0x90 else 0x80
      let hi : Byte := if b = 0xF4 then 0x8F else 0xBF
      match rest with
      | c :: rest2 =>
        if contIn lo hi c then
          match rest2 with
          | d :: rest3 =>
            if contIn 0x80 0xBF d then
              match rest3 with
              | e :: rest4 => if contIn 0x80 0xBF e then (utf8Err rest4).map (· + 4) else some 0
              | [] => some 0
            else some 0
          | [] => some 0
        else some 0
      | [] => some 0
    else some 0

/-- `bytes` is valid UTF-8. -/
def isValidUtf8 (bytes : List Byte) : Bool := (utf8Err bytes).isNone

/-- Rust `Utf8Error::valid_up_to()` extended to total inputs: the length of
the longest valid prefix. -/
def utf8ValidUpTo (bytes : List Byte) : Nat :=
  match utf8Err bytes with
  | none => bytes.length
  | some p => p

/-! ## The line tokenizer (`src/parser.rs`) -/

/-- `parser.rs`: `RawEventLine` (the borrowing variant returned by
`parse_line`). -/
inductive RawEventLine where
  | Comment : RawEventLine
  | Field (field_name : List Byte) (field_value : Option (List Byte)) : RawEventLine
  | Empty : RawEventLine
deriving Repr, DecidableEq

/-- `parser.rs`: `RawEventLineOwned` (the owning variant returned by
`parse_line_from_buffer` / `parse_line_from_bytes`). -/
inductive RawEventLineOwned where
  | Comment : RawEventLineOwned
  | Empty : RawEventLineOwned
  | Field (field_name : List Byte) (field_value : Option (List Byte)) : RawEventLineOwned
deriving Repr, DecidableEq

/-- `parser.rs`: `FieldName`. -/
inductive FieldName where
  | Event | Data | Id | Retry | Ignored
deriving Repr, DecidableEq

/-- `parser.rs`: `ValidatedEventLine`.  Values are the byte lists backing the
validated `Str` handles. -/
inductive ValidatedEventLine where
  | Comment : ValidatedEventLine
  | Empty : ValidatedEventLine
  | Field (field_name : FieldName) (field_value : Option (List Byte)) : ValidatedEventLine
deriving Repr, DecidableEq

/-- `memchr::memchr` : index of the first occurrence of `needle`. -/
def memchr (needle : Byte) : List Byte → Option Nat
  | [] => none
  | c :: rest => if c = needle then some 0 else (memchr needle rest).map (· + 1)

/-- `memchr::memchr2` : index of the first occurrence of `a` or `b`. -/
def memchr2 (a b : Byte) : List Byte → Option Nat
  | [] => none
  | c :: rest => if c = a ∨ c = b then some 0 else (memchr2 a b rest).map (· + 1)

/-- `parser.rs`: `validate_bytes`.  On success the Rust code wraps the same
bytes into a `Str`; on failure the `Utf8Error` is surfaced, modelled by its
`valid_up_to` position. -/
def validate_bytes (val : List Byte) : Except Nat (List Byte) :=
  match utf8Err val with
  | none => .ok val
  | some e => .error e

/-- `parser.rs`: `RawEventLineOwned::validate`. -/
def RawEventLineOwned.validate : RawEventLineOwned → Except Nat ValidatedEventLine
  | .Comment => .ok .Comment
  | .Empty => .ok .Empty
  | .Field field_name field_value =>
    let field_name :=
      if field_name = eventNameBytes then FieldName.Event
      else if field_name = dataNameBytes then FieldName.Data
      else if field_name = idNameBytes then FieldName.Id
      else if field_name = retryNameBytes then FieldName.Retry
      else FieldName.Ignored
    match field_value with
    | some b =>
      match validate_bytes b with
      | .ok s => .ok (.Field field_name (some s))
      | .error e => .error e
    | none => .ok (.Field field_name none)

/-- `parser.rs`: `find_eol`.  Returns `(line_end, rem_start)`:  the
non-inclusive end of the line and the inclusive start of the remainder; `none`
when no complete EOL is present (including a lone CR as the final byte). -/
def find_eol (bytes : List Byte) : Option (Nat × Nat) :=
  match memchr2 CR LF bytes with
  | none => none
  | some first_match =>
    if bytes.getD first_match 0 = LF then some (first_match, first_match + 1)
    else
      -- the byte is CR
      if first_match + 1 ≥ bytes.length then none
      else if bytes.getD (first_match + 1) 0 = LF then some (first_match, first_match + 2)
      else some (first_match, first_match + 1)

/-- `parser.rs`: `split_at_next_eol`. -/
def split_at_next_eol (bytes : List Byte) : Option (List Byte × List Byte) :=
  (find_eol bytes).map fun p => (bytes.take p.1, bytes.drop p.2)

/-- `parser.rs`: `read_line`. -/
def read_line (bytes : List Byte) : RawEventLine :=
  match memchr COLON bytes with
  | some colon_pos =>
    if colon_pos = 0 then .Comment
    else
      let value := bytes.drop (colon_pos + 1)
      -- strip single leading space if present
      let value := match value with
        | 0x20 :: rest => rest
        | _ => value
      .Field (bytes.take colon_pos) (some value)
  | none =>
    if bytes.isEmpty then .Empty
    else .Field bytes none

/-- `parser.rs`: `parse_line`. -/
def parse_line (bytes : List Byte) : Option (RawEventLine × List Byte) :=
  (split_at_next_eol bytes).map fun p => (read_line p.1, p.2)

/-- `parser.rs`: `parse_line_from_buffer`.  The mutable `BytesMut` buffer is
modelled by returning the advanced buffer alongside the line. -/
def parse_line_from_buffer (buffer : List Byte) : Option (RawEventLineOwned × List Byte) :=
  match find_eol buffer with
  | none => none
  | some (line_end, rem_start) =>
    let line := buffer.take line_end
    let buffer := buffer.drop rem_start
    if line.isEmpty then some (.Empty, buffer)
    else
      match memchr COLON line with
      | some 0 => some (.Comment, buffer)
      | some colon_pos =>
        let value_start := if List.get? line (colon_pos + 1) = some SPACE
          then colon_pos + 2 else colon_pos + 1
        some (.Field (line.take colon_pos) (some (line.drop value_start)), buffer)
      | none => some (.Field line none, buffer)

/-- `parser.rs`: `parse_line_from_bytes`.  Its body is byte-for-byte the body
of `parse_line_from_buffer`, only over `Bytes` instead of `BytesMut`; in the
model the two coincide. -/
def parse_line_from_bytes (buffer : List Byte) : Option (RawEventLineOwned × List Byte) :=
  parse_line_from_buffer buffer

/-! ## The event builder (`src/event_stream.rs`) -/

/-- `event_stream.rs`: `EventBuilder`.  `retry` is the millisecond count of
the `Duration`. -/
structure EventBuilder where
  event : List Byte
  id : List Byte
  data_buffer : List Byte
  retry : Option Nat
  is_complete : Bool
deriving Repr, DecidableEq

/-- `event_stream.rs`: `EventBuilder::default`. -/
def EventBuilder.default : EventBuilder :=
  { event := [], id := [], data_buffer := [], retry := none, is_complete := false }

instance : Inhabited EventBuilder := ⟨EventBuilder.default⟩

/-- `event.rs`: `Event`. -/
structure Event where
  event : List Byte
  data : List Byte
  id : List Byte
  retry : Option Nat
deriving Repr, DecidableEq

/-- Rust `<u64 as FromStr>::from_str` on the bytes of an ASCII string: an
optional leading `+`, then one or more decimal digits, failing on overflow
past `2 ^ 64 - 1`. -/
def parse_u64 (s : List Byte) : Option Nat :=
  let digits := match s with
    | 0x2B :: rest => rest
    | _ => s
  if digits.isEmpty then none
  else if digits.all (fun c => 0x30 ≤ c && c ≤ 0x39) then
    let val := digits.foldl (fun acc c => acc * 10 + (c - 0x30)) 0
    if val < 2 ^ 64 then some val else none
  else none

/-- `event_stream.rs`: `EventBuilder::add`. -/
def EventBuilder.add (self : EventBuilder) (line : ValidatedEventLine) : EventBuilder :=
  match line with
  | .Empty => { self with is_complete := true }
  | .Field .Event (some field_value) => { self with event := field_value }
  | .Field .Event none => self
  | .Field .Data field_value =>
    { self with data_buffer := self.data_buffer ++ field_value.getD [] ++ [LF] }
  | .Field .Id field_value =>
    let no_null_byte := (field_value.map (fun fv => (memchr 0 fv).isNone)).getD true
    if no_null_byte then { self with id := field_value.getD [] } else self
  | .Field .Retry field_value =>
    match field_value.map parse_u64 with
    | some (some val) => { self with retry := some val }
    | _ => self
  | .Comment => self
  | .Field .Ignored _ => self

/-- `event_stream.rs`: `EventBuilder::dispatch`.  `core::mem::take(self)`
followed by `self.id = id.clone()` leaves the builder at its default with the
id preserved; an event is produced exactly when the data buffer is non-empty,
with the trailing LF removed and an empty event type replaced by
`"message"`. -/
def EventBuilder.dispatch (self : EventBuilder) : Option Event × EventBuilder :=
  let selfAfter : EventBuilder := { EventBuilder.default with id := self.id }
  if self.data_buffer.isEmpty then (none, selfAfter)
  else
    let data_buffer :=
      if self.data_buffer.getLast? = some LF then self.data_buffer.dropLast
      else self.data_buffer
    let event := if self.event.isEmpty then messageBytes else self.event
    (some { event := event, data := data_buffer, id := self.id, retry := self.retry },
     selfAfter)

/-! ## `parse_event` (`src/event_stream.rs`)

The Rust loop repeatedly pops one line from the buffer, validates it, feeds it
to the builder and dispatches on completion, returning the first emitted event
or error, or `Ok(None)` once no complete line remains.  Each iteration
consumes at least one byte, so the loop is modelled with `buffer.length + 1`
fuel, which is provably enough (`parse_event_loop_congr`). -/

/-- One errored or parsed outcome of `parse_event`: the `Except` carries the
UTF-8 `valid_up_to` position on failure. -/
abbrev ParseEventResult := Except Nat (Option Event) × List Byte × EventBuilder

/-- The loop body of `event_stream.rs`: `parse_event`, with explicit fuel. -/
def parse_event_loop : Nat → List Byte → EventBuilder → ParseEventResult
  | 0, buffer, builder => (.ok none, buffer, builder)
  | fuel + 1, buffer, builder =>
    match parse_line_from_buffer buffer with
    | none => (.ok none, buffer, builder)
    | some (line, buffer') =>
      match line.validate with
      | .error e => (.error e, buffer', builder)
      | .ok event_line =>
        if (builder.add event_line).is_complete then
          match (builder.add event_line).dispatch with
          | (some event, builder'') => (.ok (some event), buffer', builder'')
          | (none, builder'') => parse_event_loop fuel buffer' builder''
        else parse_event_loop fuel buffer' (builder.add event_line)

/-- `event_stream.rs`: `parse_event`. -/
def parse_event (buffer : List Byte) (builder : EventBuilder) : ParseEventResult :=
  if buffer.isEmpty then (.ok none, buffer, builder)
  else parse_event_loop (buffer.length + 1) buffer builder

/-! ### Tokenizer facts -/

theorem memchr2_some_lt {a b : Byte} {l : List Byte} {i : Nat}
    (h : memchr2 a b l = some i) : i < l.length := by
  induction l generalizing i with
  | nil => simp [memchr2] at h
  | cons c rest ih =>
    simp only [memchr2] at h
    split at h
    · simp at h ⊢
      omega
    · cases hr : memchr2 a b rest with
      | none => simp [hr] at h
      | some j =>
        simp [hr] at h
        subst h
        have := ih hr
        simp
        omega

theorem memchr2_some_mem {a b : Byte} {l : List Byte} {i : Nat}
    (h : memchr2 a b l = some i) : l.getD i 0 = a ∨ l.getD i 0 = b := by
  induction l generalizing i with
  | nil => simp [memchr2] at h
  | cons c rest ih =>
    simp only [memchr2] at h
    split at h
    · rename_i hc
      simp at h
      subst h
      simpa using hc
    · cases hr : memchr2 a b rest with
      | none => simp [hr] at h
      | some j =>
        simp [hr] at h
        subst h
        simpa using ih hr

theorem memchr2_first {a b : Byte} {l : List Byte} {i : Nat}
    (h : memchr2 a b l = some i) : ∀ j < i, l.getD j 0 ≠ a ∧ l.getD j 0 ≠ b := by
  induction l generalizing i with
  | nil => simp [memchr2] at h
  | cons c rest ih =>
    simp only [memchr2] at h
    split at h
    · simp at h
      omega
    · rename_i hc
      cases hr : memchr2 a b rest with
      | none => simp [hr] at h
      | some j =>
        simp [hr] at h
        subst h
        intro k hk
        cases k with
        | zero => simpa using (not_or.mp hc)
        | succ k' =>
          simpa using ih hr k' (by omega)

theorem memchr2_none {a b : Byte} {l : List Byte}
    (h : memchr2 a b l = none) : ∀ j < l.length, l.getD j 0 ≠ a ∧ l.getD j 0 ≠ b := by
  induction l with
  | nil => simp
  | cons c rest ih =>
    simp only [memchr2] at h
    split at h
    · simp at h
    · rename_i hc
      cases hr : memchr2 a b rest with
      | some j => simp [hr] at h
      | none =>
        intro k hk
        cases k with
        | zero => simpa using (not_or.mp hc)
        | succ k' => exact ih hr k' (by simpa using hk)

theorem memchr2_append_left {a b : Byte} {l ext : List Byte} {i : Nat}
    (h : memchr2 a b l = some i) : memchr2 a b (l ++ ext) = some i := by
  induction l generalizing i with
  | nil => simp [memchr2] at h
  | cons c rest ih =>
    simp only [memchr2, List.cons_append] at h ⊢
    split at h
    · simp_all
    · rename_i hc
      cases hr : memchr2 a b rest with
      | none => simp [hr] at h
      | some j =>
        simp [hr] at h
        simp [hc, ih hr, ← h]

theorem find_eol_none {b : List Byte} (hm : memchr2 CR LF b = none) :
    find_eol b = none := by
  unfold find_eol
  rw [hm]

theorem find_eol_eq_some {b : List Byte} {fm : Nat} (hm : memchr2 CR LF b = some fm) :
    find_eol b =
      if b.getD fm 0 = LF then some (fm, fm + 1)
      else if fm + 1 ≥ b.length then none
      else if b.getD (fm + 1) 0 = LF then some (fm, fm + 2)
      else some (fm, fm + 1) := by
  unfold find_eol
  rw [hm]

theorem find_eol_bounds {b : List Byte} {le rs : Nat} (h : find_eol b = some (le, rs)) :
    le < rs ∧ rs ≤ b.length ∧ le < b.length := by
  cases hm : memchr2 CR LF b with
  | none => rw [find_eol_none hm] at h; exact absurd h (by simp)
  | some fm =>
    have hfm := memchr2_some_lt hm
    rw [find_eol_eq_some hm] at h
    split at h
    · simp at h
      omega
    · split at h
      · simp at h
      · split at h <;> (simp at h; omega)

theorem find_eol_append {b ext : List Byte} {le rs : Nat} (h : find_eol b = some (le, rs)) :
    find_eol (b ++ ext) = some (le, rs) := by
  cases hm : memchr2 CR LF b with
  | none => rw [find_eol_none hm] at h; exact absurd h (by simp)
  | some fm =>
    have hfm := memchr2_some_lt hm
    rw [find_eol_eq_some hm] at h
    rw [find_eol_eq_some (memchr2_append_left hm)]
    rw [List.getD_append _ _ _ _ hfm]
    by_cases hlf : b.getD fm 0 = LF
    · rw [if_pos hlf] at h ⊢
      exact h
    · rw [if_neg hlf] at h ⊢
      by_cases hlen : fm + 1 ≥ b.length
      · rw [if_pos hlen] at h
        exact absurd h (by simp)
      · have h1 : fm + 1 < b.length := by omega
        rw [if_neg hlen] at h
        rw [if_neg (by simp; omega), List.getD_append _ _ _ _ h1]
        exact h

/-- The classification part of `parse_line_from_buffer` as a function of the
line bytes alone. -/
def lineToRaw (line : List Byte) : RawEventLineOwned :=
  if line.isEmpty then .Empty
  else
    match memchr COLON line with
    | some 0 => .Comment
    | some colon_pos =>
      let value_start := if List.get? line (colon_pos + 1) = some SPACE
        then colon_pos + 2 else colon_pos + 1
      .Field (line.take colon_pos) (some (line.drop value_start))
    | none => .Field line none

theorem parse_line_from_buffer_eq (buffer : List Byte) :
    parse_line_from_buffer buffer =
      (find_eol buffer).map fun p => (lineToRaw (buffer.take p.1), buffer.drop p.2) := by
  unfold parse_line_from_buffer lineToRaw
  cases h : find_eol buffer with
  | none => rfl
  | some p =>
    obtain ⟨le, rs⟩ := p
    dsimp only [Option.map]
    by_cases he : (buffer.take le).isEmpty
    · rw [if_pos he, if_pos he]
    · rw [if_neg he, if_neg he]
      cases hc : memchr COLON (buffer.take le) with
      | none => rfl
      | some cp =>
        cases cp with
        | zero => rfl
        | succ n => rfl

theorem parse_line_from_buffer_append {buffer b' : List Byte} {l : RawEventLineOwned}
    (ext : List Byte) (h : parse_line_from_buffer buffer = some (l, b')) :
    parse_line_from_buffer (buffer ++ ext) = some (l, b' ++ ext) := by
  rw [parse_line_from_buffer_eq] at h
  cases hfe : find_eol buffer with
  | none => simp [hfe] at h
  | some p =>
    obtain ⟨le, rs⟩ := p
    obtain ⟨h1, h2, h3⟩ := find_eol_bounds hfe
    simp only [hfe, Option.map_some', Option.some_inj, Prod.mk.injEq] at h
    obtain ⟨hl, hb'⟩ := h
    rw [parse_line_from_buffer_eq, find_eol_append hfe]
    simp only [Option.map_some']
    rw [List.take_append_of_le_length (by omega), List.drop_append_of_le_length (by omega),
      hl, hb']

theorem parse_line_from_buffer_drop {buffer b' : List Byte} {l : RawEventLineOwned}
    (h : parse_line_from_buffer buffer = some (l, b')) :
    ∃ rs, 0 < rs ∧ rs ≤ buffer.length ∧ b' = buffer.drop rs := by
  rw [parse_line_from_buffer_eq] at h
  cases hfe : find_eol buffer with
  | none => simp [hfe] at h
  | some p =>
    obtain ⟨le, rs⟩ := p
    obtain ⟨h1, h2, h3⟩ := find_eol_bounds hfe
    simp only [hfe, Option.map_some', Option.some_inj, Prod.mk.injEq] at h
    obtain ⟨hl, hb'⟩ := h
    exact ⟨rs, by omega, h2, hb'.symm⟩

theorem parse_line_from_buffer_length {buffer b' : List Byte} {l : RawEventLineOwned}
    (h : parse_line_from_buffer buffer = some (l, b')) : b'.length < buffer.length := by
  obtain ⟨rs, h0, hle, hb⟩ := parse_line_from_buffer_drop h
  subst hb
  simp
  omega

theorem parse_line_from_buffer_nil : parse_line_from_buffer [] = none := by
  simp [parse_line_from_buffer_eq, find_eol, memchr2]

theorem getLast?_getD {l : List Byte} {x : Byte} (h : l.getLast? = some x) :
    l.getD (l.length - 1) 0 = x := by
  cases l with
  | nil => simp at h
  | cons y ys =>
    rw [List.getLast?_eq_getLast _ (by simp)] at h
    injection h with h
    rw [List.getD_eq_getElem _ _ (Nat.sub_lt (by simp) Nat.one_pos), ← h,
      List.getLast_eq_getElem]

/-- When the buffer ends in CR, any terminator `find_eol` finds lies strictly
before the end of the buffer. -/
theorem find_eol_last_cr {buffer : List Byte} {le rs : Nat}
    (hcr : buffer.getLast? = some CR) (h : find_eol buffer = some (le, rs)) :
    rs < buffer.length := by
  cases hm : memchr2 CR LF buffer with
  | none => rw [find_eol_none hm] at h; exact absurd h (by simp)
  | some fm =>
    have hfm := memchr2_some_lt hm
    have hlast := getLast?_getD hcr
    rw [find_eol_eq_some hm] at h
    split at h
    · rename_i hlf
      simp at h
      -- rs = fm + 1; fm cannot be the final byte because that byte is CR
      by_contra hge
      have : fm = buffer.length - 1 := by omega
      rw [this, hlast] at hlf
      simp [CR, LF] at hlf
    · split at h
      · exact absurd h (by simp)
      · rename_i hlen
        split at h
        · rename_i hlf2
          simp at h
          -- rs = fm + 2; the byte at fm + 1 is LF, so it is not the final CR
          by_contra hge
          have : fm + 1 = buffer.length - 1 := by omega
          rw [this, hlast] at hlf2
          simp [CR, LF] at hlf2
        · simp at h
          omega

/-- A lone CR at the end of the buffer is never consumed: the continuation
buffer stays non-empty. -/
theorem parse_line_from_buffer_last_cr {buffer b' : List Byte} {l : RawEventLineOwned}
    (h : parse_line_from_buffer buffer = some (l, b'))
    (hcr : buffer.getLast? = some CR) : b' ≠ [] := by
  rw [parse_line_from_buffer_eq] at h
  cases hfe : find_eol buffer with
  | none => simp [hfe] at h
  | some p =>
    obtain ⟨le, rs⟩ := p
    have hrs := find_eol_last_cr hcr hfe
    simp only [hfe] at h
    simp at h
    obtain ⟨-, hb'⟩ := h
    subst hb'
    simp [List.drop_eq_nil_iff]
    omega

theorem parse_event_loop_congr : ∀ {n m : Nat} {buffer : List Byte} {builder : EventBuilder},
    buffer.length < n → buffer.length < m →
    parse_event_loop n buffer builder = parse_event_loop m buffer builder := by
  intro n
  induction n with
  | zero => intro m buffer builder hn; omega
  | succ n ih =>
    intro m buffer builder hn hm
    cases m with
    | zero => omega
    | succ m =>
      simp only [parse_event_loop]
      cases h : parse_line_from_buffer buffer with
      | none => rfl
      | some p =>
        obtain ⟨line, buffer'⟩ := p
        have hlt := parse_line_from_buffer_length h
        dsimp only
        cases hv : line.validate with
        | error e => rfl
        | ok el =>
          dsimp only
          split
          · cases hd : ((builder.add el).dispatch) with
            | mk o b'' =>
              cases o with
              | some ev => rfl
              | none => exact ih (by omega) (by omega)
          · exact ih (by omega) (by omega)

theorem parse_event_eq_loop {n : Nat} {buffer : List Byte} {builder : EventBuilder}
    (hn : buffer.length < n) :
    parse_event buffer builder = parse_event_loop n buffer builder := by
  unfold parse_event
  split
  · rename_i he
    have : buffer = [] := by simpa using he
    subst this
    cases n with
    | zero => omega
    | succ n => simp [parse_event_loop, parse_line_from_buffer_nil]
  · exact parse_event_loop_congr (by omega) hn

/-- The recursion equation for `parse_event`, used throughout. -/
theorem parse_event_unfold (buffer : List Byte) (builder : EventBuilder) :
    parse_event buffer builder =
      match parse_line_from_buffer buffer with
      | none => (.ok none, buffer, builder)
      | some (line, buffer') =>
        match line.validate with
        | .error e => (.error e, buffer', builder)
        | .ok event_line =>
          if (builder.add event_line).is_complete then
            match (builder.add event_line).dispatch with
            | (some event, builder'') => (.ok (some event), buffer', builder'')
            | (none, builder'') => parse_event buffer' builder''
          else parse_event buffer' (builder.add event_line) := by
  rw [parse_event_eq_loop (n := buffer.length + 1) (by omega)]
  simp only [parse_event_loop]
  cases h : parse_line_from_buffer buffer with
  | none => rfl
  | some p =>
    obtain ⟨line, buffer'⟩ := p
    have hlt := parse_line_from_buffer_length h
    dsimp only
    cases hv : line.validate with
    | error e => rfl
    | ok el =>
      dsimp only
      split
      · cases hd : ((builder.add el).dispatch) with
        | mk o b'' =>
          cases o with
          | some ev => rfl
          | none => exact (parse_event_eq_loop (by omega)).symm
      · exact (parse_event_eq_loop (by omega)).symm

/-! ### `parse_event` corollaries -/

theorem getLast?_drop_of_ne_nil {l : List Byte} {n : Nat} (h : l.drop n ≠ []) :
    (l.drop n).getLast? = l.getLast? := by
  conv_rhs => rw [← List.take_append_drop n l]
  rw [List.getLast?_append]
  cases hd : (l.drop n).getLast? with
  | none => exact absurd (List.getLast?_eq_none_iff.mp hd) h
  | some x => rfl

/-! Branch-specific unfolding equations for `parse_event`. -/

theorem parse_event_none {buffer : List Byte} (builder : EventBuilder)
    (h : parse_line_from_buffer buffer = none) :
    parse_event buffer builder = (.ok none, buffer, builder) := by
  rw [parse_event_unfold, h]

theorem parse_event_line_error {buffer buffer' : List Byte} {line : RawEventLineOwned}
    {e : Nat} (builder : EventBuilder)
    (h : parse_line_from_buffer buffer = some (line, buffer'))
    (hv : line.validate = .error e) :
    parse_event buffer builder = (.error e, buffer', builder) := by
  rw [parse_event_unfold, h]
  simp only [hv]

theorem parse_event_line_event {buffer buffer' : List Byte} {line : RawEventLineOwned}
    {el : ValidatedEventLine} {ev : Event} {b'' : EventBuilder} (builder : EventBuilder)
    (h : parse_line_from_buffer buffer = some (line, buffer'))
    (hv : line.validate = .ok el)
    (hic : (builder.add el).is_complete = true)
    (hd : (builder.add el).dispatch = (some ev, b'')) :
    parse_event buffer builder = (.ok (some ev), buffer', b'') := by
  rw [parse_event_unfold, h]
  simp only [hv, hic, if_true, hd]

theorem parse_event_line_cont_dispatch {buffer buffer' : List Byte}
    {line : RawEventLineOwned} {el : ValidatedEventLine} {b'' : EventBuilder}
    (builder : EventBuilder)
    (h : parse_line_from_buffer buffer = some (line, buffer'))
    (hv : line.validate = .ok el)
    (hic : (builder.add el).is_complete = true)
    (hd : (builder.add el).dispatch = (none, b'')) :
    parse_event buffer builder = parse_event buffer' b'' := by
  rw [parse_event_unfold, h]
  simp only [hv, hic, if_true, hd]

theorem parse_event_line_cont {buffer buffer' : List Byte}
    {line : RawEventLineOwned} {el : ValidatedEventLine} (builder : EventBuilder)
    (h : parse_line_from_buffer buffer = some (line, buffer'))
    (hv : line.validate = .ok el)
    (hic : (builder.add el).is_complete = false) :
    parse_event buffer builder = parse_event buffer' (builder.add el) := by
  rw [parse_event_unfold, h]
  simp only [hv, hic, Bool.false_eq_true, if_false]

/-- `parse_event` only ever drops consumed bytes from the front of the
buffer. -/
theorem parse_event_suffix (buffer : List Byte) (builder : EventBuilder) :
    ∃ k, k ≤ buffer.length ∧ (parse_event buffer builder).2.1 = buffer.drop k := by
  have main : ∀ (n : Nat) (buffer : List Byte) (builder : EventBuilder), buffer.length < n →
      ∃ k, k ≤ buffer.length ∧ (parse_event buffer builder).2.1 = buffer.drop k := by
    intro n
    induction n with
    | zero => intro buffer builder h; omega
    | succ n ih => ?_
    intro buffer builder hlen
    cases h : parse_line_from_buffer buffer with
    | none => exact ⟨0, by omega, by simp [parse_event_none builder h]⟩
    | some p =>
      obtain ⟨line, buffer'⟩ := p
      obtain ⟨rs, hrs0, hrsle, hb'⟩ := parse_line_from_buffer_drop h
      have hlt := parse_line_from_buffer_length h
      have hlen' : buffer'.length = buffer.length - rs := by rw [hb']; simp
      have hcomp : ∀ k, k ≤ buffer'.length → buffer'.drop k = buffer.drop (rs + k) := by
        intro k hk
        rw [hb', List.drop_drop, Nat.add_comm]
      cases hv : line.validate with
      | error e =>
        exact ⟨rs, hrsle, by rw [parse_event_line_error builder h hv, hb']⟩
      | ok el =>
        cases hic : (builder.add el).is_complete with
        | true =>
          cases hd : (builder.add el).dispatch with
          | mk o b'' =>
            cases o with
            | some ev =>
              exact ⟨rs, hrsle, by rw [parse_event_line_event builder h hv hic hd, hb']⟩
            | none =>
              obtain ⟨k, hk, he⟩ := ih buffer' b'' (by omega)
              refine ⟨rs + k, by omega, ?_⟩
              rw [parse_event_line_cont_dispatch builder h hv hic hd, he, hcomp k hk]
        | false =>
          obtain ⟨k, hk, he⟩ := ih buffer' (builder.add el) (by omega)
          refine ⟨rs + k, by omega, ?_⟩
          rw [parse_event_line_cont builder h hv hic, he, hcomp k hk]
  exact main (buffer.length + 1) buffer builder (by omega)

/-- Any outcome other than `Ok(None)` strictly consumes buffer bytes. -/
theorem parse_event_lt (buffer : List Byte) (builder : EventBuilder)
    (h : (parse_event buffer builder).1 ≠ .ok none) :
    (parse_event buffer builder).2.1.length < buffer.length := by
  have main : ∀ (n : Nat) (buffer : List Byte) (builder : EventBuilder), buffer.length < n →
      (parse_event buffer builder).1 ≠ .ok none →
      (parse_event buffer builder).2.1.length < buffer.length := by
    intro n
    induction n with
    | zero => intro buffer builder h; omega
    | succ n ih => ?_
    intro buffer builder hlen h
    cases hp : parse_line_from_buffer buffer with
    | none => rw [parse_event_none builder hp] at h; simp at h
    | some p =>
      obtain ⟨line, buffer'⟩ := p
      have hlt := parse_line_from_buffer_length hp
      cases hv : line.validate with
      | error e => rw [parse_event_line_error builder hp hv]; exact hlt
      | ok el =>
        cases hic : (builder.add el).is_complete with
        | true =>
          cases hd : (builder.add el).dispatch with
          | mk o b'' =>
            cases o with
            | some ev => rw [parse_event_line_event builder hp hv hic hd]; exact hlt
            | none =>
              rw [parse_event_line_cont_dispatch builder hp hv hic hd] at h ⊢
              exact lt_trans (ih buffer' b'' (by omega) h) hlt
        | false =>
          rw [parse_event_line_cont builder hp hv hic] at h ⊢
          exact lt_trans (ih buffer' (builder.add el) (by omega) h) hlt
  exact main (buffer.length + 1) buffer builder (by omega) h

/-- After `parse_event` reports `Ok(None)`, no complete line remains. -/
theorem parse_event_quiescent {buffer : List Byte} {builder : EventBuilder}
    (h : (parse_event buffer builder).1 = .ok none) :
    parse_line_from_buffer ((parse_event buffer builder).2.1) = none := by
  have main : ∀ (n : Nat) (buffer : List Byte) (builder : EventBuilder), buffer.length < n →
      (parse_event buffer builder).1 = .ok none →
      parse_line_from_buffer ((parse_event buffer builder).2.1) = none := by
    intro n
    induction n with
    | zero => intro buffer builder h; omega
    | succ n ih => ?_
    intro buffer builder hlen h
    cases hp : parse_line_from_buffer buffer with
    | none => rw [parse_event_none builder hp]; exact hp
    | some p =>
      obtain ⟨line, buffer'⟩ := p
      have hlt := parse_line_from_buffer_length hp
      cases hv : line.validate with
      | error e => rw [parse_event_line_error builder hp hv] at h; simp at h
      | ok el =>
        cases hic : (builder.add el).is_complete with
        | true =>
          cases hd : (builder.add el).dispatch with
          | mk o b'' =>
            cases o with
            | some ev => rw [parse_event_line_event builder hp hv hic hd] at h; simp at h
            | none =>
              rw [parse_event_line_cont_dispatch builder hp hv hic hd] at h ⊢
              exact ih buffer' b'' (by omega) h
        | false =>
          rw [parse_event_line_cont builder hp hv hic] at h ⊢
          exact ih buffer' (builder.add el) (by omega) h
  exact main (buffer.length + 1) buffer builder (by omega) h

/-- A trailing CR survives `parse_event` untouched at the end of the
buffer. -/
theorem parse_event_last_cr {buffer : List Byte} (builder : EventBuilder)
    (hcr : buffer.getLast? = some CR) :
    (parse_event buffer builder).2.1 ≠ [] ∧
      (parse_event buffer builder).2.1.getLast? = some CR := by
  have main : ∀ (n : Nat) (buffer : List Byte) (builder : EventBuilder), buffer.length < n →
      buffer.getLast? = some CR →
      (parse_event buffer builder).2.1 ≠ [] ∧
        (parse_event buffer builder).2.1.getLast? = some CR := by
    intro n
    induction n with
    | zero => intro buffer builder h; omega
    | succ n ih => ?_
    intro buffer builder hlen hcr
    cases hp : parse_line_from_buffer buffer with
    | none =>
      rw [parse_event_none builder hp]
      refine ⟨?_, hcr⟩
      intro hnil
      have hb : buffer = [] := hnil
      rw [hb] at hcr
      simp at hcr
    | some p =>
      obtain ⟨line, buffer'⟩ := p
      have hlt := parse_line_from_buffer_length hp
      have hne := parse_line_from_buffer_last_cr hp hcr
      obtain ⟨rs, hrs0, hrsle, hb'⟩ := parse_line_from_buffer_drop hp
      have hcr' : buffer'.getLast? = some CR := by
        rw [hb'] at hne ⊢
        rw [getLast?_drop_of_ne_nil hne]
        exact hcr
      cases hv : line.validate with
      | error e => rw [parse_event_line_error builder hp hv]; exact ⟨hne, hcr'⟩
      | ok el =>
        cases hic : (builder.add el).is_complete with
        | true =>
          cases hd : (builder.add el).dispatch with
          | mk o b'' =>
            cases o with
            | some ev =>
              rw [parse_event_line_event builder hp hv hic hd]
              exact ⟨hne, hcr'⟩
            | none =>
              rw [parse_event_line_cont_dispatch builder hp hv hic hd]
              exact ih buffer' b'' (by omega) hcr'
        | false =>
          rw [parse_event_line_cont builder hp hv hic]
          exact ih buffer' (builder.add el) (by omega) hcr'
  exact main (buffer.length + 1) buffer builder (by omega) hcr

/-- Appending bytes to a buffer on which `parse_event` reports `Ok(None)`
continues the parse from the leftover state. -/
theorem parse_event_append_none {buffer b0 : List Byte} {builder bl0 : EventBuilder}
    (h : parse_event buffer builder = (.ok none, b0, bl0)) (ext : List Byte) :
    parse_event (buffer ++ ext) builder = parse_event (b0 ++ ext) bl0 := by
  have main : ∀ (n : Nat) (buffer : List Byte) (builder : EventBuilder), buffer.length < n →
      parse_event buffer builder = (.ok none, b0, bl0) →
      parse_event (buffer ++ ext) builder = parse_event (b0 ++ ext) bl0 := by
    intro n
    induction n with
    | zero => intro buffer builder h; omega
    | succ n ih => ?_
    intro buffer builder hlen h
    cases hp : parse_line_from_buffer buffer with
    | none =>
      rw [parse_event_none builder hp] at h
      have h2 : buffer = b0 := congrArg (fun x => x.2.1) h
      have h3 : builder = bl0 := congrArg (fun x => x.2.2) h
      rw [h2, h3]
    | some p =>
      obtain ⟨line, buffer'⟩ := p
      have hlt := parse_line_from_buffer_length hp
      have hap := parse_line_from_buffer_append ext hp
      cases hv : line.validate with
      | error e =>
        rw [parse_event_line_error builder hp hv] at h
        exact absurd (congrArg Prod.fst h) (by simp)
      | ok el =>
        cases hic : (builder.add el).is_complete with
        | true =>
          cases hd : (builder.add el).dispatch with
          | mk o b'' =>
            cases o with
            | some ev =>
              rw [parse_event_line_event builder hp hv hic hd] at h
              exact absurd (congrArg Prod.fst h) (by simp)
            | none =>
              rw [parse_event_line_cont_dispatch builder hp hv hic hd] at h
              rw [parse_event_line_cont_dispatch builder hap hv hic hd]
              exact ih buffer' b'' (by omega) h
        | false =>
          rw [parse_event_line_cont builder hp hv hic] at h
          rw [parse_event_line_cont builder hap hv hic]
          exact ih buffer' (builder.add el) (by omega) h
  exact main (buffer.length + 1) buffer builder (by omega) h

/-- Appending bytes past the point where `parse_event` already produced an
event or error does not disturb that outcome. -/
theorem parse_event_append_out {buffer b0 : List Byte} {builder bl0 : EventBuilder}
    {r : Except Nat (Option Event)}
    (h : parse_event buffer builder = (r, b0, bl0)) (hr : r ≠ .ok none) (ext : List Byte) :
    parse_event (buffer ++ ext) builder = (r, b0 ++ ext, bl0) := by
  have main : ∀ (n : Nat) (buffer : List Byte) (builder : EventBuilder), buffer.length < n →
      parse_event buffer builder = (r, b0, bl0) →
      parse_event (buffer ++ ext) builder = (r, b0 ++ ext, bl0) := by
    intro n
    induction n with
    | zero => intro buffer builder h; omega
    | succ n ih => ?_
    intro buffer builder hlen h
    cases hp : parse_line_from_buffer buffer with
    | none =>
      rw [parse_event_none builder hp] at h
      have h1 : Except.ok none = r := congrArg Prod.fst h
      exact absurd h1.symm hr
    | some p =>
      obtain ⟨line, buffer'⟩ := p
      have hlt := parse_line_from_buffer_length hp
      have hap := parse_line_from_buffer_append ext hp
      cases hv : line.validate with
      | error e =>
        rw [parse_event_line_error builder hp hv] at h
        have h1 : Except.error (α := Option Event) e = r := congrArg Prod.fst h
        have h2 : buffer' = b0 := congrArg (fun x => x.2.1) h
        have h3 : builder = bl0 := congrArg (fun x => x.2.2) h
        rw [parse_event_line_error builder hap hv, ← h1, ← h2, ← h3]
      | ok el =>
        cases hic : (builder.add el).is_complete with
        | true =>
          cases hd : (builder.add el).dispatch with
          | mk o b'' =>
            cases o with
            | some ev =>
              rw [parse_event_line_event builder hp hv hic hd] at h
              have h1 : Except.ok (some ev) = r := congrArg Prod.fst h
              have h2 : buffer' = b0 := congrArg (fun x => x.2.1) h
              have h3 : b'' = bl0 := congrArg (fun x => x.2.2) h
              rw [parse_event_line_event builder hap hv hic hd, ← h1, ← h2, ← h3]
            | none =>
              rw [parse_event_line_cont_dispatch builder hp hv hic hd] at h
              rw [parse_event_line_cont_dispatch builder hap hv hic hd]
              exact ih buffer' b'' (by omega) h
        | false =>
          rw [parse_event_line_cont builder hp hv hic] at h
          rw [parse_event_line_cont builder hap hv hic]
          exact ih buffer' (builder.add el) (by omega) h
  exact main (buffer.length + 1) buffer builder (by omega) h


/-! ## Fully draining a buffer

`drainAll` collects every event and error that repeatedly calling
`parse_event` on the buffer would produce until it reports `Ok(None)`.  The
streaming adapters emit these items one per poll; `drainAll` is the big-step
view used to relate chunked runs to a single-buffer run. -/

def drainAll_loop : Nat → List Byte → EventBuilder →
    List (Except Nat Event) × List Byte × EventBuilder
  | 0, buffer, builder => ([], buffer, builder)
  | fuel + 1, buffer, builder =>
    match (parse_event buffer builder).1 with
    | .ok none => ([], (parse_event buffer builder).2)
    | .ok (some ev) =>
      (.ok ev :: (drainAll_loop fuel (parse_event buffer builder).2.1
          (parse_event buffer builder).2.2).1,
        (drainAll_loop fuel (parse_event buffer builder).2.1
          (parse_event buffer builder).2.2).2)
    | .error e =>
      (.error e :: (drainAll_loop fuel (parse_event buffer builder).2.1
          (parse_event buffer builder).2.2).1,
        (drainAll_loop fuel (parse_event buffer builder).2.1
          (parse_event buffer builder).2.2).2)

def drainAll (buffer : List Byte) (builder : EventBuilder) :
    List (Except Nat Event) × List Byte × EventBuilder :=
  drainAll_loop (buffer.length + 1) buffer builder

theorem drainAll_loop_congr : ∀ {n m : Nat} {buffer : List Byte} {builder : EventBuilder},
    buffer.length < n → buffer.length < m →
    drainAll_loop n buffer builder = drainAll_loop m buffer builder := by
  intro n
  induction n with
  | zero => intro m buffer builder hn; omega
  | succ n ih =>
    intro m buffer builder hn hm
    cases m with
    | zero => omega
    | succ m =>
      simp only [drainAll_loop]
      cases hp : parse_event buffer builder with
      | mk r s =>
        obtain ⟨b, bl⟩ := s
        simp only [hp]
        cases r with
        | error e =>
          have hlt : b.length < buffer.length := by
            have := parse_event_lt buffer builder (by simp [hp])
            rwa [hp] at this
          dsimp only
          rw [ih (m := m) (by omega) (by omega)]
        | ok o =>
          cases o with
          | none => rfl
          | some ev =>
            have hlt : b.length < buffer.length := by
              have := parse_event_lt buffer builder (by simp [hp])
              rwa [hp] at this
            dsimp only
            rw [ih (m := m) (by omega) (by omega)]

theorem drainAll_unfold (buffer : List Byte) (builder : EventBuilder) :
    drainAll buffer builder =
      match (parse_event buffer builder).1 with
      | .ok none => ([], (parse_event buffer builder).2)
      | .ok (some ev) =>
        (.ok ev :: (drainAll (parse_event buffer builder).2.1
            (parse_event buffer builder).2.2).1,
          (drainAll (parse_event buffer builder).2.1
            (parse_event buffer builder).2.2).2)
      | .error e =>
        (.error e :: (drainAll (parse_event buffer builder).2.1
            (parse_event buffer builder).2.2).1,
          (drainAll (parse_event buffer builder).2.1
            (parse_event buffer builder).2.2).2) := by
  unfold drainAll
  simp only [drainAll_loop]
  cases hp : parse_event buffer builder with
  | mk r s =>
    obtain ⟨b, bl⟩ := s
    simp only [hp]
    cases r with
    | error e =>
      have hlt : b.length < buffer.length := by
        have := parse_event_lt buffer builder (by simp [hp])
        rwa [hp] at this
      dsimp only
      rw [drainAll_loop_congr (m := b.length + 1) (by omega) (by omega)]
      simp only [drainAll_loop]
    | ok o =>
      cases o with
      | none => rfl
      | some ev =>
        have hlt : b.length < buffer.length := by
          have := parse_event_lt buffer builder (by simp [hp])
          rwa [hp] at this
        dsimp only
        rw [drainAll_loop_congr (m := b.length + 1) (by omega) (by omega)]
        simp only [drainAll_loop]

/-- `drainAll` only looks at the buffer through `parse_event`. -/
theorem drainAll_eq_of_parse_eq {x y : List Byte} {bx by' : EventBuilder}
    (h : parse_event x bx = parse_event y by') : drainAll x bx = drainAll y by' := by
  conv_lhs => rw [drainAll_unfold]
  conv_rhs => rw [drainAll_unfold]
  rw [h]

/-! ## The generic streaming adapter (`src/event_stream/generic.rs`)

The upstream `Stream` is modelled as the list of items it will deliver, in
order; reaching the end of the list is upstream EOF.  One `poll_next` call is
a state-transition function returning the poll outcome — `some (Ok event)`,
`some (Err e)` or `none` for `Ready(None)` — together with the successor
state. -/

/-- `errors.rs`: `EventStreamError`.  The `Utf8Error` payload is the
`valid_up_to` position. -/
inductive EventStreamError (E : Type) where
  | Transport (e : E) : EventStreamError E
  | Utf8Error (pos : Nat) : EventStreamError E
deriving Repr, DecidableEq

/-- `event_stream.rs`: `EventStreamState`. -/
inductive EventStreamState where
  | NotStarted | Started | Terminated
deriving Repr, DecidableEq

/-- Modelled from the spec: `starts_with_bom` is declared in the crate's
`event_stream` module and used by both adapters, but its definition is not
among the provided sources.  Spec §4.4 step 6: with at least three bytes
buffered, report whether the buffer begins with the BOM; with one or two
bytes forming a strict prefix of the BOM, report undecided (`none`);
otherwise report no-BOM without waiting. -/
def starts_with_bom (buffer : List Byte) : Option Bool :=
  if buffer.length ≥ BOM.length then some (buffer.take BOM.length = BOM)
  else if buffer ≠ [] ∧ buffer = BOM.take buffer.length then none
  else some false

/-- `generic.rs`: the `EventStream` adapter, with the upstream stream
materialised as its pending item list. -/
structure EventStream (E : Type) where
  stream : List (Except E (List Byte))
  buffer : List Byte
  builder : EventBuilder
  state : EventStreamState
  last_event_id : List Byte

/-- `generic.rs`: `EventStream::new`. -/
def EventStream.new {E : Type} (stream : List (Except E (List Byte))) : EventStream E :=
  { stream := stream
    buffer := []
    builder := EventBuilder.default
    state := .NotStarted
    last_event_id := [] }

/-- `event_stream.rs`: the `try_parse_event_buffer!` macro used by both
adapters: drain one outcome from the buffer, updating `last_event_id` (and
covering the `NotStarted` corner) when an event is produced. -/
def try_parse_event_buffer {E : Type} (s : EventStream E) :
    Option (Except (EventStreamError E) Event) × EventStream E :=
  match parse_event s.buffer s.builder with
  | (.ok (some event), b, bl) =>
    (some (.ok event),
     { s with buffer := b, builder := bl,
              state := if s.state = .NotStarted then .Started else s.state,
              last_event_id := event.id })
  | (.error e, b, bl) =>
    (some (.error (.Utf8Error e)), { s with buffer := b, builder := bl })
  | (.ok none, b, bl) => (none, { s with buffer := b, builder := bl })

/-- The chunk-pulling loop of `generic.rs`: `EventStream::poll_next`,
structurally recursive over the pending upstream items.  The
`try_parse_event_buffer!` early-return of the Rust macro is rendered as
"if the drain produced an outcome, return it, else keep looping"; the nested
match of the BOM detection is rendered with equivalent `if`s: undecided
(`none`) continues the loop still `NotStarted`, otherwise the state becomes
`Started` and the buffer loses the BOM exactly in the `some true` case. -/
def poll_loop {E : Type} : List (Except E (List Byte)) → List Byte → EventBuilder →
    EventStreamState → List Byte →
    Option (Except (EventStreamError E) Event) × EventStream E
  | [], buffer, builder, _, lid =>
    -- upstream EOF: terminate, commit a trailing CR, and flush once more
    try_parse_event_buffer
      ⟨[], if buffer.getLast? = some CR then buffer ++ [LF] else buffer, builder,
        .Terminated, lid⟩
  | .error e :: rest, buffer, builder, state, lid =>
    (some (.error (.Transport e)), ⟨rest, buffer, builder, state, lid⟩)
  | .ok chunk :: rest, buffer, builder, state, lid =>
    if chunk.isEmpty then poll_loop rest buffer builder state lid
    else if state = .NotStarted ∧ starts_with_bom (buffer ++ chunk) = none then
      poll_loop rest (buffer ++ chunk) builder .NotStarted lid
    else
      let buffer2 := if state = .NotStarted ∧ starts_with_bom (buffer ++ chunk) = some true
        then (buffer ++ chunk).drop BOM.length else buffer ++ chunk
      let state2 := if state = .NotStarted then EventStreamState.Started else state
      let t := try_parse_event_buffer (⟨rest, buffer2, builder, state2, lid⟩ : EventStream E)
      if t.1.isSome then t
      else poll_loop rest t.2.buffer t.2.builder t.2.state t.2.last_event_id

/-- `generic.rs`: `EventStream::poll_next`. -/
def EventStream.poll_next {E : Type} (s : EventStream E) :
    Option (Except (EventStreamError E) Event) × EventStream E :=
  let t := try_parse_event_buffer s
  if t.1.isSome then t
  else if t.2.state = .Terminated then (none, t.2)
  else poll_loop t.2.stream t.2.buffer t.2.builder t.2.state t.2.last_event_id

/-- Weight of the pending upstream items: every item costs one, an `Ok`
chunk additionally its length. -/
def streamWeight {E : Type} (stream : List (Except E (List Byte))) : Nat :=
  (stream.map fun i => match i with | .ok c => c.length + 1 | .error _ => 1).sum

/-- Termination measure for driving an `EventStream` to completion. -/
def EventStream.measure {E : Type} (s : EventStream E) : Nat :=
  streamWeight s.stream + s.buffer.length +
    (if s.state = .Terminated then 0 else 2)

theorem tpb_some_ok {E : Type} {s : EventStream E} {ev : Event} {b : List Byte}
    {bl : EventBuilder} (hp : parse_event s.buffer s.builder = (.ok (some ev), b, bl)) :
    try_parse_event_buffer s =
      (some (.ok ev),
       { s with buffer := b, builder := bl,
                state := if s.state = .NotStarted then .Started else s.state,
                last_event_id := ev.id }) := by
  unfold try_parse_event_buffer
  rw [hp]

theorem tpb_err {E : Type} {s : EventStream E} {e : Nat} {b : List Byte}
    {bl : EventBuilder} (hp : parse_event s.buffer s.builder = (.error e, b, bl)) :
    try_parse_event_buffer s =
      (some (.error (.Utf8Error e)), { s with buffer := b, builder := bl }) := by
  unfold try_parse_event_buffer
  rw [hp]

theorem tpb_none {E : Type} {s : EventStream E} {b : List Byte}
    {bl : EventBuilder} (hp : parse_event s.buffer s.builder = (.ok none, b, bl)) :
    try_parse_event_buffer s = (none, { s with buffer := b, builder := bl }) := by
  unfold try_parse_event_buffer
  rw [hp]

/-- The drain step of one `try_parse_event_buffer` call, characterised. -/
theorem tpb_cases {E : Type} (s : EventStream E) :
    (∃ ev b bl, parse_event s.buffer s.builder = (.ok (some ev), b, bl) ∧
      try_parse_event_buffer s =
        (some (.ok ev),
         { s with buffer := b, builder := bl,
                  state := if s.state = .NotStarted then .Started else s.state,
                  last_event_id := ev.id })) ∨
    (∃ e b bl, parse_event s.buffer s.builder = (.error e, b, bl) ∧
      try_parse_event_buffer s =
        (some (.error (.Utf8Error e)), { s with buffer := b, builder := bl })) ∨
    (∃ b bl, parse_event s.buffer s.builder = (.ok none, b, bl) ∧
      try_parse_event_buffer s = (none, { s with buffer := b, builder := bl })) := by
  cases hp : parse_event s.buffer s.builder with
  | mk pr q =>
    obtain ⟨b, bl⟩ := q
    cases pr with
    | error e => exact .inr (.inl ⟨e, b, bl, rfl, tpb_err hp⟩)
    | ok o =>
      cases o with
      | some ev => exact .inl ⟨ev, b, bl, rfl, tpb_some_ok hp⟩
      | none => exact .inr (.inr ⟨b, bl, rfl, tpb_none hp⟩)

/-- The drained buffer never grows. -/
theorem tpb_buffer_le {E : Type} (s : EventStream E) :
    (try_parse_event_buffer s).2.buffer.length ≤ s.buffer.length := by
  rcases tpb_cases s with ⟨ev, b, bl, hp, ht⟩ | ⟨e, b, bl, hp, ht⟩ | ⟨b, bl, hp, ht⟩ <;>
    · rw [ht]
      have hlb : (parse_event s.buffer s.builder).2.1 = b := by rw [hp]
      obtain ⟨k, -, he⟩ := parse_event_suffix s.buffer s.builder
      rw [hlb] at he
      simp [he]

/-- A `some` outcome of the drain step strictly shrinks the buffer. -/
theorem tpb_buffer_lt {E : Type} (s : EventStream E)
    (h : (try_parse_event_buffer s).1.isSome) :
    (try_parse_event_buffer s).2.buffer.length < s.buffer.length := by
  rcases tpb_cases s with ⟨ev, b, bl, hp, ht⟩ | ⟨e, b, bl, hp, ht⟩ | ⟨b, bl, hp, ht⟩
  · rw [ht]
    have := parse_event_lt s.buffer s.builder (by simp [hp])
    rwa [hp] at this
  · rw [ht]
    have := parse_event_lt s.buffer s.builder (by simp [hp])
    rwa [hp] at this
  · rw [ht] at h
    simp at h

/-- The drain step does not touch the pending stream. -/
theorem tpb_stream {E : Type} (s : EventStream E) :
    (try_parse_event_buffer s).2.stream = s.stream := by
  rcases tpb_cases s with ⟨ev, b, bl, hp, ht⟩ | ⟨e, b, bl, hp, ht⟩ | ⟨b, bl, hp, ht⟩ <;>
    rw [ht]

/-- The drain step can only move the state from `NotStarted` to `Started`. -/
theorem tpb_state {E : Type} (s : EventStream E) :
    (try_parse_event_buffer s).2.state = s.state ∨
      ((try_parse_event_buffer s).2.state = .Started ∧ s.state = .NotStarted) := by
  rcases tpb_cases s with ⟨ev, b, bl, hp, ht⟩ | ⟨e, b, bl, hp, ht⟩ | ⟨b, bl, hp, ht⟩
  · rw [ht]
    by_cases hns : s.state = .NotStarted
    · right
      simp [hns]
    · left
      simp [hns]
  · left
    rw [ht]
  · left
    rw [ht]

theorem flag_le_two (st : EventStreamState) :
    (if st = EventStreamState.Terminated then 0 else 2) ≤ 2 := by
  split <;> omega

/-- Any successful poll outcome of the chunk loop strictly decreases the
measure. -/
theorem poll_loop_measure {E : Type} :
    ∀ (stream : List (Except E (List Byte))) (buffer : List Byte) (builder : EventBuilder)
      (state : EventStreamState) (lid : List Byte)
      {r : Except (EventStreamError E) Event} {s' : EventStream E},
      state ≠ .Terminated →
      poll_loop stream buffer builder state lid = (some r, s') →
      s'.measure < streamWeight stream + buffer.length + 2 := by
  intro stream
  induction stream with
  | nil =>
    intro buffer builder state lid r s' hst h
    simp only [poll_loop] at h
    set s0 : EventStream E :=
      ⟨[], if buffer.getLast? = some CR then buffer ++ [LF] else buffer, builder,
        .Terminated, lid⟩ with hs0
    have hb1len : s0.buffer.length ≤ buffer.length + 1 := by
      rw [hs0]
      simp only
      split <;> simp
    have hsome : (try_parse_event_buffer s0).1.isSome := by
      rw [h]
      rfl
    have hlt := tpb_buffer_lt s0 hsome
    have hstw := tpb_stream s0
    have hs'2 : s' = (try_parse_event_buffer s0).2 := (congrArg Prod.snd h).symm
    have hstt := tpb_state s0
    rw [← hs'2] at hstw hlt hstt
    have hstream : s'.stream = ([] : List (Except E (List Byte))) := by rw [hstw, hs0]
    have hterm : s'.state = .Terminated := by
      rcases hstt with h1 | ⟨-, h2⟩
      · rw [h1, hs0]
      · rw [hs0] at h2
        simp at h2
    simp [EventStream.measure, hstream, streamWeight, hterm]
    omega
  | cons item rest ih =>
    intro buffer builder state lid r s' hst h
    cases item with
    | error e =>
      simp only [poll_loop] at h
      have hs' : s' = ⟨rest, buffer, builder, state, lid⟩ := (congrArg Prod.snd h).symm
      rw [hs']
      have := flag_le_two state
      have hwc : streamWeight (Except.error (α := List Byte) e :: rest) =
          1 + streamWeight rest := by
        simp [streamWeight]
      simp only [EventStream.measure, hwc]
      omega
    | ok chunk =>
      have hwc : streamWeight (Except.ok (ε := E) chunk :: rest) =
          chunk.length + 1 + streamWeight rest := by
        simp [streamWeight]
      simp only [poll_loop] at h
      by_cases hch : chunk.isEmpty
      · rw [if_pos hch] at h
        have := ih buffer builder state lid hst h
        omega
      · rw [if_neg hch] at h
        have key : ∀ (buffer2 : List Byte) (state2 : EventStreamState),
            state2 ≠ .Terminated →
            buffer2.length ≤ buffer.length + chunk.length →
            ((if (try_parse_event_buffer
                  (⟨rest, buffer2, builder, state2, lid⟩ : EventStream E)).1.isSome then
                try_parse_event_buffer (⟨rest, buffer2, builder, state2, lid⟩ : EventStream E)
              else poll_loop rest
                (try_parse_event_buffer
                  (⟨rest, buffer2, builder, state2, lid⟩ : EventStream E)).2.buffer
                (try_parse_event_buffer
                  (⟨rest, buffer2, builder, state2, lid⟩ : EventStream E)).2.builder
                (try_parse_event_buffer
                  (⟨rest, buffer2, builder, state2, lid⟩ : EventStream E)).2.state
                (try_parse_event_buffer
                  (⟨rest, buffer2, builder, state2, lid⟩ : EventStream E)).2.last_event_id)
              = (some r, s')) →
            s'.measure < streamWeight (Except.ok (ε := E) chunk :: rest) + buffer.length + 2 := by
          intro buffer2 state2 hst2 hb2 hh
          set s0 : EventStream E := ⟨rest, buffer2, builder, state2, lid⟩ with hs0
          by_cases hsome : (try_parse_event_buffer s0).1.isSome
          · rw [if_pos hsome] at hh
            have hlt := tpb_buffer_lt s0 hsome
            have hstw := tpb_stream s0
            have hs'2 : s' = (try_parse_event_buffer s0).2 := (congrArg Prod.snd hh).symm
            rw [← hs'2] at hstw hlt
            have hfl := flag_le_two s'.state
            have hstream : s'.stream = rest := by rw [hstw, hs0]
            have hbuf2 : s0.buffer = buffer2 := by rw [hs0]
            rw [hbuf2] at hlt
            simp only [EventStream.measure, hstream]
            omega
          · rw [if_neg hsome] at hh
            have hble := tpb_buffer_le s0
            have hbuf2 : s0.buffer = buffer2 := by rw [hs0]
            rw [hbuf2] at hble
            have hstt := tpb_state s0
            have hst2' : (try_parse_event_buffer s0).2.state ≠ .Terminated := by
              rcases hstt with h1 | ⟨h1, -⟩
              · rw [h1, hs0]
                exact hst2
              · rw [h1]
                simp
            have := ih (try_parse_event_buffer s0).2.buffer
              (try_parse_event_buffer s0).2.builder
              (try_parse_event_buffer s0).2.state
              (try_parse_event_buffer s0).2.last_event_id hst2' hh
            omega
        by_cases hcont : state = EventStreamState.NotStarted ∧
            starts_with_bom (buffer ++ chunk) = none
        · rw [if_pos hcont] at h
          have := ih (buffer ++ chunk) builder .NotStarted lid (by simp) h
          have hlapp := List.length_append buffer chunk
          omega
        · rw [if_neg hcont] at h
          by_cases hbt : state = EventStreamState.NotStarted ∧
              starts_with_bom (buffer ++ chunk) = some true
          · rw [if_pos hbt, if_pos hbt.1] at h
            exact key ((buffer ++ chunk).drop BOM.length) .Started (by simp) (by simp) h
          · rw [if_neg hbt] at h
            by_cases hns : state = EventStreamState.NotStarted
            · rw [if_pos hns] at h
              exact key (buffer ++ chunk) .Started (by simp) (by simp) h
            · rw [if_neg hns] at h
              exact key (buffer ++ chunk) state hst (by simp) h

/-- Any successful `poll_next` strictly decreases the measure. -/
theorem poll_measure {E : Type} {s : EventStream E}
    {r : Except (EventStreamError E) Event} {s' : EventStream E}
    (h : s.poll_next = (some r, s')) : s'.measure < s.measure := by
  unfold EventStream.poll_next at h
  simp only at h
  by_cases hsome : (try_parse_event_buffer s).1.isSome
  · rw [if_pos hsome] at h
    have hlt := tpb_buffer_lt s hsome
    have hstw := tpb_stream s
    have hstt := tpb_state s
    have hs'2 : s' = (try_parse_event_buffer s).2 := (congrArg Prod.snd h).symm
    rw [← hs'2] at hstw hstt hlt
    have hfl2 : (if s'.state = EventStreamState.Terminated then 0 else 2) ≤
        (if s.state = EventStreamState.Terminated then 0 else 2) := by
      rcases hstt with h1 | ⟨h1, h2⟩
      · rw [h1]
      · rw [h1, h2]
        simp
    simp only [EventStream.measure, hstw]
    omega
  · rw [if_neg hsome] at h
    by_cases hterm : (try_parse_event_buffer s).2.state = EventStreamState.Terminated
    · rw [if_pos hterm] at h
      exact absurd (congrArg Prod.fst h) (by simp)
    · rw [if_neg hterm] at h
      have hble := tpb_buffer_le s
      have hstw := tpb_stream s
      have hstt := tpb_state s
      have hsterm : s.state ≠ EventStreamState.Terminated := by
        rcases hstt with h1 | ⟨-, h2⟩
        · rw [h1] at hterm
          exact hterm
        · rw [h2]
          simp
      have := poll_loop_measure (try_parse_event_buffer s).2.stream
        (try_parse_event_buffer s).2.buffer (try_parse_event_buffer s).2.builder
        (try_parse_event_buffer s).2.state (try_parse_event_buffer s).2.last_event_id
        hterm h
      rw [hstw] at this
      simp only [EventStream.measure] at this ⊢
      rw [if_neg hsterm]
      omega

/-- Fuelled driver: poll repeatedly, collecting outcomes, until
`Ready(None)`. -/
def drive_fuel {E : Type} : Nat → EventStream E → List (Except (EventStreamError E) Event)
  | 0, _ => []
  | n + 1, s =>
    match s.poll_next.1 with
    | none => []
    | some r => r :: drive_fuel n s.poll_next.2

theorem drive_fuel_congr {E : Type} : ∀ {n m : Nat} {s : EventStream E},
    s.measure < n → s.measure < m → drive_fuel n s = drive_fuel m s := by
  intro n
  induction n with
  | zero => intro m s hn; omega
  | succ n ih =>
    intro m s hn hm
    cases m with
    | zero => omega
    | succ m =>
      simp only [drive_fuel]
      cases h : s.poll_next.1 with
      | none => rfl
      | some r =>
        have hpm : s.poll_next.2.measure < s.measure := poll_measure (r := r)
          (by rw [← h])
        rw [ih (m := m) (by omega) (by omega)]

/-- Drive an adapter to completion: the list of poll outcomes until the
stream reports `Ready(None)`. -/
def drive {E : Type} (s : EventStream E) : List (Except (EventStreamError E) Event) :=
  drive_fuel (s.measure + 1) s

/-- The recursion equation for `drive`. -/
theorem drive_unfold {E : Type} (s : EventStream E) :
    drive s =
      match s.poll_next.1 with
      | none => []
      | some r => r :: drive s.poll_next.2 := by
  unfold drive
  simp only [drive_fuel]
  cases h : s.poll_next.1 with
  | none => rfl
  | some r =>
    have hpm : s.poll_next.2.measure < s.measure := poll_measure (r := r)
      (by rw [← h])
    rw [drive_fuel_congr (m := s.poll_next.2.measure + 1) (by omega) (by omega)]
    simp only [drive_fuel]

/-! ## Big-step view of the poll loop

`procStarted` is the chunk-by-chunk big-step processor in the `Started`
state: append a chunk, drain everything, recurse; at EOF commit a trailing CR
and drain once more.  It matches the cumulative outputs of repeated
`poll_next` calls, which emit the same items one at a time. -/

/-- EOF fix-up of `generic.rs`/`bytes.rs`: commit a trailing lone CR by
appending LF. -/
def crFix (b : List Byte) : List Byte :=
  if b.getLast? = some CR then b ++ [LF] else b

theorem drainAll_none {b b0 : List Byte} {bl bl0 : EventBuilder}
    (hp : parse_event b bl = (.ok none, b0, bl0)) :
    drainAll b bl = ([], b0, bl0) := by
  rw [drainAll_unfold]
  simp only [hp]

theorem drainAll_some {b b0 : List Byte} {bl bl0 : EventBuilder} {ev : Event}
    (hp : parse_event b bl = (.ok (some ev), b0, bl0)) :
    drainAll b bl = (.ok ev :: (drainAll b0 bl0).1, (drainAll b0 bl0).2) := by
  rw [drainAll_unfold]
  simp only [hp]

theorem drainAll_err {b b0 : List Byte} {bl bl0 : EventBuilder} {e : Nat}
    (hp : parse_event b bl = (.error e, b0, bl0)) :
    drainAll b bl = (.error e :: (drainAll b0 bl0).1, (drainAll b0 bl0).2) := by
  rw [drainAll_unfold]
  simp only [hp]

theorem drainAll_nil (bl : EventBuilder) : drainAll [] bl = ([], [], bl) :=
  drainAll_none (parse_event_none bl parse_line_from_buffer_nil)

/-- The leftover of a full drain is a suffix of the buffer. -/
theorem drainAll_suffix (b : List Byte) (bl : EventBuilder) :
    ∃ k, k ≤ b.length ∧ (drainAll b bl).2.1 = b.drop k := by
  have main : ∀ (n : Nat) (b : List Byte) (bl : EventBuilder), b.length < n →
      ∃ k, k ≤ b.length ∧ (drainAll b bl).2.1 = b.drop k := by
    intro n
    induction n with
    | zero => intro b bl h; omega
    | succ n ih => ?_
    intro b bl hlen
    cases hp : parse_event b bl with
    | mk pr q =>
      obtain ⟨b0, bl0⟩ := q
      have hs0 : (parse_event b bl).2.1 = b0 := by rw [hp]
      obtain ⟨k0, hk0, hd0⟩ := parse_event_suffix b bl
      rw [hs0] at hd0
      have hlen0 : b0.length = b.length - k0 := by rw [hd0]; simp
      cases pr with
      | error e =>
        have hlt : b0.length < b.length := by
          have := parse_event_lt b bl (by simp [hp])
          rwa [hp] at this
        rw [drainAll_err hp]
        obtain ⟨k, hk, hd⟩ := ih b0 bl0 (by omega)
        refine ⟨k0 + k, by omega, ?_⟩
        simp only
        rw [hd, hd0, List.drop_drop, Nat.add_comm]
      | ok o =>
        cases o with
        | none =>
          rw [drainAll_none hp]
          exact ⟨k0, hk0, hd0⟩
        | some ev =>
          have hlt : b0.length < b.length := by
            have := parse_event_lt b bl (by simp [hp])
            rwa [hp] at this
          rw [drainAll_some hp]
          obtain ⟨k, hk, hd⟩ := ih b0 bl0 (by omega)
          refine ⟨k0 + k, by omega, ?_⟩
          simp only
          rw [hd, hd0, List.drop_drop, Nat.add_comm]
  exact main (b.length + 1) b bl (by omega)

/-- A full drain of a CR-terminated buffer leaves a non-empty CR-terminated
leftover. -/
theorem drainAll_last_cr {b : List Byte} (bl : EventBuilder)
    (hcr : b.getLast? = some CR) :
    (drainAll b bl).2.1 ≠ [] ∧ (drainAll b bl).2.1.getLast? = some CR := by
  have main : ∀ (n : Nat) (b : List Byte) (bl : EventBuilder), b.length < n →
      b.getLast? = some CR →
      (drainAll b bl).2.1 ≠ [] ∧ (drainAll b bl).2.1.getLast? = some CR := by
    intro n
    induction n with
    | zero => intro b bl h; omega
    | succ n ih => ?_
    intro b bl hlen hcr
    cases hp : parse_event b bl with
    | mk pr q =>
      obtain ⟨b0, bl0⟩ := q
      have hpcr := parse_event_last_cr bl hcr
      rw [hp] at hpcr
      simp only at hpcr
      cases pr with
      | error e =>
        have hlt : b0.length < b.length := by
          have := parse_event_lt b bl (by simp [hp])
          rwa [hp] at this
        rw [drainAll_err hp]
        exact ih b0 bl0 (by omega) hpcr.2
      | ok o =>
        cases o with
        | none =>
          rw [drainAll_none hp]
          exact hpcr
        | some ev =>
          have hlt : b0.length < b.length := by
            have := parse_event_lt b bl (by simp [hp])
            rwa [hp] at this
          rw [drainAll_some hp]
          exact ih b0 bl0 (by omega) hpcr.2
  exact main (b.length + 1) b bl (by omega) hcr

/-- The drain of an extended buffer factors through the drain of the original
buffer followed by the drain of its leftover plus the extension. -/
theorem drainAll_append (b ext : List Byte) (bl : EventBuilder) :
    drainAll (b ++ ext) bl =
      ((drainAll b bl).1 ++
        (drainAll ((drainAll b bl).2.1 ++ ext) (drainAll b bl).2.2).1,
       (drainAll ((drainAll b bl).2.1 ++ ext) (drainAll b bl).2.2).2) := by
  have main : ∀ (n : Nat) (b : List Byte) (bl : EventBuilder), b.length < n →
      drainAll (b ++ ext) bl =
        ((drainAll b bl).1 ++
          (drainAll ((drainAll b bl).2.1 ++ ext) (drainAll b bl).2.2).1,
         (drainAll ((drainAll b bl).2.1 ++ ext) (drainAll b bl).2.2).2) := by
    intro n
    induction n with
    | zero => intro b bl h; omega
    | succ n ih => ?_
    intro b bl hlen
    cases hp : parse_event b bl with
    | mk pr q =>
      obtain ⟨b0, bl0⟩ := q
      cases pr with
      | error e =>
        have hlt : b0.length < b.length := by
          have := parse_event_lt b bl (by simp [hp])
          rwa [hp] at this
        have hap := parse_event_append_out hp (by simp) ext
        rw [drainAll_err hap, drainAll_err hp]
        simp only [List.cons_append]
        rw [ih b0 bl0 (by omega)]
      | ok o =>
        cases o with
        | none =>
          have hap := parse_event_append_none hp ext
          rw [drainAll_none hp]
          simp only [List.nil_append]
          exact drainAll_eq_of_parse_eq hap
        | some ev =>
          have hlt : b0.length < b.length := by
            have := parse_event_lt b bl (by simp [hp])
            rwa [hp] at this
          have hap := parse_event_append_out hp (by simp) ext
          rw [drainAll_some hap, drainAll_some hp]
          simp only [List.cons_append]
          rw [ih b0 bl0 (by omega)]
  exact main (b.length + 1) b bl (by omega)

/-- Committing a trailing CR commutes with draining: fixing up the whole
buffer equals draining it first and fixing up the leftover. -/
theorem drainAll_crFix (b : List Byte) (bl : EventBuilder) :
    drainAll (crFix b) bl =
      ((drainAll b bl).1 ++
        (drainAll (crFix (drainAll b bl).2.1) (drainAll b bl).2.2).1,
       (drainAll (crFix (drainAll b bl).2.1) (drainAll b bl).2.2).2) := by
  by_cases hcr : b.getLast? = some CR
  · have hl := drainAll_last_cr bl hcr
    have hfix : crFix (drainAll b bl).2.1 = (drainAll b bl).2.1 ++ [LF] := by
      unfold crFix
      rw [if_pos hl.2]
    rw [crFix, if_pos hcr, hfix]
    exact drainAll_append b [LF] bl
  · obtain ⟨k, hk, hd⟩ := drainAll_suffix b bl
    have hfix : crFix (drainAll b bl).2.1 = (drainAll b bl).2.1 := by
      unfold crFix
      by_cases hnil : (drainAll b bl).2.1 = []
      · rw [hnil]
        simp
      · rw [if_neg ?_]
        rw [hd] at hnil ⊢
        rw [getLast?_drop_of_ne_nil hnil]
        exact hcr
    rw [crFix, if_neg hcr, hfix]
    have := drainAll_append b [] bl
    simpa using this

/-- Big-step processor for the `Started` phase: per non-empty chunk, append
and drain fully; at EOF, commit a trailing CR and drain once more. -/
def procStarted : List (List Byte) → List Byte → EventBuilder → List (Except Nat Event)
  | [], buffer, builder => (drainAll (crFix buffer) builder).1
  | chunk :: rest, buffer, builder =>
    if chunk.isEmpty then procStarted rest buffer builder
    else
      (drainAll (buffer ++ chunk) builder).1 ++
        procStarted rest (drainAll (buffer ++ chunk) builder).2.1
          (drainAll (buffer ++ chunk) builder).2.2

/-- Draining the pending buffer first does not change the overall output of
the big-step processor. -/
theorem procStarted_shift (input : List (List Byte)) (buffer : List Byte)
    (builder : EventBuilder) :
    procStarted input buffer builder =
      (drainAll buffer builder).1 ++
        procStarted input (drainAll buffer builder).2.1 (drainAll buffer builder).2.2 := by
  induction input generalizing buffer builder with
  | nil =>
    simp only [procStarted]
    rw [drainAll_crFix]
  | cons chunk rest ih =>
    by_cases hch : chunk.isEmpty
    · simp only [procStarted, if_pos hch]
      exact ih buffer builder
    · simp only [procStarted, if_neg hch]
      rw [drainAll_append buffer chunk builder]
      simp

/-- One produced event shifts out of the big-step processor. -/
theorem procStarted_step_some {buffer b0 : List Byte} {builder bl0 : EventBuilder}
    {ev : Event} (input : List (List Byte))
    (hp : parse_event buffer builder = (.ok (some ev), b0, bl0)) :
    procStarted input buffer builder = .ok ev :: procStarted input b0 bl0 := by
  rw [procStarted_shift input buffer builder, drainAll_some hp]
  simp only [List.cons_append]
  rw [procStarted_shift input b0 bl0]

/-- One produced error shifts out of the big-step processor. -/
theorem procStarted_step_err {buffer b0 : List Byte} {builder bl0 : EventBuilder}
    {e : Nat} (input : List (List Byte))
    (hp : parse_event buffer builder = (.error e, b0, bl0)) :
    procStarted input buffer builder = .error e :: procStarted input b0 bl0 := by
  rw [procStarted_shift input buffer builder, drainAll_err hp]
  simp only [List.cons_append]
  rw [procStarted_shift input b0 bl0]

/-- A drain with no outcome leaves the big-step output unchanged. -/
theorem procStarted_step_none {buffer b0 : List Byte} {builder bl0 : EventBuilder}
    (input : List (List Byte))
    (hp : parse_event buffer builder = (.ok none, b0, bl0)) :
    procStarted input buffer builder = procStarted input b0 bl0 := by
  rw [procStarted_shift input buffer builder, drainAll_none hp]
  simp only [List.nil_append]

/-- The big-step processor only depends on the concatenation of the pending
bytes: its output is the full drain of the CR-committed total input. -/
theorem procStarted_flatten (input : List (List Byte)) (buffer : List Byte)
    (builder : EventBuilder) :
    procStarted input buffer builder =
      (drainAll (crFix (buffer ++ input.flatten)) builder).1 := by
  induction input generalizing buffer builder with
  | nil => simp [procStarted]
  | cons chunk rest ih =>
    by_cases hch : chunk.isEmpty
    · have hce : chunk = [] := by simpa using hch
      simp only [procStarted, if_pos hch, List.flatten_cons, hce, List.nil_append]
      exact ih buffer builder
    · simp only [procStarted, if_neg hch, List.flatten_cons]
      rw [ih (drainAll (buffer ++ chunk) builder).2.1 (drainAll (buffer ++ chunk) builder).2.2]
      by_cases hfl : rest.flatten = []
      · rw [hfl]
        simp only [List.append_nil]
        rw [drainAll_crFix (buffer ++ chunk) builder]
      · have hcrfix : crFix (buffer ++ (chunk ++ rest.flatten)) =
            (buffer ++ chunk) ++ crFix rest.flatten := by
          unfold crFix
          rw [← List.append_assoc]
          by_cases hcr : rest.flatten.getLast? = some CR
          · rw [if_pos hcr, if_pos ?_, List.append_assoc (buffer ++ chunk) rest.flatten [LF]]
            rw [List.getLast?_append, hcr]
            rfl
          · rw [if_neg hcr, if_neg ?_]
            rw [List.getLast?_append]
            cases hg : rest.flatten.getLast? with
            | none => exact absurd (List.getLast?_eq_none_iff.mp hg) hfl
            | some x =>
              rw [hg] at hcr
              simpa using hcr
        rw [hcrfix, drainAll_append (buffer ++ chunk) (crFix rest.flatten) builder]
        by_cases hcr2 : rest.flatten.getLast? = some CR
        · have h1 : crFix ((drainAll (buffer ++ chunk) builder).2.1 ++ rest.flatten) =
              (drainAll (buffer ++ chunk) builder).2.1 ++ crFix rest.flatten := by
            unfold crFix
            rw [if_pos hcr2, List.getLast?_append, hcr2, List.append_assoc]
            rfl
          rw [h1]
        · have h1 : crFix ((drainAll (buffer ++ chunk) builder).2.1 ++ rest.flatten) =
              (drainAll (buffer ++ chunk) builder).2.1 ++ crFix rest.flatten := by
            unfold crFix
            rw [if_neg hcr2, if_neg ?_]
            rw [List.getLast?_append]
            cases hg : rest.flatten.getLast? with
            | none => exact absurd (List.getLast?_eq_none_iff.mp hg) hfl
            | some x =>
              rw [hg] at hcr2
              simpa using hcr2
          rw [h1]

/-! ## Relating the poll-by-poll drive to the big-step processor -/

/-- Embed a pure parse outcome into the adapter's item type. -/
def embed {E : Type} : Except Nat Event → Except (EventStreamError E) Event
  | .ok ev => .ok ev
  | .error p => .error (.Utf8Error p)

theorem streamWeight_nil {E : Type} : streamWeight ([] : List (Except E (List Byte))) = 0 :=
  rfl

theorem streamWeight_cons_ok {E : Type} (c : List Byte)
    (rest : List (Except E (List Byte))) :
    streamWeight (Except.ok c :: rest) = c.length + 1 + streamWeight rest := by
  simp [streamWeight]

theorem poll_next_of_tpb_some {E : Type} {s s₁ : EventStream E}
    {r : Except (EventStreamError E) Event}
    (h : try_parse_event_buffer s = (some r, s₁)) : s.poll_next = (some r, s₁) := by
  simp [EventStream.poll_next, h]

theorem poll_next_of_tpb_none_term {E : Type} {s s₁ : EventStream E}
    (h : try_parse_event_buffer s = (none, s₁)) (ht : s₁.state = .Terminated) :
    s.poll_next = (none, s₁) := by
  simp [EventStream.poll_next, h, ht]

theorem poll_next_of_tpb_none_loop {E : Type} {s s₁ : EventStream E}
    (h : try_parse_event_buffer s = (none, s₁)) (ht : s₁.state ≠ .Terminated) :
    s.poll_next = poll_loop s₁.stream s₁.buffer s₁.builder s₁.state s₁.last_event_id := by
  simp [EventStream.poll_next, h, ht]

theorem poll_loop_nil {E : Type} (buffer : List Byte) (builder : EventBuilder)
    (st : EventStreamState) (lid : List Byte) :
    poll_loop ([] : List (Except E (List Byte))) buffer builder st lid =
      try_parse_event_buffer ⟨[], crFix buffer, builder, .Terminated, lid⟩ := rfl

theorem poll_loop_err_item {E : Type} (e : E) (rest : List (Except E (List Byte)))
    (buffer : List Byte) (builder : EventBuilder) (st : EventStreamState)
    (lid : List Byte) :
    poll_loop (.error e :: rest) buffer builder st lid =
      (some (.error (.Transport e)), ⟨rest, buffer, builder, st, lid⟩) := rfl

theorem poll_loop_empty_chunk {E : Type} {chunk : List Byte} (hch : chunk.isEmpty)
    (rest : List (Except E (List Byte))) (buffer : List Byte) (builder : EventBuilder)
    (st : EventStreamState) (lid : List Byte) :
    poll_loop (.ok chunk :: rest) buffer builder st lid =
      poll_loop rest buffer builder st lid := by
  simp only [poll_loop, if_pos hch]

theorem poll_loop_bom_wait {E : Type} {chunk buffer : List Byte} {st : EventStreamState}
    (hch : ¬chunk.isEmpty = true)
    (hcont : st = .NotStarted ∧ starts_with_bom (buffer ++ chunk) = none)
    (rest : List (Except E (List Byte))) (builder : EventBuilder) (lid : List Byte) :
    poll_loop (.ok chunk :: rest) buffer builder st lid =
      poll_loop rest (buffer ++ chunk) builder .NotStarted lid := by
  simp only [poll_loop, if_neg hch, if_pos hcont]

theorem poll_loop_chunk_go {E : Type} {chunk buffer : List Byte} {st : EventStreamState}
    {B2 : List Byte} {S2 : EventStreamState}
    (hch : ¬chunk.isEmpty = true)
    (hnc : ¬(st = .NotStarted ∧ starts_with_bom (buffer ++ chunk) = none))
    (hB2 : (if st = .NotStarted ∧ starts_with_bom (buffer ++ chunk) = some true
      then (buffer ++ chunk).drop BOM.length else buffer ++ chunk) = B2)
    (hS2 : (if st = .NotStarted then EventStreamState.Started else st) = S2)
    (rest : List (Except E (List Byte))) (builder : EventBuilder) (lid : List Byte) :
    poll_loop (.ok chunk :: rest) buffer builder st lid =
      if (try_parse_event_buffer (⟨rest, B2, builder, S2, lid⟩ : EventStream E)).1.isSome
      then try_parse_event_buffer (⟨rest, B2, builder, S2, lid⟩ : EventStream E)
      else poll_loop rest
        (try_parse_event_buffer (⟨rest, B2, builder, S2, lid⟩ : EventStream E)).2.buffer
        (try_parse_event_buffer (⟨rest, B2, builder, S2, lid⟩ : EventStream E)).2.builder
        (try_parse_event_buffer (⟨rest, B2, builder, S2, lid⟩ : EventStream E)).2.state
        (try_parse_event_buffer (⟨rest, B2, builder, S2, lid⟩ : EventStream E)).2.last_event_id
      := by
  simp only [poll_loop, if_neg hch, if_neg hnc, hB2, hS2]

/-- Adapters with equal polls drive to equal outputs. -/
theorem drive_poll_congr {E : Type} {s t : EventStream E}
    (h : s.poll_next = t.poll_next) : drive s = drive t := by
  conv_lhs => rw [drive_unfold]
  conv_rhs => rw [drive_unfold]
  rw [h]

/-- After termination, driving just empties the buffer: the outputs are the
full drain. -/
theorem drive_terminated {E : Type} :
    ∀ (stream : List (Except E (List Byte))) (buffer : List Byte) (builder : EventBuilder)
      (lid : List Byte),
      drive (⟨stream, buffer, builder, .Terminated, lid⟩ : EventStream E) =
        ((drainAll buffer builder).1).map embed := by
  have main : ∀ (n : Nat) (stream : List (Except E (List Byte))) (buffer : List Byte)
      (builder : EventBuilder) (lid : List Byte), buffer.length < n →
      drive (⟨stream, buffer, builder, .Terminated, lid⟩ : EventStream E) =
        ((drainAll buffer builder).1).map embed := by
    intro n
    induction n with
    | zero => intro stream buffer builder lid h; omega
    | succ n ih => ?_
    intro stream buffer builder lid hlen
    set s : EventStream E := ⟨stream, buffer, builder, .Terminated, lid⟩ with hs
    have hsb : s.buffer = buffer := rfl
    have hsbl : s.builder = builder := rfl
    cases hp : parse_event buffer builder with
    | mk pr q =>
      obtain ⟨b0, bl0⟩ := q
      cases pr with
      | error e =>
        have hlt : b0.length < buffer.length := by
          have := parse_event_lt buffer builder (by simp [hp])
          rwa [hp] at this
        have htpb := tpb_err (s := s) (hsb ▸ hsbl ▸ hp)
        have hpoll := poll_next_of_tpb_some htpb
        rw [drive_unfold, hpoll]
        simp only
        have hsucc : ({ s with buffer := b0, builder := bl0 } : EventStream E) =
            ⟨stream, b0, bl0, .Terminated, lid⟩ := rfl
        rw [hsucc, ih stream b0 bl0 lid (by omega), drainAll_err hp]
        simp [embed]
      | ok o =>
        cases o with
        | some ev =>
          have hlt : b0.length < buffer.length := by
            have := parse_event_lt buffer builder (by simp [hp])
            rwa [hp] at this
          have htpb := tpb_some_ok (s := s) (hsb ▸ hsbl ▸ hp)
          have hpoll := poll_next_of_tpb_some htpb
          rw [drive_unfold, hpoll]
          simp only
          have hsucc : ({ s with
              buffer := b0
              builder := bl0
              state := if s.state = .NotStarted then .Started else s.state
              last_event_id := ev.id } : EventStream E) =
              ⟨stream, b0, bl0, .Terminated, ev.id⟩ := rfl
          rw [hsucc, ih stream b0 bl0 ev.id (by omega), drainAll_some hp]
          simp [embed]
        | none =>
          have htpb := tpb_none (s := s) (hsb ▸ hsbl ▸ hp)
          have hpoll := poll_next_of_tpb_none_term htpb rfl
          rw [drive_unfold, hpoll]
          simp only
          rw [drainAll_none hp]
          simp
  intro stream buffer builder lid
  exact main (buffer.length + 1) stream buffer builder lid (by omega)

/-- A quiescent buffer lets `poll_next` fall straight through to the chunk
loop. -/
theorem poll_next_quiescent_loop {E : Type} {b0 : List Byte}
    (stream : List (Except E (List Byte))) (bl0 : EventBuilder) (lid : List Byte)
    (st : EventStreamState) (hq : parse_line_from_buffer b0 = none)
    (hst : st ≠ .Terminated) :
    (⟨stream, b0, bl0, st, lid⟩ : EventStream E).poll_next =
      poll_loop stream b0 bl0 st lid := by
  have hpe := parse_event_none bl0 hq
  have htpb := tpb_none (s := (⟨stream, b0, bl0, st, lid⟩ : EventStream E)) hpe
  exact poll_next_of_tpb_none_loop htpb hst

/-- Driving from the `Started` state produces exactly the big-step outputs. -/
theorem drive_started {E : Type} :
    ∀ (chunks : List (List Byte)) (buffer : List Byte) (builder : EventBuilder)
      (lid : List Byte),
      drive (⟨chunks.map .ok, buffer, builder, .Started, lid⟩ : EventStream E) =
        (procStarted chunks buffer builder).map embed := by
  have main : ∀ (n : Nat) (chunks : List (List Byte)) (buffer : List Byte)
      (builder : EventBuilder) (lid : List Byte),
      streamWeight (chunks.map (Except.ok (ε := E))) + buffer.length < n →
      drive (⟨chunks.map .ok, buffer, builder, .Started, lid⟩ : EventStream E) =
        (procStarted chunks buffer builder).map embed := by
    intro n
    induction n with
    | zero => intro chunks buffer builder lid h; omega
    | succ n ih => ?_
    intro chunks buffer builder lid hlen
    set s : EventStream E := ⟨chunks.map .ok, buffer, builder, .Started, lid⟩ with hs
    cases hp : parse_event buffer builder with
    | mk pr q =>
      obtain ⟨b0, bl0⟩ := q
      have hb0le : b0.length ≤ buffer.length := by
        obtain ⟨k, -, he⟩ := parse_event_suffix buffer builder
        rw [hp] at he
        simp only at he
        rw [he]
        simp
      cases pr with
      | error e =>
        have hlt : b0.length < buffer.length := by
          have := parse_event_lt buffer builder (by simp [hp])
          rwa [hp] at this
        have htpb := tpb_err (s := s) hp
        have hpoll := poll_next_of_tpb_some htpb
        rw [drive_unfold, hpoll]
        simp only
        have hsucc : ({ s with buffer := b0, builder := bl0 } : EventStream E) =
            ⟨chunks.map .ok, b0, bl0, .Started, lid⟩ := rfl
        rw [hsucc, ih chunks b0 bl0 lid (by omega), procStarted_step_err chunks hp]
        simp [embed]
      | ok o =>
        cases o with
        | some ev =>
          have hlt : b0.length < buffer.length := by
            have := parse_event_lt buffer builder (by simp [hp])
            rwa [hp] at this
          have htpb := tpb_some_ok (s := s) hp
          have hpoll := poll_next_of_tpb_some htpb
          rw [drive_unfold, hpoll]
          simp only
          have hsucc : ({ s with
              buffer := b0
              builder := bl0
              state := if s.state = .NotStarted then .Started else s.state
              last_event_id := ev.id } : EventStream E) =
              ⟨chunks.map .ok, b0, bl0, .Started, ev.id⟩ := rfl
          rw [hsucc, ih chunks b0 bl0 ev.id (by omega), procStarted_step_some chunks hp]
          simp [embed]
        | none =>
          -- buffer quiescent after the silent drain
          have hq : parse_line_from_buffer b0 = none := by
            have := parse_event_quiescent
              (show (parse_event buffer builder).1 = .ok none by simp [hp])
            rwa [hp] at this
          have hpe0 : parse_event b0 bl0 = (.ok none, b0, bl0) := parse_event_none bl0 hq
          have htpb := tpb_none (s := s) hp
          have hpoll := poll_next_of_tpb_none_loop htpb (by simp)
          have hpoll' : s.poll_next = poll_loop (chunks.map .ok) b0 bl0 .Started lid := hpoll
          rw [procStarted_step_none chunks hp]
          cases chunks with
          | nil =>
            rw [List.map_nil] at hpoll'
            rw [poll_loop_nil] at hpoll'
            set s2 : EventStream E := ⟨[], crFix b0, bl0, .Terminated, lid⟩ with hs2
            cases hp2 : parse_event (crFix b0) bl0 with
            | mk pr2 q2 =>
              obtain ⟨b1, bl1⟩ := q2
              cases pr2 with
              | error e2 =>
                have htpb2 := tpb_err (s := s2) hp2
                rw [htpb2] at hpoll'
                rw [drive_unfold, hpoll']
                simp only
                have hsucc : ({ s2 with buffer := b1, builder := bl1 } : EventStream E) =
                    ⟨[], b1, bl1, .Terminated, lid⟩ := rfl
                rw [hsucc, drive_terminated]
                simp only [procStarted, drainAll_err hp2]
                simp [embed]
              | ok o2 =>
                cases o2 with
                | some ev2 =>
                  have htpb2 := tpb_some_ok (s := s2) hp2
                  rw [htpb2] at hpoll'
                  rw [drive_unfold, hpoll']
                  simp only
                  have hsucc : ({ s2 with
                      buffer := b1
                      builder := bl1
                      state := if s2.state = .NotStarted then .Started else s2.state
                      last_event_id := ev2.id } : EventStream E) =
                      ⟨[], b1, bl1, .Terminated, ev2.id⟩ := rfl
                  rw [hsucc, drive_terminated]
                  simp only [procStarted, drainAll_some hp2]
                  simp [embed]
                | none =>
                  have htpb2 := tpb_none (s := s2) hp2
                  rw [htpb2] at hpoll'
                  rw [drive_unfold, hpoll']
                  simp only [procStarted, drainAll_none hp2]
                  simp
          | cons chunk rest =>
            by_cases hch : chunk.isEmpty
            · rw [List.map_cons, poll_loop_empty_chunk hch] at hpoll'
              have halign := poll_next_quiescent_loop (rest.map (Except.ok (ε := E)))
                bl0 lid .Started hq (by simp)
              have hdq : drive s = drive (⟨rest.map .ok, b0, bl0, .Started, lid⟩ :
                  EventStream E) := drive_poll_congr (by rw [hpoll', halign])
              have hw : streamWeight ((chunk :: rest).map (Except.ok (ε := E))) =
                  chunk.length + 1 + streamWeight (rest.map (Except.ok (ε := E))) := by
                rw [List.map_cons, streamWeight_cons_ok]
              rw [hdq, ih rest b0 bl0 lid (by omega)]
              simp only [procStarted, if_pos hch]
            · rw [List.map_cons] at hpoll'
              have hnc : ¬(EventStreamState.Started = EventStreamState.NotStarted ∧
                  starts_with_bom (b0 ++ chunk) = none) := by simp
              have hB2 : (if EventStreamState.Started = EventStreamState.NotStarted ∧
                  starts_with_bom (b0 ++ chunk) = some true
                  then (b0 ++ chunk).drop BOM.length else b0 ++ chunk) = b0 ++ chunk := by
                simp
              have hS2 : (if EventStreamState.Started = EventStreamState.NotStarted
                  then EventStreamState.Started else EventStreamState.Started) =
                  EventStreamState.Started := by simp
              rw [poll_loop_chunk_go hch hnc hB2 hS2 (rest.map .ok) bl0 lid] at hpoll'
              set s3 : EventStream E := ⟨rest.map .ok, b0 ++ chunk, bl0, .Started, lid⟩
                with hs3
              have hw : streamWeight ((chunk :: rest).map (Except.ok (ε := E))) =
                  chunk.length + 1 + streamWeight (rest.map (Except.ok (ε := E))) := by
                rw [List.map_cons, streamWeight_cons_ok]
              have happlen : (b0 ++ chunk).length = b0.length + chunk.length :=
                List.length_append b0 chunk
              cases hp2 : parse_event (b0 ++ chunk) bl0 with
              | mk pr2 q2 =>
                obtain ⟨b1, bl1⟩ := q2
                have hb1le : b1.length ≤ (b0 ++ chunk).length := by
                  obtain ⟨k, -, he⟩ := parse_event_suffix (b0 ++ chunk) bl0
                  rw [hp2] at he
                  simp only at he
                  rw [he]
                  simp
                cases pr2 with
                | error e2 =>
                  have htpb2 := tpb_err (s := s3) hp2
                  rw [htpb2] at hpoll'
                  simp only [Option.isSome_some, if_true] at hpoll'
                  rw [drive_unfold, hpoll']
                  simp only
                  have hsucc : ({ s3 with buffer := b1, builder := bl1 } : EventStream E) =
                      ⟨rest.map .ok, b1, bl1, .Started, lid⟩ := rfl
                  rw [hsucc, ih rest b1 bl1 lid (by omega)]
                  simp only [procStarted, if_neg hch]
                  rw [drainAll_err hp2]
                  rw [procStarted_shift rest b1 bl1]
                  simp [embed]
                | ok o2 =>
                  cases o2 with
                  | some ev2 =>
                    have htpb2 := tpb_some_ok (s := s3) hp2
                    rw [htpb2] at hpoll'
                    simp only [Option.isSome_some, if_true] at hpoll'
                    rw [drive_unfold, hpoll']
                    simp only
                    have hsucc : ({ s3 with
                        buffer := b1
                        builder := bl1
                        state := if s3.state = .NotStarted then .Started else s3.state
                        last_event_id := ev2.id } : EventStream E) =
                        ⟨rest.map .ok, b1, bl1, .Started, ev2.id⟩ := rfl
                    rw [hsucc, ih rest b1 bl1 ev2.id (by omega)]
                    simp only [procStarted, if_neg hch]
                    rw [drainAll_some hp2]
                    rw [procStarted_shift rest b1 bl1]
                    simp [embed]
                  | none =>
                    have htpb2 := tpb_none (s := s3) hp2
                    rw [htpb2] at hpoll'
                    simp only [Option.isSome_none, Bool.false_eq_true, if_false] at hpoll'
                    have hq1 : parse_line_from_buffer b1 = none := by
                      have := parse_event_quiescent
                        (show (parse_event (b0 ++ chunk) bl0).1 = .ok none by simp [hp2])
                      rwa [hp2] at this
                    have halign := poll_next_quiescent_loop (rest.map (Except.ok (ε := E)))
                      bl1 lid .Started hq1 (by simp)
                    have hdq : drive s = drive (⟨rest.map .ok, b1, bl1, .Started, lid⟩ :
                        EventStream E) := drive_poll_congr (by rw [hpoll', halign])
                    rw [hdq, ih rest b1 bl1 lid (by omega)]
                    simp only [procStarted, if_neg hch]
                    rw [drainAll_none hp2]
                    rw [procStarted_shift rest b1 bl1, drainAll_none (parse_event_none bl1 hq1)]
                    simp
  intro chunks buffer builder lid
  exact main (streamWeight (chunks.map (Except.ok (ε := E))) + buffer.length + 1)
    chunks buffer builder lid (by omega)

/-- Big-step processor for the `NotStarted` phase: accumulate bytes until
the BOM question is decided, then strip it if present and continue in the
`Started` phase. -/
def procNotStarted : List (List Byte) → List Byte → EventBuilder → List (Except Nat Event)
  | [], buffer, builder => (drainAll (crFix buffer) builder).1
  | chunk :: rest, buffer, builder =>
    if chunk.isEmpty then procNotStarted rest buffer builder
    else if starts_with_bom (buffer ++ chunk) = none then
      procNotStarted rest (buffer ++ chunk) builder
    else if starts_with_bom (buffer ++ chunk) = some true then
      procStarted rest ((buffer ++ chunk).drop BOM.length) builder
    else
      procStarted rest (buffer ++ chunk) builder

/-- The reachable `NotStarted` buffers: empty or a strict BOM prefix. -/
def bomPrefix (buffer : List Byte) : Prop :=
  buffer = [] ∨ buffer = [0xEF] ∨ buffer = [0xEF, 0xBB]

theorem bomPrefix_quiescent {buffer : List Byte} (h : bomPrefix buffer) :
    parse_line_from_buffer buffer = none := by
  rcases h with h | h | h <;> (subst h; decide)

theorem bomPrefix_crFix {buffer : List Byte} (h : bomPrefix buffer) :
    crFix buffer = buffer := by
  rcases h with h | h | h <;> (subst h; decide)

theorem starts_with_bom_none_cases {b : List Byte} (h : starts_with_bom b = none) :
    b = [0xEF] ∨ b = [0xEF, 0xBB] := by
  unfold starts_with_bom at h
  split at h
  · simp at h
  · split at h
    · rename_i hlen hpre
      obtain ⟨hne, hpre⟩ := hpre
      match b, hpre with
      | [], hpre => exact absurd rfl hne
      | [x], hpre =>
        left
        simpa [BOM] using hpre
      | [x, y], hpre =>
        right
        simpa [BOM] using hpre
      | x :: y :: z :: t, hpre =>
        exfalso
        simp [BOM] at hlen
    · simp at h

/-- Driving from a reachable `NotStarted` state produces exactly the
big-step outputs of the `NotStarted` processor. -/
theorem drive_not_started {E : Type} :
    ∀ (chunks : List (List Byte)) (buffer : List Byte) (builder : EventBuilder)
      (lid : List Byte), bomPrefix buffer →
      drive (⟨chunks.map .ok, buffer, builder, .NotStarted, lid⟩ : EventStream E) =
        (procNotStarted chunks buffer builder).map embed := by
  intro chunks
  induction chunks with
  | nil =>
    intro buffer builder lid hinv
    have hq := bomPrefix_quiescent hinv
    simp only [List.map_nil]
    set s : EventStream E := ⟨[], buffer, builder, .NotStarted, lid⟩ with hs
    have hpoll : s.poll_next =
        poll_loop ([] : List (Except E (List Byte))) buffer builder .NotStarted lid :=
      poll_next_quiescent_loop [] builder lid .NotStarted hq (by simp)
    rw [poll_loop_nil, bomPrefix_crFix hinv] at hpoll
    have htpb := tpb_none (s := (⟨[], buffer, builder, .Terminated, lid⟩ : EventStream E))
      (parse_event_none builder hq)
    rw [htpb] at hpoll
    rw [drive_unfold, hpoll]
    simp only [procNotStarted, bomPrefix_crFix hinv,
      drainAll_none (parse_event_none builder hq)]
    simp
  | cons chunk rest ih =>
    intro buffer builder lid hinv
    have hq := bomPrefix_quiescent hinv
    simp only [List.map_cons]
    set s : EventStream E := ⟨.ok chunk :: rest.map .ok, buffer, builder, .NotStarted, lid⟩
      with hs
    have hpoll : s.poll_next =
        poll_loop (.ok chunk :: rest.map (Except.ok (ε := E))) buffer builder
          .NotStarted lid :=
      poll_next_quiescent_loop _ builder lid .NotStarted hq (by simp)
    by_cases hch : chunk.isEmpty
    · rw [poll_loop_empty_chunk hch] at hpoll
      have halign := poll_next_quiescent_loop (rest.map (Except.ok (ε := E)))
        builder lid .NotStarted hq (by simp)
      have hdq : drive s = drive (⟨rest.map .ok, buffer, builder, .NotStarted, lid⟩ :
          EventStream E) := drive_poll_congr (by rw [hpoll, halign])
      rw [hdq, ih buffer builder lid hinv]
      simp only [procNotStarted, if_pos hch]
    · cases hsw : starts_with_bom (buffer ++ chunk) with
      | none =>
        rw [poll_loop_bom_wait hch ⟨rfl, hsw⟩] at hpoll
        have hinv' : bomPrefix (buffer ++ chunk) := by
          rcases starts_with_bom_none_cases hsw with h | h <;> rw [h]
          · exact .inr (.inl rfl)
          · exact .inr (.inr rfl)
        have hq' := bomPrefix_quiescent hinv'
        have halign := poll_next_quiescent_loop (rest.map (Except.ok (ε := E)))
          builder lid .NotStarted hq' (by simp)
        have hdq : drive s = drive (⟨rest.map .ok, buffer ++ chunk, builder, .NotStarted,
            lid⟩ : EventStream E) := drive_poll_congr (by rw [hpoll, halign])
        rw [hdq, ih (buffer ++ chunk) builder lid hinv']
        simp only [procNotStarted, if_neg hch, if_pos hsw]
      | some bv =>
        have hKey : ∀ (buffer2 : List Byte),
            poll_loop (Except.ok chunk :: rest.map (Except.ok (ε := E))) buffer builder
                .NotStarted lid =
              (if (try_parse_event_buffer
                  (⟨rest.map .ok, buffer2, builder, .Started, lid⟩ : EventStream E)).1.isSome
              then try_parse_event_buffer
                (⟨rest.map .ok, buffer2, builder, .Started, lid⟩ : EventStream E)
              else poll_loop (rest.map .ok)
                (try_parse_event_buffer
                  (⟨rest.map .ok, buffer2, builder, .Started, lid⟩ : EventStream E)).2.buffer
                (try_parse_event_buffer
                  (⟨rest.map .ok, buffer2, builder, .Started, lid⟩ : EventStream E)).2.builder
                (try_parse_event_buffer
                  (⟨rest.map .ok, buffer2, builder, .Started, lid⟩ : EventStream E)).2.state
                (try_parse_event_buffer
                  (⟨rest.map .ok, buffer2, builder, .Started,
                    lid⟩ : EventStream E)).2.last_event_id) →
            drive s = (procStarted rest buffer2 builder).map embed := by
          intro buffer2 hloop
          rw [hloop] at hpoll
          cases hp2 : parse_event buffer2 builder with
          | mk pr2 q2 =>
            obtain ⟨b1, bl1⟩ := q2
            set s3 : EventStream E := ⟨rest.map .ok, buffer2, builder, .Started, lid⟩
              with hs3
            cases pr2 with
            | error e2 =>
              have htpb2 := tpb_err (s := s3) hp2
              rw [htpb2] at hpoll
              simp only [Option.isSome_some, if_true] at hpoll
              rw [drive_unfold, hpoll]
              simp only
              have hsucc : ({ s3 with buffer := b1, builder := bl1 } : EventStream E) =
                  ⟨rest.map .ok, b1, bl1, .Started, lid⟩ := rfl
              rw [hsucc, drive_started rest b1 bl1 lid, procStarted_step_err rest hp2]
              simp [embed]
            | ok o2 =>
              cases o2 with
              | some ev2 =>
                have htpb2 := tpb_some_ok (s := s3) hp2
                rw [htpb2] at hpoll
                simp only [Option.isSome_some, if_true] at hpoll
                rw [drive_unfold, hpoll]
                simp only
                have hsucc : ({ s3 with
                    buffer := b1
                    builder := bl1
                    state := if s3.state = .NotStarted then .Started else s3.state
                    last_event_id := ev2.id } : EventStream E) =
                    ⟨rest.map .ok, b1, bl1, .Started, ev2.id⟩ := rfl
                rw [hsucc, drive_started rest b1 bl1 ev2.id, procStarted_step_some rest hp2]
                simp [embed]
              | none =>
                have htpb2 := tpb_none (s := s3) hp2
                rw [htpb2] at hpoll
                simp only [Option.isSome_none, Bool.false_eq_true, if_false] at hpoll
                have hq1 : parse_line_from_buffer b1 = none := by
                  have := parse_event_quiescent
                    (show (parse_event buffer2 builder).1 = .ok none by simp [hp2])
                  rwa [hp2] at this
                have halign := poll_next_quiescent_loop (rest.map (Except.ok (ε := E)))
                  bl1 lid .Started hq1 (by simp)
                have hdq : drive s = drive (⟨rest.map .ok, b1, bl1, .Started, lid⟩ :
                    EventStream E) := drive_poll_congr (by rw [hpoll, halign])
                rw [hdq, drive_started rest b1 bl1 lid, procStarted_step_none rest hp2]
        cases bv with
        | true =>
          have hnc : ¬(EventStreamState.NotStarted = EventStreamState.NotStarted ∧
              starts_with_bom (buffer ++ chunk) = none) := by simp [hsw]
          have hB2 : (if EventStreamState.NotStarted = EventStreamState.NotStarted ∧
              starts_with_bom (buffer ++ chunk) = some true
              then (buffer ++ chunk).drop BOM.length else buffer ++ chunk) =
              (buffer ++ chunk).drop BOM.length := by simp [hsw]
          have hS2 : (if EventStreamState.NotStarted = EventStreamState.NotStarted
              then EventStreamState.Started else EventStreamState.NotStarted) =
              EventStreamState.Started := by simp
          have := hKey ((buffer ++ chunk).drop BOM.length)
            (poll_loop_chunk_go hch hnc hB2 hS2 (rest.map .ok) builder lid)
          rw [this]
          simp [procNotStarted, hch, hsw]
        | false =>
          have hnc : ¬(EventStreamState.NotStarted = EventStreamState.NotStarted ∧
              starts_with_bom (buffer ++ chunk) = none) := by simp [hsw]
          have hB2 : (if EventStreamState.NotStarted = EventStreamState.NotStarted ∧
              starts_with_bom (buffer ++ chunk) = some true
              then (buffer ++ chunk).drop BOM.length else buffer ++ chunk) =
              buffer ++ chunk := by simp [hsw]
          have hS2 : (if EventStreamState.NotStarted = EventStreamState.NotStarted
              then EventStreamState.Started else EventStreamState.NotStarted) =
              EventStreamState.Started := by simp
          have := hKey (buffer ++ chunk)
            (poll_loop_chunk_go hch hnc hB2 hS2 (rest.map .ok) builder lid)
          rw [this]
          simp [procNotStarted, hch, hsw]

theorem starts_with_bom_eq_some_true {b : List Byte}
    (h : starts_with_bom b = some true) :
    BOM.length ≤ b.length ∧ b.take BOM.length = BOM := by
  unfold starts_with_bom at h
  split at h
  · rename_i hlen
    refine ⟨hlen, ?_⟩
    simpa using h
  · split at h
    · simp at h
    · simp at h

theorem starts_with_bom_eq_some_false {b : List Byte} (hne : b ≠ [])
    (h : starts_with_bom b = some false) (ext : List Byte) :
    ¬((b ++ ext).take BOM.length = BOM) := by
  unfold starts_with_bom at h
  split at h
  · rename_i hlen
    intro hc
    rw [List.take_append_of_le_length hlen] at hc
    simp only [Option.some.injEq, decide_eq_false_iff_not] at h
    exact h hc
  · split at h
    · simp at h
    · rename_i hlen hpre
      intro hc
      push_neg at hpre
      have hpre' := hpre hne
      have hlt : b.length ≤ BOM.length := le_of_not_le hlen
      have h1 : (b ++ ext).take b.length = b := List.take_left b ext
      have h2 : ((b ++ ext).take BOM.length).take b.length = (b ++ ext).take b.length := by
        rw [List.take_take, Nat.min_eq_left hlt]
      rw [hc, h1] at h2
      exact hpre' h2.symm

/-- Strip a leading UTF-8 BOM, if the bytes start with one. -/
def stripBOM (bytes : List Byte) : List Byte :=
  if bytes.take BOM.length = BOM then bytes.drop BOM.length else bytes

/-- Reference byte-level semantics of the whole adapter on a transport-error
free stream: strip a leading BOM, commit a trailing lone CR, then drain every
complete event. -/
def ref (bytes : List Byte) : List (Except Nat Event) :=
  (drainAll (crFix (stripBOM bytes)) EventBuilder.default).1

theorem procNotStarted_flatten :
    ∀ (chunks : List (List Byte)) (buffer : List Byte) (builder : EventBuilder),
      bomPrefix buffer →
      procNotStarted chunks buffer builder =
        (drainAll (crFix (stripBOM (buffer ++ chunks.flatten))) builder).1 := by
  intro chunks
  induction chunks with
  | nil =>
    intro buffer builder hinv
    have hstrip : stripBOM buffer = buffer := by
      rcases hinv with h | h | h <;> (subst h; decide)
    simp [procNotStarted, hstrip]
  | cons chunk rest ih =>
    intro buffer builder hinv
    by_cases hch : chunk.isEmpty
    · have hce : chunk = [] := by simpa using hch
      subst hce
      simp only [procNotStarted, List.isEmpty_nil, if_true]
      rw [ih buffer builder hinv]
      simp
    · cases hsw : starts_with_bom (buffer ++ chunk) with
      | none =>
        have hinv' : bomPrefix (buffer ++ chunk) := by
          rcases starts_with_bom_none_cases hsw with h | h <;> rw [h]
          · exact .inr (.inl rfl)
          · exact .inr (.inr rfl)
        simp only [procNotStarted, if_neg hch, if_pos hsw]
        rw [ih (buffer ++ chunk) builder hinv']
        simp
      | some bv =>
        cases bv with
        | true =>
          obtain ⟨hlen, htake⟩ := starts_with_bom_eq_some_true hsw
          have hL : procNotStarted (chunk :: rest) buffer builder =
              procStarted rest ((buffer ++ chunk).drop BOM.length) builder := by
            simp [procNotStarted, hch, hsw]
          rw [hL, procStarted_flatten]
          have hsB : stripBOM (buffer ++ (chunk :: rest).flatten) =
              (buffer ++ chunk).drop BOM.length ++ rest.flatten := by
            have harr : buffer ++ (chunk :: rest).flatten =
                (buffer ++ chunk) ++ rest.flatten := by simp
            rw [harr]
            unfold stripBOM
            rw [List.take_append_of_le_length hlen, htake, if_pos rfl,
              List.drop_append_of_le_length hlen]
          rw [hsB]
        | false =>
          have hne : buffer ++ chunk ≠ [] := by
            intro hc
            rw [List.append_eq_nil] at hc
            exact hch (by simp [hc.2])
          have hfalse := starts_with_bom_eq_some_false hne hsw rest.flatten
          have hL : procNotStarted (chunk :: rest) buffer builder =
              procStarted rest (buffer ++ chunk) builder := by
            simp [procNotStarted, hch, hsw]
          rw [hL, procStarted_flatten]
          have hsB : stripBOM (buffer ++ (chunk :: rest).flatten) =
              (buffer ++ chunk) ++ rest.flatten := by
            have harr : buffer ++ (chunk :: rest).flatten =
                (buffer ++ chunk) ++ rest.flatten := by simp
            rw [harr]
            unfold stripBOM
            rw [if_neg hfalse]
          rw [hsB]

/-- Driving a fresh adapter over Ok chunks equals the reference semantics of
the concatenated bytes. -/
theorem drive_eq_ref {E : Type} (chunks : List (List Byte)) :
    drive (EventStream.new ((chunks.map .ok) : List (Except E (List Byte)))) =
      (ref chunks.flatten).map embed := by
  have hnew : EventStream.new ((chunks.map .ok) : List (Except E (List Byte))) =
      ⟨chunks.map .ok, [], EventBuilder.default, .NotStarted, []⟩ := rfl
  rw [hnew, drive_not_started chunks [] EventBuilder.default [] (.inl rfl),
    procNotStarted_flatten chunks [] EventBuilder.default (.inl rfl)]
  simp [ref]

theorem memchr2_append_none {a b : Byte} {l : List Byte} (h : memchr2 a b l = none)
    (l' : List Byte) : memchr2 a b (l ++ l') = (memchr2 a b l').map (· + l.length) := by
  induction l with
  | nil => simp
  | cons c rest ih =>
    simp only [memchr2, List.cons_append] at h ⊢
    split at h
    · simp at h
    · rename_i hc
      cases hr : memchr2 a b rest with
      | some j => simp [hr] at h
      | none =>
        rw [if_neg hc]
        have hae : rest.append l' = rest ++ l' := rfl
        rw [hae, ih hr]
        cases memchr2 a b l' <;> simp <;> omega

theorem crFix_concat_cr (ys : List Byte) : crFix (ys ++ [CR]) = ys ++ [CR, LF] := by
  unfold crFix
  rw [List.getLast?_concat]
  simp

theorem crFix_concat_crlf (ys : List Byte) : crFix (ys ++ [CR, LF]) = ys ++ [CR, LF] := by
  unfold crFix
  have hlast : (ys ++ [CR, LF]).getLast? = some LF := by
    rw [show ys ++ [CR, LF] = (ys ++ [CR]) ++ [LF] by simp, List.getLast?_concat]
  rw [hlast]
  simp [LF, CR]

theorem ref_cr_eof (bs : List Byte) : ref (bs ++ [CR]) = ref (bs ++ [CR, LF]) := by
  unfold ref
  by_cases h3 : 3 ≤ bs.length
  · have hlen : BOM.length ≤ bs.length := by simp [BOM]; omega
    have ht1 : (bs ++ [CR]).take BOM.length = bs.take BOM.length :=
      List.take_append_of_le_length hlen
    have ht2 : (bs ++ [CR, LF]).take BOM.length = bs.take BOM.length :=
      List.take_append_of_le_length hlen
    unfold stripBOM
    rw [ht1, ht2]
    by_cases hb : bs.take BOM.length = BOM
    · rw [if_pos hb, if_pos hb, List.drop_append_of_le_length hlen,
        List.drop_append_of_le_length hlen, crFix_concat_cr, crFix_concat_crlf]
    · rw [if_neg hb, if_neg hb, crFix_concat_cr, crFix_concat_crlf]
  · have ht1 : stripBOM (bs ++ [CR]) = bs ++ [CR] := by
      match bs, h3 with
      | [], _ => simp [stripBOM, BOM, CR]
      | [a], _ => simp [stripBOM, BOM, CR]
      | [a, b], _ => simp [stripBOM, BOM, CR]
      | a :: b :: c :: t, h3 => exact absurd (by simp) h3
    have ht2 : stripBOM (bs ++ [CR, LF]) = bs ++ [CR, LF] := by
      match bs, h3 with
      | [], _ => simp [stripBOM, BOM, CR]
      | [a], _ => simp [stripBOM, BOM, CR]
      | [a, b], _ => simp [stripBOM, BOM, CR]
      | a :: b :: c :: t, h3 => exact absurd (by simp) h3
    rw [ht1, ht2, crFix_concat_cr, crFix_concat_crlf]

/-- C1: chunk-boundary invariance.  Two chunkings of the same byte sequence,
each delivered as Ok chunks followed by upstream EOF, drive the adapter to the
identical sequence of emitted results. -/
theorem C1_chunk_boundary_invariance {E : Type} (c1 c2 : List (List Byte))
    (h : c1.flatten = c2.flatten) :
    drive (EventStream.new ((c1.map .ok) : List (Except E (List Byte)))) =
      drive (EventStream.new (c2.map .ok)) := by
  rw [drive_eq_ref, drive_eq_ref, h]

/-- Witness for C1: two different splits of `"data: hi\n\n"`. -/
theorem C1_chunk_boundary_invariance_witness :
    ([[100, 97], [116, 97, 58, 32, 104, 105, 10, 10]] : List (List Byte)).flatten =
      ([[100, 97, 116, 97, 58, 32], [104, 105], [10], [10]] : List (List Byte)).flatten ∧
    drive (EventStream.new (([[100, 97], [116, 97, 58, 32, 104, 105, 10, 10]].map .ok) :
        List (Except Unit (List Byte)))) =
      drive (EventStream.new
        ([[100, 97, 116, 97, 58, 32], [104, 105], [10], [10]].map .ok)) :=
  ⟨rfl, C1_chunk_boundary_invariance _ _ rfl⟩

/-- C4: dispatch frame invariant.  After `dispatch`, whether or not an event
is emitted, `event`, `data_buffer`, `retry` and `is_complete` are back at
their defaults while `id` is unchanged; and an empty pre-call data buffer
emits no event. -/
theorem C4_dispatch_frame_invariant (b : EventBuilder) :
    ((b.dispatch).2.event = [] ∧ (b.dispatch).2.data_buffer = [] ∧
      (b.dispatch).2.retry = none ∧ (b.dispatch).2.is_complete = false ∧
      (b.dispatch).2.id = b.id) ∧
    (b.data_buffer = [] → (b.dispatch).1 = none) := by
  constructor
  · unfold EventBuilder.dispatch
    split <;> simp [EventBuilder.default]
  · intro h
    simp [EventBuilder.dispatch, h]

/-- Witness for C4 on a builder with pending event and retry fields. -/
theorem C4_dispatch_frame_invariant_witness :
    ({ event := [101], id := [105], data_buffer := [], retry := some 5,
        is_complete := true } : EventBuilder).data_buffer = [] ∧
    (({ event := [101], id := [105], data_buffer := [], retry := some 5,
        is_complete := true } : EventBuilder).dispatch).1 = none :=
  ⟨rfl, (C4_dispatch_frame_invariant _).2 rfl⟩

/-- C7: BOM handling.  For every chunking, the adapter's output equals the
reference run on the flattened bytes in which the three-byte BOM is stripped
exactly when it occupies offsets 0..3 of the logical stream — so a BOM split
across chunks is stripped without losing bytes, and BOM bytes appearing later
survive as literal line bytes. -/
theorem C7_bom_handling {E : Type} (chunks : List (List Byte)) :
    drive (EventStream.new ((chunks.map .ok) : List (Except E (List Byte)))) =
      ((drainAll (crFix (if chunks.flatten.take BOM.length = BOM
            then chunks.flatten.drop BOM.length else chunks.flatten))
          EventBuilder.default).1).map embed := by
  rw [drive_eq_ref]
  rfl

/-- C8: trailing CR commit at EOF.  A lone CR as final byte is never a line
terminator mid-stream, and an input ending in CR then EOF drives to the same
outputs as the same input ending in CRLF then EOF. -/
theorem C8_trailing_cr_commit {E : Type} (bs : List Byte) :
    (∀ pre : List Byte, memchr2 CR LF pre = none → find_eol (pre ++ [CR]) = none) ∧
    drive (EventStream.new ([.ok (bs ++ [CR])] : List (Except E (List Byte)))) =
      drive (EventStream.new [.ok (bs ++ [CR, LF])]) := by
  constructor
  · intro pre hpre
    have hm : memchr2 CR LF (pre ++ [CR]) = some pre.length := by
      rw [memchr2_append_none hpre]
      simp [memchr2]
    rw [find_eol_eq_some hm]
    have hg : (pre ++ [CR]).getD pre.length 0 = CR := by
      rw [List.getD_append_right pre [CR] 0 pre.length (le_refl _)]
      simp
    rw [hg]
    simp [CR, LF]
  · have h1 : ([bs ++ [CR]] : List (List Byte)).flatten = bs ++ [CR] := by simp
    have h2 : ([bs ++ [CR, LF]] : List (List Byte)).flatten = bs ++ [CR, LF] := by simp
    have d1 := drive_eq_ref (E := E) [bs ++ [CR]]
    have d2 := drive_eq_ref (E := E) [bs ++ [CR, LF]]
    rw [h1] at d1
    rw [h2] at d2
    rw [show ([.ok (bs ++ [CR])] : List (Except E (List Byte))) =
      [bs ++ [CR]].map .ok by rfl]
    rw [show ([.ok (bs ++ [CR, LF])] : List (Except E (List Byte))) =
      [bs ++ [CR, LF]].map .ok by rfl]
    rw [d1, d2, ref_cr_eof]

/-- Witness for C8: `"data: test"` then a lone CR, against CRLF. -/
theorem C8_trailing_cr_commit_witness :
    find_eol ([100, 97, 116, 97, 58, 32, 116, 101, 115, 116] ++ [CR]) = none ∧
    drive (EventStream.new
        ([.ok ([100, 97, 116, 97, 58, 32, 116, 101, 115, 116] ++ [CR])] :
          List (Except Unit (List Byte)))) =
      drive (EventStream.new
        [.ok ([100, 97, 116, 97, 58, 32, 116, 101, 115, 116] ++ [CR, LF])]) :=
  ⟨(C8_trailing_cr_commit (E := Unit) [100, 97, 116, 97, 58, 32, 116, 101, 115, 116]).1
      [100, 97, 116, 97, 58, 32, 116, 101, 115, 116] (by decide),
    (C8_trailing_cr_commit (E := Unit) [100, 97, 116, 97, 58, 32, 116, 101, 115, 116]).2⟩

/-- The values contributed by the data field lines of `ls`, in input order
(a valueless data line contributes the empty value). -/
def dataValues (ls : List ValidatedEventLine) : List (List Byte) :=
  ls.filterMap fun l =>
    match l with
    | .Field .Data v => some (v.getD [])
    | _ => none

theorem foldl_add_data_buffer (ls : List ValidatedEventLine) :
    ∀ (b : EventBuilder), (ls.foldl EventBuilder.add b).data_buffer =
      b.data_buffer ++ (dataValues ls).flatMap (fun v => v ++ [LF]) := by
  induction ls with
  | nil => intro b; simp [dataValues]
  | cons l rest ih =>
    intro b
    rw [List.foldl_cons, ih]
    cases l with
    | Empty => simp [EventBuilder.add, dataValues]
    | Comment => simp [EventBuilder.add, dataValues]
    | Field fn v =>
      cases fn with
      | Data => simp [EventBuilder.add, dataValues]
      | Event => cases v <;> simp [EventBuilder.add, dataValues]
      | Id =>
        by_cases hcond : (v.map fun fv => (memchr 0 fv).isNone).getD true <;>
          simp [EventBuilder.add, dataValues, hcond]
      | Retry =>
        simp only [EventBuilder.add]
        split <;> simp [dataValues]
      | Ignored => simp [EventBuilder.add, dataValues]

theorem flatMap_lf_eq_intercalate : ∀ (v : List Byte) (vs : List (List Byte)),
    (v :: vs).flatMap (fun x => x ++ [LF]) = List.intercalate [LF] (v :: vs) ++ [LF] := by
  intro v vs
  induction vs generalizing v with
  | nil => simp [List.intercalate]
  | cons w ws ih =>
    rw [List.flatMap_cons, ih w]
    simp [List.intercalate, List.intersperse]

/-- C5: data assembly.  An event emitted by dispatching a builder whose data
buffer started empty carries as `data` the data field values accumulated
since, in input order, joined by a single LF and with no trailing LF. -/
theorem C5_data_assembly (b0 : EventBuilder) (ls : List ValidatedEventLine) (ev : Event)
    (h0 : b0.data_buffer = [])
    (hev : ((ls.foldl EventBuilder.add b0).dispatch).1 = some ev) :
    ev.data = List.intercalate [LF] (dataValues ls) := by
  have hbuf : (ls.foldl EventBuilder.add b0).data_buffer =
      (dataValues ls).flatMap (fun v => v ++ [LF]) := by
    rw [foldl_add_data_buffer, h0, List.nil_append]
  cases hvs : dataValues ls with
  | nil =>
    rw [hvs] at hbuf
    simp only [List.flatMap_nil] at hbuf
    simp [EventBuilder.dispatch, hbuf] at hev
  | cons v vs =>
    rw [hvs, flatMap_lf_eq_intercalate] at hbuf
    have hne : ¬(ls.foldl EventBuilder.add b0).data_buffer.isEmpty = true := by
      rw [hbuf]; simp
    have hlast : (ls.foldl EventBuilder.add b0).data_buffer.getLast? = some LF := by
      rw [hbuf, List.getLast?_concat]
    simp only [EventBuilder.dispatch] at hev
    rw [if_neg hne] at hev
    simp only [Option.some.injEq] at hev
    rw [← hev]
    simp only [if_pos hlast]
    rw [hbuf, List.dropLast_concat]

/-- Witness for C5: `data: h` then a valueless `data` line joined as
`"h\n"`. -/
theorem C5_data_assembly_witness :
    EventBuilder.default.data_buffer = [] ∧
    (([ValidatedEventLine.Field .Data (some [104]),
        .Field .Data none].foldl EventBuilder.add EventBuilder.default).dispatch).1 =
      some { event := messageBytes, data := [104, LF], id := [], retry := none } ∧
    ({ event := messageBytes, data := [104, LF], id := [], retry := none } : Event).data =
      List.intercalate [LF]
        (dataValues [ValidatedEventLine.Field .Data (some [104]), .Field .Data none]) :=
  ⟨rfl, by decide,
    C5_data_assembly EventBuilder.default
      [ValidatedEventLine.Field .Data (some [104]), .Field .Data none] _ rfl (by decide)⟩

/-- The most recent valid id value among `ls`, starting from `cur`: a
valueless id line resets to empty, an id value containing a NUL byte is
ignored. -/
def lastValidId (cur : List Byte) : List ValidatedEventLine → List Byte
  | [] => cur
  | l :: rest =>
    lastValidId
      (match l with
       | .Field .Id v =>
         if (v.map fun fv => (memchr 0 fv).isNone).getD true then v.getD [] else cur
       | _ => cur) rest

theorem dispatch_id_eq {b : EventBuilder} {ev : Event}
    (h : (b.dispatch).1 = some ev) : ev.id = b.id := by
  simp only [EventBuilder.dispatch] at h
  split at h
  · simp at h
  · simp only [Option.some.injEq] at h
    rw [← h]

theorem foldl_add_id : ∀ (ls : List ValidatedEventLine) (b : EventBuilder),
    (ls.foldl EventBuilder.add b).id = lastValidId b.id ls := by
  intro ls
  induction ls with
  | nil => intro b; rfl
  | cons l rest ih =>
    intro b
    rw [List.foldl_cons, ih]
    simp only [lastValidId]
    have harg : (b.add l).id =
        (match l with
         | .Field .Id v =>
           if (v.map fun fv => (memchr 0 fv).isNone).getD true then v.getD [] else b.id
         | _ => b.id) := by
      cases l with
      | Empty => rfl
      | Comment => rfl
      | Field fn v =>
        cases fn with
        | Id =>
          by_cases hcond : (v.map fun fv => (memchr 0 fv).isNone).getD true <;>
            simp [EventBuilder.add, hcond]
        | Event => cases v <;> rfl
        | Data => rfl
        | Retry =>
          simp only [EventBuilder.add]
          split <;> rfl
        | Ignored => rfl
    rw [harg]

/-- C6: sticky id with NUL rejection.  Dispatch preserves the id and stamps
it on the emitted event; a valid id line (no NUL) overwrites it, a valueless
id line clears it, an id value containing NUL is ignored, non-id lines leave
it alone; hence an emitted event's id is the most recent valid id value. -/
theorem C6_sticky_id (b : EventBuilder) (ls : List ValidatedEventLine)
    (v : List Byte) (ev : Event) :
    ((b.dispatch).2.id = b.id ∧ ((b.dispatch).1 = some ev → ev.id = b.id)) ∧
    (memchr 0 v = none → (b.add (.Field .Id (some v))).id = v) ∧
    ((b.add (.Field .Id none)).id = []) ∧
    (memchr 0 v ≠ none → (b.add (.Field .Id (some v))).id = b.id) ∧
    (∀ fn w, fn ≠ FieldName.Id → (b.add (.Field fn w)).id = b.id) ∧
    ((b.add .Empty).id = b.id ∧ (b.add .Comment).id = b.id) ∧
    (((ls.foldl EventBuilder.add b).dispatch).1 = some ev →
      ev.id = lastValidId b.id ls) := by
  refine ⟨⟨?_, ?_⟩, ?_, ?_, ?_, ?_, ⟨rfl, rfl⟩, ?_⟩
  · simp only [EventBuilder.dispatch]
    split <;> rfl
  · exact fun h => dispatch_id_eq h
  · intro h
    simp [EventBuilder.add, h]
  · rfl
  · intro h
    have : ¬(memchr 0 v).isNone = true := by
      cases hm : memchr 0 v with
      | none => exact absurd hm h
      | some j => simp
    simp [EventBuilder.add, this]
  · intro fn w hfn
    cases fn with
    | Id => exact absurd rfl hfn
    | Event => cases w <;> rfl
    | Data => rfl
    | Retry =>
      simp only [EventBuilder.add]
      split <;> rfl
    | Ignored => rfl
  · intro hev
    rw [dispatch_id_eq hev, foldl_add_id]

/-- Witness for C6: an id line then a data line; the emitted event carries
the id. -/
theorem C6_sticky_id_witness :
    (([ValidatedEventLine.Field .Id (some [49]),
        .Field .Data (some [104])].foldl EventBuilder.add EventBuilder.default).dispatch).1 =
      some { event := messageBytes, data := [104], id := [49], retry := none } ∧
    ({ event := messageBytes, data := [104], id := [49], retry := none } : Event).id =
      lastValidId EventBuilder.default.id
        [ValidatedEventLine.Field .Id (some [49]), .Field .Data (some [104])] :=
  ⟨by decide,
    (C6_sticky_id EventBuilder.default
      [ValidatedEventLine.Field .Id (some [49]), .Field .Data (some [104])] []
      { event := messageBytes, data := [104], id := [49], retry := none }).2.2.2.2.2.2
      (by decide)⟩

theorem memchr_some_lt {needle : Byte} {l : List Byte} {i : Nat}
    (h : memchr needle l = some i) : i < l.length := by
  induction l generalizing i with
  | nil => simp [memchr] at h
  | cons c rest ih =>
    simp only [memchr] at h
    split at h
    · simp at h ⊢
      omega
    · cases hr : memchr needle rest with
      | none => simp [hr] at h
      | some j =>
        simp [hr] at h
        subst h
        have := ih hr
        simp
        omega

theorem memchr_some_mem {needle : Byte} {l : List Byte} {i : Nat}
    (h : memchr needle l = some i) : l.getD i 0 = needle := by
  induction l generalizing i with
  | nil => simp [memchr] at h
  | cons c rest ih =>
    simp only [memchr] at h
    split at h
    · rename_i hc
      simp at h
      subst h
      simpa using hc
    · cases hr : memchr needle rest with
      | none => simp [hr] at h
      | some j =>
        simp [hr] at h
        subst h
        simpa using ih hr

theorem memchr_first {needle : Byte} {l : List Byte} {i : Nat}
    (h : memchr needle l = some i) : ∀ j < i, l.getD j 0 ≠ needle := by
  induction l generalizing i with
  | nil => simp [memchr] at h
  | cons c rest ih =>
    simp only [memchr] at h
    split at h
    · simp at h
      omega
    · rename_i hc
      cases hr : memchr needle rest with
      | none => simp [hr] at h
      | some j =>
        simp [hr] at h
        subst h
        intro k hk
        cases k with
        | zero => simpa using hc
        | succ k' => simpa using ih hr k' (by omega)

theorem memchr_none {needle : Byte} {l : List Byte}
    (h : memchr needle l = none) : ∀ j < l.length, l.getD j 0 ≠ needle := by
  induction l with
  | nil => simp
  | cons c rest ih =>
    simp only [memchr] at h
    split at h
    · simp at h
    · rename_i hc
      cases hr : memchr needle rest with
      | some j => simp [hr] at h
      | none =>
        intro k hk
        cases k with
        | zero => simpa using hc
        | succ k' => exact ih hr k' (by simpa using hk)

theorem stripSpace_eq (value : List Byte) :
    (match value with
     | 0x20 :: rest => rest
     | _ => value) =
      if value.head? = some SPACE then value.tail else value := by
  split
  · rename_i rest
    simp [SPACE]
  · rename_i h
    cases value with
    | nil => rfl
    | cons b t =>
      have hb : b ≠ 0x20 := by
        intro hc
        subst hc
        exact h t rfl
      simp [SPACE, hb]

/-- The one-space strip the spec prescribes after the colon. -/
def stripOneSpace (value : List Byte) : List Byte :=
  if value.head? = some SPACE then value.tail else value

/-- The spec's classification of the terminator-free bytes of one line. -/
def lineClass (line : List Byte) (l : RawEventLine) : Prop :=
  (line = [] ∧ l = .Empty) ∨
  (line ≠ [] ∧ line.getD 0 0 = COLON ∧ l = .Comment) ∨
  (∃ c, 0 < c ∧ c < line.length ∧ line.getD c 0 = COLON ∧
    (∀ j < c, line.getD j 0 ≠ COLON) ∧
    l = .Field (line.take c) (some (stripOneSpace (line.drop (c + 1))))) ∨
  (line ≠ [] ∧ (∀ j < line.length, line.getD j 0 ≠ COLON) ∧ l = .Field line none)

theorem read_line_class (line : List Byte) : lineClass line (read_line line) := by
  unfold lineClass
  cases hm : memchr COLON line with
  | none =>
    by_cases hemp : line.isEmpty
    · left
      refine ⟨by simpa using hemp, ?_⟩
      unfold read_line
      simp only [hm]
      rw [if_pos hemp]
    · right; right; right
      refine ⟨by simpa using hemp, memchr_none hm, ?_⟩
      unfold read_line
      simp only [hm]
      rw [if_neg hemp]
  | some c =>
    have hlt := memchr_some_lt hm
    have hcol := memchr_some_mem hm
    have hfirst := memchr_first hm
    by_cases hc0 : c = 0
    · subst hc0
      right; left
      refine ⟨?_, hcol, ?_⟩
      · intro hn
        subst hn
        simp at hlt
      · unfold read_line
        simp [hm]
    · right; right; left
      refine ⟨c, by omega, hlt, hcol, hfirst, ?_⟩
      unfold read_line
      simp only [hm]
      rw [if_neg hc0, stripSpace_eq]
      rfl

theorem find_eol_eq_none_iff (bytes : List Byte) :
    find_eol bytes = none ↔
      ∀ i < bytes.length,
        bytes.getD i 0 ≠ LF ∧ (bytes.getD i 0 = CR → i + 1 = bytes.length) := by
  constructor
  · intro h i hi
    cases hm : memchr2 CR LF bytes with
    | none =>
      have := memchr2_none hm i hi
      exact ⟨this.2, fun hc => absurd hc this.1⟩
    | some fm =>
      rw [find_eol_eq_some hm] at h
      by_cases hlf : bytes.getD fm 0 = LF
      · rw [if_pos hlf] at h
        simp at h
      · rw [if_neg hlf] at h
        by_cases hend : fm + 1 ≥ bytes.length
        · have hcr : bytes.getD fm 0 = CR := by
            rcases memchr2_some_mem hm with hc | hc
            · exact hc
            · exact absurd hc hlf
          have hfmlt := memchr2_some_lt hm
          have hfirst := memchr2_first hm
          rcases Nat.lt_trichotomy i fm with hilt | hieq | higt
          · have := hfirst i hilt
            exact ⟨this.2, fun hc => absurd hc this.1⟩
          · subst hieq
            exact ⟨hlf, fun _ => by omega⟩
          · omega
        · rw [if_neg hend] at h
          split at h <;> simp at h
  · intro hcond
    cases hm : memchr2 CR LF bytes with
    | none => exact find_eol_none hm
    | some fm =>
      rw [find_eol_eq_some hm]
      have hfmlt := memchr2_some_lt hm
      have hcr : bytes.getD fm 0 = CR := by
        rcases memchr2_some_mem hm with hc | hc
        · exact hc
        · exact absurd hc (hcond fm hfmlt).1
      rw [if_neg (hcond fm hfmlt).1]
      have : fm + 1 = bytes.length := (hcond fm hfmlt).2 hcr
      rw [if_pos (by omega)]

/-- C3: tokenizer postcondition.  `parse_line` returns `none` exactly when no
complete line is present (no LF, and a CR only as the very last byte);
otherwise it splits at the first terminator (LF, CRLF, or CR followed by a
non-LF byte), returns the remainder after the terminator, and classifies the
terminator-free line bytes as Empty, Comment (leading colon), a Field with
the colon-split name and the value with exactly one leading space stripped,
or a colon-free Field with no value. -/
theorem C3_parse_line_postcondition (bytes : List Byte) :
    (parse_line bytes = none ↔
      ∀ i < bytes.length,
        bytes.getD i 0 ≠ LF ∧ (bytes.getD i 0 = CR → i + 1 = bytes.length)) ∧
    (∀ l rest, parse_line bytes = some (l, rest) →
      ∃ k < bytes.length,
        (∀ j < k, bytes.getD j 0 ≠ LF ∧ bytes.getD j 0 ≠ CR) ∧
        ((bytes.getD k 0 = LF ∧ rest = bytes.drop (k + 1)) ∨
         (bytes.getD k 0 = CR ∧ k + 1 < bytes.length ∧ bytes.getD (k + 1) 0 = LF ∧
            rest = bytes.drop (k + 2)) ∨
         (bytes.getD k 0 = CR ∧ k + 1 < bytes.length ∧ bytes.getD (k + 1) 0 ≠ LF ∧
            rest = bytes.drop (k + 1))) ∧
        lineClass (bytes.take k) l) := by
  constructor
  · have hplnone : parse_line bytes = none ↔ find_eol bytes = none := by
      unfold parse_line split_at_next_eol
      cases find_eol bytes <;> simp
    rw [hplnone]
    exact find_eol_eq_none_iff bytes
  · intro l rest hsome
    unfold parse_line split_at_next_eol at hsome
    cases hfe : find_eol bytes with
    | none =>
      rw [hfe] at hsome
      simp at hsome
    | some p =>
      obtain ⟨le, rs⟩ := p
      rw [hfe] at hsome
      simp only [Option.map_map, Option.map_some', Option.some.injEq,
        Function.comp] at hsome
      have hl : read_line (bytes.take le) = l := congrArg Prod.fst hsome
      have hrest : bytes.drop rs = rest := congrArg Prod.snd hsome
      cases hm : memchr2 CR LF bytes with
      | none => rw [find_eol_none hm] at hfe; simp at hfe
      | some fm =>
        rw [find_eol_eq_some hm] at hfe
        have hprior : ∀ j < fm, bytes.getD j 0 ≠ LF ∧ bytes.getD j 0 ≠ CR :=
          fun j hj => ⟨(memchr2_first hm j hj).2, (memchr2_first hm j hj).1⟩
        have hfmlt := memchr2_some_lt hm
        by_cases hlf : bytes.getD fm 0 = LF
        · rw [if_pos hlf] at hfe
          simp only [Option.some.injEq, Prod.mk.injEq] at hfe
          obtain ⟨hle, hrs⟩ := hfe
          refine ⟨fm, hfmlt, hprior, ?_, ?_⟩
          · exact .inl ⟨hlf, by rw [← hrest, hrs]⟩
          · rw [← hl, ← hle]
            exact read_line_class (bytes.take fm)
        · rw [if_neg hlf] at hfe
          have hcr : bytes.getD fm 0 = CR := by
            rcases memchr2_some_mem hm with hc | hc
            · exact hc
            · exact absurd hc hlf
          by_cases hend : fm + 1 ≥ bytes.length
          · rw [if_pos hend] at hfe
            simp at hfe
          · rw [if_neg hend] at hfe
            by_cases hlf2 : bytes.getD (fm + 1) 0 = LF
            · rw [if_pos hlf2] at hfe
              simp only [Option.some.injEq, Prod.mk.injEq] at hfe
              obtain ⟨hle, hrs⟩ := hfe
              refine ⟨fm, hfmlt, hprior, ?_, ?_⟩
              · exact .inr (.inl ⟨hcr, by omega, hlf2, by rw [← hrest, hrs]⟩)
              · rw [← hl, ← hle]
                exact read_line_class (bytes.take fm)
            · rw [if_neg hlf2] at hfe
              simp only [Option.some.injEq, Prod.mk.injEq] at hfe
              obtain ⟨hle, hrs⟩ := hfe
              refine ⟨fm, hfmlt, hprior, ?_, ?_⟩
              · exact .inr (.inr ⟨hcr, by omega, hlf2, by rw [← hrest, hrs]⟩)
              · rw [← hl, ← hle]
                exact read_line_class (bytes.take fm)

/-- Witness for C3: `"hi"` followed by a lone trailing CR is not yet a
complete line. -/
theorem C3_parse_line_postcondition_witness :
    parse_line [104, 105, CR] = none :=
  (C3_parse_line_postcondition [104, 105, CR]).1.mpr (by decide)

/-- C9: UTF-8 error locality.  When the next complete line of the buffer is a
field whose value is invalid UTF-8, the poll reaching it returns a Utf8Error
carrying the `valid_up_to` byte position; the offending line has been
consumed (the buffer moves past it) while the builder, pending stream items,
state and last event id are untouched; and driving on simply continues from
the state after the error, so later lines can still produce events. -/
theorem C9_utf8_error_locality {E : Type} (s : EventStream E)
    (n v rest : List Byte) (p : Nat)
    (hline : parse_line_from_buffer s.buffer = some (.Field n (some v), rest))
    (hutf : utf8Err v = some p) :
    s.poll_next = (some (.error (.Utf8Error p)), { s with buffer := rest }) ∧
    drive s = .error (.Utf8Error p) :: drive { s with buffer := rest } := by
  have hval : (RawEventLineOwned.Field n (some v)).validate = .error p := by
    simp [RawEventLineOwned.validate, validate_bytes, hutf]
  have hpe : parse_event s.buffer s.builder = (.error p, rest, s.builder) :=
    parse_event_line_error s.builder hline hval
  have htpb := tpb_err (s := s) hpe
  have hpoll := poll_next_of_tpb_some htpb
  have hpoll' : s.poll_next = (some (.error (.Utf8Error p)), { s with buffer := rest }) :=
    hpoll
  refine ⟨hpoll', ?_⟩
  rw [drive_unfold, hpoll']

/-- Witness for C9: a data line with an invalid byte, then a valid data line
that still becomes an event. -/
theorem C9_utf8_error_locality_witness :
    utf8Err [255] = some 0 ∧
    drive (⟨[], [100, 97, 116, 97, 58, 255, LF, 100, 97, 116, 97, 58, 104, LF, LF],
        EventBuilder.default, .Started, []⟩ : EventStream Unit) =
      .error (.Utf8Error 0) ::
        drive (⟨[], [100, 97, 116, 97, 58, 104, LF, LF], EventBuilder.default,
          .Started, []⟩ : EventStream Unit) ∧
    drive (⟨[], [100, 97, 116, 97, 58, 104, LF, LF], EventBuilder.default,
        .Started, []⟩ : EventStream Unit) =
      [.ok { event := messageBytes, data := [104], id := [], retry := none }] :=
  ⟨rfl,
    (C9_utf8_error_locality
      (⟨[], [100, 97, 116, 97, 58, 255, LF, 100, 97, 116, 97, 58, 104, LF, LF],
        EventBuilder.default, .Started, []⟩ : EventStream Unit)
      [100, 97, 116, 97] [255] [100, 97, 116, 97, 58, 104, LF, LF] 0 rfl rfl).2,
    rfl⟩

/-! ### UTF-8 branch equations and the longest-valid-prefix property -/

theorem utf8Err_ascii {b : Byte} (hb : b < 0x80) (l : List Byte) :
    utf8Err (b :: l) = (utf8Err l).map (· + 1) := by
  conv_lhs => unfold utf8Err
  rw [if_pos hb]

theorem utf8Err_bad1 {b : Byte} (hb1 : ¬b < 0x80) (hb2 : b < 0xC2) (l : List Byte) :
    utf8Err (b :: l) = some 0 := by
  conv_lhs => unfold utf8Err
  rw [if_neg hb1, if_pos hb2]

theorem utf8Err_two_nil {b : Byte} (hb1 : ¬b < 0x80) (hb2 : ¬b < 0xC2)
    (hb3 : b ≤ 0xDF) : utf8Err [b] = some 0 := by
  conv_lhs => unfold utf8Err
  rw [if_neg hb1, if_neg hb2, if_pos hb3]

theorem utf8Err_two_good {b c : Byte} (hb1 : ¬b < 0x80) (hb2 : ¬b < 0xC2)
    (hb3 : b ≤ 0xDF) (hc : contIn 0x80 0xBF c = true) (l : List Byte) :
    utf8Err (b :: c :: l) = (utf8Err l).map (· + 2) := by
  conv_lhs => unfold utf8Err
  rw [if_neg hb1, if_neg hb2, if_pos hb3]
  simp [hc]

theorem utf8Err_two_badc {b c : Byte} (hb1 : ¬b < 0x80) (hb2 : ¬b < 0xC2)
    (hb3 : b ≤ 0xDF) (hc : ¬contIn 0x80 0xBF c = true) (l : List Byte) :
    utf8Err (b :: c :: l) = some 0 := by
  conv_lhs => unfold utf8Err
  rw [if_neg hb1, if_neg hb2, if_pos hb3]
  simp [hc]

theorem utf8Err_three_nil {b : Byte} (hb1 : ¬b < 0x80) (hb2 : ¬b < 0xC2)
    (hb3 : ¬b ≤ 0xDF) (hb4 : b ≤ 0xEF) : utf8Err [b] = some 0 := by
  conv_lhs => unfold utf8Err
  rw [if_neg hb1, if_neg hb2, if_neg hb3, if_pos hb4]

theorem utf8Err_three_nil2 {b c : Byte} (hb1 : ¬b < 0x80) (hb2 : ¬b < 0xC2)
    (hb3 : ¬b ≤ 0xDF) (hb4 : b ≤ 0xEF)
    (hc : contIn (if b = 0xE0 then 0xA0 else 0x80) (if b = 0xED then 0x9F else 0xBF) c
      = true) :
    utf8Err [b, c] = some 0 := by
  conv_lhs => unfold utf8Err
  rw [if_neg hb1, if_neg hb2, if_neg hb3, if_pos hb4]
  simp [hc]

theorem utf8Err_three_good {b c d : Byte} (hb1 : ¬b < 0x80) (hb2 : ¬b < 0xC2)
    (hb3 : ¬b ≤ 0xDF) (hb4 : b ≤ 0xEF)
    (hc : contIn (if b = 0xE0 then 0xA0 else 0x80) (if b = 0xED then 0x9F else 0xBF) c
      = true)
    (hd : contIn 0x80 0xBF d = true) (l : List Byte) :
    utf8Err (b :: c :: d :: l) = (utf8Err l).map (· + 3) := by
  conv_lhs => unfold utf8Err
  rw [if_neg hb1, if_neg hb2, if_neg hb3, if_pos hb4]
  simp [hc, hd]

theorem utf8Err_three_badc {b c : Byte} (hb1 : ¬b < 0x80) (hb2 : ¬b < 0xC2)
    (hb3 : ¬b ≤ 0xDF) (hb4 : b ≤ 0xEF)
    (hc : ¬contIn (if b = 0xE0 then 0xA0 else 0x80) (if b = 0xED then 0x9F else 0xBF) c
      = true) (l : List Byte) :
    utf8Err (b :: c :: l) = some 0 := by
  conv_lhs => unfold utf8Err
  rw [if_neg hb1, if_neg hb2, if_neg hb3, if_pos hb4]
  simp [hc]

theorem utf8Err_three_badd {b c d : Byte} (hb1 : ¬b < 0x80) (hb2 : ¬b < 0xC2)
    (hb3 : ¬b ≤ 0xDF) (hb4 : b ≤ 0xEF)
    (hc : contIn (if b = 0xE0 then 0xA0 else 0x80) (if b = 0xED then 0x9F else 0xBF) c
      = true)
    (hd : ¬contIn 0x80 0xBF d = true) (l : List Byte) :
    utf8Err (b :: c :: d :: l) = some 0 := by
  conv_lhs => unfold utf8Err
  rw [if_neg hb1, if_neg hb2, if_neg hb3, if_pos hb4]
  simp [hc, hd]

theorem utf8Err_four_nil {b : Byte} (hb1 : ¬b < 0x80) (hb2 : ¬b < 0xC2)
    (hb3 : ¬b ≤ 0xDF) (hb4 : ¬b ≤ 0xEF) (hb5 : b ≤ 0xF4) : utf8Err [b] = some 0 := by
  conv_lhs => unfold utf8Err
  rw [if_neg hb1, if_neg hb2, if_neg hb3, if_neg hb4, if_pos hb5]

theorem utf8Err_four_nil2 {b c : Byte} (hb1 : ¬b < 0x80) (hb2 : ¬b < 0xC2)
    (hb3 : ¬b ≤ 0xDF) (hb4 : ¬b ≤ 0xEF) (hb5 : b ≤ 0xF4)
    (hc : contIn (if b = 0xF0 then 0x90 else 0x80) (if b = 0xF4 then 0x8F else 0xBF) c
      = true) :
    utf8Err [b, c] = some 0 := by
  conv_lhs => unfold utf8Err
  rw [if_neg hb1, if_neg hb2, if_neg hb3, if_neg hb4, if_pos hb5]
  simp [hc]

theorem utf8Err_four_nil3 {b c d : Byte} (hb1 : ¬b < 0x80) (hb2 : ¬b < 0xC2)
    (hb3 : ¬b ≤ 0xDF) (hb4 : ¬b ≤ 0xEF) (hb5 : b ≤ 0xF4)
    (hc : contIn (if b = 0xF0 then 0x90 else 0x80) (if b = 0xF4 then 0x8F else 0xBF) c
      = true)
    (hd : contIn 0x80 0xBF d = true) :
    utf8Err [b, c, d] = some 0 := by
  conv_lhs => unfold utf8Err
  rw [if_neg hb1, if_neg hb2, if_neg hb3, if_neg hb4, if_pos hb5]
  simp [hc, hd]

theorem utf8Err_four_good {b c d e : Byte} (hb1 : ¬b < 0x80) (hb2 : ¬b < 0xC2)
    (hb3 : ¬b ≤ 0xDF) (hb4 : ¬b ≤ 0xEF) (hb5 : b ≤ 0xF4)
    (hc : contIn (if b = 0xF0 then 0x90 else 0x80) (if b = 0xF4 then 0x8F else 0xBF) c
      = true)
    (hd : contIn 0x80 0xBF d = true) (he : contIn 0x80 0xBF e = true) (l : List Byte) :
    utf8Err (b :: c :: d :: e :: l) = (utf8Err l).map (· + 4) := by
  conv_lhs => unfold utf8Err
  rw [if_neg hb1, if_neg hb2, if_neg hb3, if_neg hb4, if_pos hb5]
  simp [hc, hd, he]

theorem utf8Err_four_badc {b c : Byte} (hb1 : ¬b < 0x80) (hb2 : ¬b < 0xC2)
    (hb3 : ¬b ≤ 0xDF) (hb4 : ¬b ≤ 0xEF) (hb5 : b ≤ 0xF4)
    (hc : ¬contIn (if b = 0xF0 then 0x90 else 0x80) (if b = 0xF4 then 0x8F else 0xBF) c
      = true) (l : List Byte) :
    utf8Err (b :: c :: l) = some 0 := by
  conv_lhs => unfold utf8Err
  rw [if_neg hb1, if_neg hb2, if_neg hb3, if_neg hb4, if_pos hb5]
  simp [hc]

theorem utf8Err_four_badd {b c d : Byte} (hb1 : ¬b < 0x80) (hb2 : ¬b < 0xC2)
    (hb3 : ¬b ≤ 0xDF) (hb4 : ¬b ≤ 0xEF) (hb5 : b ≤ 0xF4)
    (hc : contIn (if b = 0xF0 then 0x90 else 0x80) (if b = 0xF4 then 0x8F else 0xBF) c
      = true)
    (hd : ¬contIn 0x80 0xBF d = true) (l : List Byte) :
    utf8Err (b :: c :: d :: l) = some 0 := by
  conv_lhs => unfold utf8Err
  rw [if_neg hb1, if_neg hb2, if_neg hb3, if_neg hb4, if_pos hb5]
  simp [hc, hd]

theorem utf8Err_four_bade {b c d e : Byte} (hb1 : ¬b < 0x80) (hb2 : ¬b < 0xC2)
    (hb3 : ¬b ≤ 0xDF) (hb4 : ¬b ≤ 0xEF) (hb5 : b ≤ 0xF4)
    (hc : contIn (if b = 0xF0 then 0x90 else 0x80) (if b = 0xF4 then 0x8F else 0xBF) c
      = true)
    (hd : contIn 0x80 0xBF d = true) (he : ¬contIn 0x80 0xBF e = true) (l : List Byte) :
    utf8Err (b :: c :: d :: e :: l) = some 0 := by
  conv_lhs => unfold utf8Err
  rw [if_neg hb1, if_neg hb2, if_neg hb3, if_neg hb4, if_pos hb5]
  simp [hc, hd, he]

theorem utf8Err_big {b : Byte} (hb1 : ¬b < 0x80) (hb2 : ¬b < 0xC2)
    (hb3 : ¬b ≤ 0xDF) (hb4 : ¬b ≤ 0xEF) (hb5 : ¬b ≤ 0xF4) (l : List Byte) :
    utf8Err (b :: l) = some 0 := by
  conv_lhs => unfold utf8Err
  rw [if_neg hb1, if_neg hb2, if_neg hb3, if_neg hb4, if_neg hb5]

theorem take_two_cons (b c : Byte) (l : List Byte) (q : Nat) :
    (b :: c :: l).take (q + 2) = b :: c :: l.take q := by
  rw [show q + 2 = (q + 1) + 1 from rfl, List.take_succ_cons, List.take_succ_cons]

theorem take_three_cons (b c d : Byte) (l : List Byte) (q : Nat) :
    (b :: c :: d :: l).take (q + 3) = b :: c :: d :: l.take q := by
  rw [show q + 3 = (q + 2) + 1 from rfl, List.take_succ_cons, take_two_cons]

theorem take_four_cons (b c d e : Byte) (l : List Byte) (q : Nat) :
    (b :: c :: d :: e :: l).take (q + 4) = b :: c :: d :: e :: l.take q := by
  rw [show q + 4 = (q + 3) + 1 from rfl, List.take_succ_cons, take_three_cons]

/-- `valid_up_to` really is the longest valid prefix: the prefix of that
length is valid, and any valid prefix is at most that long. -/
theorem utf8Err_longest :
    ∀ (bytes : List Byte) (p : Nat), utf8Err bytes = some p →
      p ≤ bytes.length ∧ utf8Err (bytes.take p) = none ∧
      ∀ j, j ≤ bytes.length → utf8Err (bytes.take j) = none → j ≤ p := by
  have main : ∀ (n : Nat) (bytes : List Byte) (p : Nat), bytes.length < n →
      utf8Err bytes = some p →
      p ≤ bytes.length ∧ utf8Err (bytes.take p) = none ∧
      ∀ j, j ≤ bytes.length → utf8Err (bytes.take j) = none → j ≤ p := by
    intro n
    induction n with
    | zero => intro bytes p h; omega
    | succ n ih => ?_
    intro bytes p hlen herr
    cases bytes with
    | nil => simp [utf8Err] at herr
    | cons b rest =>
    simp only [List.length_cons] at hlen
    by_cases hb1 : b < 0x80
    · rw [utf8Err_ascii hb1] at herr
      cases hq : utf8Err rest with
      | none => rw [hq] at herr; simp at herr
      | some q =>
        rw [hq] at herr
        simp only [Option.map_some', Option.some.injEq] at herr
        subst herr
        obtain ⟨hih1, hih2, hih3⟩ := ih rest q (by omega) hq
        refine ⟨by simp; omega, ?_, ?_⟩
        · rw [List.take_succ_cons, utf8Err_ascii hb1, hih2]
          rfl
        · intro j hj hvj
          cases j with
          | zero => omega
          | succ j' =>
            rw [List.take_succ_cons, utf8Err_ascii hb1] at hvj
            cases hx : utf8Err (rest.take j') with
            | some x => rw [hx] at hvj; simp at hvj
            | none =>
              have := hih3 j' (by simp at hj; omega) hx
              omega
    · by_cases hb2 : b < 0xC2
      · rw [utf8Err_bad1 hb1 hb2] at herr
        simp only [Option.some.injEq] at herr
        subst herr
        refine ⟨by omega, by simp [utf8Err], ?_⟩
        intro j hj hvj
        cases j with
        | zero => omega
        | succ j' =>
          rw [List.take_succ_cons, utf8Err_bad1 hb1 hb2] at hvj
          simp at hvj
      · by_cases hb3 : b ≤ 0xDF
        · cases rest with
          | nil =>
            rw [utf8Err_two_nil hb1 hb2 hb3] at herr
            simp only [Option.some.injEq] at herr
            subst herr
            refine ⟨by omega, by simp [utf8Err], ?_⟩
            intro j hj hvj
            cases j with
            | zero => omega
            | succ j' =>
              have hj0 : j' = 0 := by simp at hj; omega
              subst hj0
              rw [List.take_succ_cons, List.take_nil,
                utf8Err_two_nil hb1 hb2 hb3] at hvj
              simp at hvj
          | cons c rest2 =>
            simp only [List.length_cons] at hlen
            by_cases hc : contIn 0x80 0xBF c = true
            · rw [utf8Err_two_good hb1 hb2 hb3 hc] at herr
              cases hq : utf8Err rest2 with
              | none => rw [hq] at herr; simp at herr
              | some q =>
                rw [hq] at herr
                simp only [Option.map_some', Option.some.injEq] at herr
                subst herr
                obtain ⟨hih1, hih2, hih3⟩ := ih rest2 q (by omega) hq
                refine ⟨by simp; omega, ?_, ?_⟩
                · rw [take_two_cons, utf8Err_two_good hb1 hb2 hb3 hc, hih2]
                  rfl
                · intro j hj hvj
                  cases j with
                  | zero => omega
                  | succ j' =>
                    cases j' with
                    | zero =>
                      rw [List.take_succ_cons, List.take_zero,
                        utf8Err_two_nil hb1 hb2 hb3] at hvj
                      simp at hvj
                    | succ j'' =>
                      rw [List.take_succ_cons, List.take_succ_cons,
                        utf8Err_two_good hb1 hb2 hb3 hc] at hvj
                      cases hx : utf8Err (rest2.take j'') with
                      | some x => rw [hx] at hvj; simp at hvj
                      | none =>
                        have := hih3 j'' (by simp at hj; omega) hx
                        omega
            · rw [utf8Err_two_badc hb1 hb2 hb3 hc] at herr
              simp only [Option.some.injEq] at herr
              subst herr
              refine ⟨by omega, by simp [utf8Err], ?_⟩
              intro j hj hvj
              cases j with
              | zero => omega
              | succ j' =>
                cases j' with
                | zero =>
                  rw [List.take_succ_cons, List.take_zero,
                    utf8Err_two_nil hb1 hb2 hb3] at hvj
                  simp at hvj
                | succ j'' =>
                  rw [List.take_succ_cons, List.take_succ_cons,
                    utf8Err_two_badc hb1 hb2 hb3 hc] at hvj
                  simp at hvj
        · by_cases hb4 : b ≤ 0xEF
          · cases rest with
            | nil =>
              rw [utf8Err_three_nil hb1 hb2 hb3 hb4] at herr
              simp only [Option.some.injEq] at herr
              subst herr
              refine ⟨by omega, by simp [utf8Err], ?_⟩
              intro j hj hvj
              cases j with
              | zero => omega
              | succ j' =>
                have hj0 : j' = 0 := by simp at hj; omega
                subst hj0
                rw [List.take_succ_cons, List.take_nil,
                  utf8Err_three_nil hb1 hb2 hb3 hb4] at hvj
                simp at hvj
            | cons c rest2 =>
              simp only [List.length_cons] at hlen
              by_cases hc : contIn (if b = 0xE0 then 0xA0 else 0x80)
                  (if b = 0xED then 0x9F else 0xBF) c = true
              · cases rest2 with
                | nil =>
                  rw [utf8Err_three_nil2 hb1 hb2 hb3 hb4 hc] at herr
                  simp only [Option.some.injEq] at herr
                  subst herr
                  refine ⟨by omega, by simp [utf8Err], ?_⟩
                  intro j hj hvj
                  cases j with
                  | zero => omega
                  | succ j' =>
                    cases j' with
                    | zero =>
                      rw [List.take_succ_cons, List.take_zero,
                        utf8Err_three_nil hb1 hb2 hb3 hb4] at hvj
                      simp at hvj
                    | succ j'' =>
                      have hj0 : j'' = 0 := by simp at hj; omega
                      subst hj0
                      rw [List.take_succ_cons, List.take_succ_cons, List.take_nil,
                        utf8Err_three_nil2 hb1 hb2 hb3 hb4 hc] at hvj
                      simp at hvj
                | cons d rest3 =>
                  simp only [List.length_cons] at hlen
                  by_cases hd : contIn 0x80 0xBF d = true
                  · rw [utf8Err_three_good hb1 hb2 hb3 hb4 hc hd] at herr
                    cases hq : utf8Err rest3 with
                    | none => rw [hq] at herr; simp at herr
                    | some q =>
                      rw [hq] at herr
                      simp only [Option.map_some', Option.some.injEq] at herr
                      subst herr
                      obtain ⟨hih1, hih2, hih3⟩ := ih rest3 q (by omega) hq
                      refine ⟨by simp; omega, ?_, ?_⟩
                      · rw [take_three_cons,
                          utf8Err_three_good hb1 hb2 hb3 hb4 hc hd, hih2]
                        rfl
                      · intro j hj hvj
                        cases j with
                        | zero => omega
                        | succ j' =>
                          cases j' with
                          | zero =>
                            rw [List.take_succ_cons, List.take_zero,
                              utf8Err_three_nil hb1 hb2 hb3 hb4] at hvj
                            simp at hvj
                          | succ j'' =>
                            cases j'' with
                            | zero =>
                              rw [List.take_succ_cons, List.take_succ_cons,
                                List.take_zero,
                                utf8Err_three_nil2 hb1 hb2 hb3 hb4 hc] at hvj
                              simp at hvj
                            | succ j3 =>
                              rw [List.take_succ_cons, List.take_succ_cons,
                                List.take_succ_cons,
                                utf8Err_three_good hb1 hb2 hb3 hb4 hc hd] at hvj
                              cases hx : utf8Err (rest3.take j3) with
                              | some x => rw [hx] at hvj; simp at hvj
                              | none =>
                                have := hih3 j3 (by simp at hj; omega) hx
                                omega
                  · rw [utf8Err_three_badd hb1 hb2 hb3 hb4 hc hd] at herr
                    simp only [Option.some.injEq] at herr
                    subst herr
                    refine ⟨by omega, by simp [utf8Err], ?_⟩
                    intro j hj hvj
                    cases j with
                    | zero => omega
                    | succ j' =>
                      cases j' with
                      | zero =>
                        rw [List.take_succ_cons, List.take_zero,
                          utf8Err_three_nil hb1 hb2 hb3 hb4] at hvj
                        simp at hvj
                      | succ j'' =>
                        cases j'' with
                        | zero =>
                          rw [List.take_succ_cons, List.take_succ_cons,
                            List.take_zero,
                            utf8Err_three_nil2 hb1 hb2 hb3 hb4 hc] at hvj
                          simp at hvj
                        | succ j3 =>
                          rw [List.take_succ_cons, List.take_succ_cons,
                            List.take_succ_cons,
                            utf8Err_three_badd hb1 hb2 hb3 hb4 hc hd] at hvj
                          simp at hvj
              · rw [utf8Err_three_badc hb1 hb2 hb3 hb4 hc] at herr
                simp only [Option.some.injEq] at herr
                subst herr
                refine ⟨by omega, by simp [utf8Err], ?_⟩
                intro j hj hvj
                cases j with
                | zero => omega
                | succ j' =>
                  cases j' with
                  | zero =>
                    rw [List.take_succ_cons, List.take_zero,
                      utf8Err_three_nil hb1 hb2 hb3 hb4] at hvj
                    simp at hvj
                  | succ j'' =>
                    rw [List.take_succ_cons, List.take_succ_cons,
                      utf8Err_three_badc hb1 hb2 hb3 hb4 hc] at hvj
                    simp at hvj
          · by_cases hb5 : b ≤ 0xF4
            · cases rest with
              | nil =>
                rw [utf8Err_four_nil hb1 hb2 hb3 hb4 hb5] at herr
                simp only [Option.some.injEq] at herr
                subst herr
                refine ⟨by omega, by simp [utf8Err], ?_⟩
                intro j hj hvj
                cases j with
                | zero => omega
                | succ j' =>
                  have hj0 : j' = 0 := by simp at hj; omega
                  subst hj0
                  rw [List.take_succ_cons, List.take_nil,
                    utf8Err_four_nil hb1 hb2 hb3 hb4 hb5] at hvj
                  simp at hvj
              | cons c rest2 =>
                simp only [List.length_cons] at hlen
                by_cases hc : contIn (if b = 0xF0 then 0x90 else 0x80)
                    (if b = 0xF4 then 0x8F else 0xBF) c = true
                · cases rest2 with
                  | nil =>
                    rw [utf8Err_four_nil2 hb1 hb2 hb3 hb4 hb5 hc] at herr
                    simp only [Option.some.injEq] at herr
                    subst herr
                    refine ⟨by omega, by simp [utf8Err], ?_⟩
                    intro j hj hvj
                    cases j with
                    | zero => omega
                    | succ j' =>
                      cases j' with
                      | zero =>
                        rw [List.take_succ_cons, List.take_zero,
                          utf8Err_four_nil hb1 hb2 hb3 hb4 hb5] at hvj
                        simp at hvj
                      | succ j'' =>
                        have hj0 : j'' = 0 := by simp at hj; omega
                        subst hj0
                        rw [List.take_succ_cons, List.take_succ_cons, List.take_nil,
                          utf8Err_four_nil2 hb1 hb2 hb3 hb4 hb5 hc] at hvj
                        simp at hvj
                  | cons d rest3 =>
                    simp only [List.length_cons] at hlen
                    by_cases hd : contIn 0x80 0xBF d = true
                    · cases rest3 with
                      | nil =>
                        rw [utf8Err_four_nil3 hb1 hb2 hb3 hb4 hb5 hc hd] at herr
                        simp only [Option.some.injEq] at herr
                        subst herr
                        refine ⟨by omega, by simp [utf8Err], ?_⟩
                        intro j hj hvj
                        cases j with
                        | zero => omega
                        | succ j' =>
                          cases j' with
                          | zero =>
                            rw [List.take_succ_cons, List.take_zero,
                              utf8Err_four_nil hb1 hb2 hb3 hb4 hb5] at hvj
                            simp at hvj
                          | succ j'' =>
                            cases j'' with
                            | zero =>
                              rw [List.take_succ_cons, List.take_succ_cons,
                                List.take_zero,
                                utf8Err_four_nil2 hb1 hb2 hb3 hb4 hb5 hc] at hvj
                              simp at hvj
                            | succ j3 =>
                              have hj0 : j3 = 0 := by simp at hj; omega
                              subst hj0
                              rw [List.take_succ_cons, List.take_succ_cons,
                                List.take_succ_cons, List.take_nil,
                                utf8Err_four_nil3 hb1 hb2 hb3 hb4 hb5 hc hd] at hvj
                              simp at hvj
                      | cons e rest4 =>
                        simp only [List.length_cons] at hlen
                        by_cases he : contIn 0x80 0xBF e = true
                        · rw [utf8Err_four_good hb1 hb2 hb3 hb4 hb5 hc hd he] at herr
                          cases hq : utf8Err rest4 with
                          | none => rw [hq] at herr; simp at herr
                          | some q =>
                            rw [hq] at herr
                            simp only [Option.map_some', Option.some.injEq] at herr
                            subst herr
                            obtain ⟨hih1, hih2, hih3⟩ := ih rest4 q (by omega) hq
                            refine ⟨by simp; omega, ?_, ?_⟩
                            · rw [take_four_cons,
                                utf8Err_four_good hb1 hb2 hb3 hb4 hb5 hc hd he, hih2]
                              rfl
                            · intro j hj hvj
                              cases j with
                              | zero => omega
                              | succ j' =>
                                cases j' with
                                | zero =>
                                  rw [List.take_succ_cons, List.take_zero,
                                    utf8Err_four_nil hb1 hb2 hb3 hb4 hb5] at hvj
                                  simp at hvj
                                | succ j'' =>
                                  cases j'' with
                                  | zero =>
                                    rw [List.take_succ_cons, List.take_succ_cons,
                                      List.take_zero,
                                      utf8Err_four_nil2 hb1 hb2 hb3 hb4 hb5 hc] at hvj
                                    simp at hvj
                                  | succ j3 =>
                                    cases j3 with
                                    | zero =>
                                      rw [List.take_succ_cons, List.take_succ_cons,
                                        List.take_succ_cons, List.take_zero,
                                        utf8Err_four_nil3 hb1 hb2 hb3 hb4 hb5 hc
                                          hd] at hvj
                                      simp at hvj
                                    | succ j4 =>
                                      rw [List.take_succ_cons, List.take_succ_cons,
                                        List.take_succ_cons, List.take_succ_cons,
                                        utf8Err_four_good hb1 hb2 hb3 hb4 hb5 hc hd
                                          he] at hvj
                                      cases hx : utf8Err (rest4.take j4) with
                                      | some x => rw [hx] at hvj; simp at hvj
                                      | none =>
                                        have := hih3 j4 (by simp at hj; omega) hx
                                        omega
                        · rw [utf8Err_four_bade hb1 hb2 hb3 hb4 hb5 hc hd he] at herr
                          simp only [Option.some.injEq] at herr
                          subst herr
                          refine ⟨by omega, by simp [utf8Err], ?_⟩
                          intro j hj hvj
                          cases j with
                          | zero => omega
                          | succ j' =>
                            cases j' with
                            | zero =>
                              rw [List.take_succ_cons, List.take_zero,
                                utf8Err_four_nil hb1 hb2 hb3 hb4 hb5] at hvj
                              simp at hvj
                            | succ j'' =>
                              cases j'' with
                              | zero =>
                                rw [List.take_succ_cons, List.take_succ_cons,
                                  List.take_zero,
                                  utf8Err_four_nil2 hb1 hb2 hb3 hb4 hb5 hc] at hvj
                                simp at hvj
                              | succ j3 =>
                                cases j3 with
                                | zero =>
                                  rw [List.take_succ_cons, List.take_succ_cons,
                                    List.take_succ_cons, List.take_zero,
                                    utf8Err_four_nil3 hb1 hb2 hb3 hb4 hb5 hc hd] at hvj
                                  simp at hvj
                                | succ j4 =>
                                  rw [List.take_succ_cons, List.take_succ_cons,
                                    List.take_succ_cons, List.take_succ_cons,
                                    utf8Err_four_bade hb1 hb2 hb3 hb4 hb5 hc hd
                                      he] at hvj
                                  simp at hvj
                    · rw [utf8Err_four_badd hb1 hb2 hb3 hb4 hb5 hc hd] at herr
                      simp only [Option.some.injEq] at herr
                      subst herr
                      refine ⟨by omega, by simp [utf8Err], ?_⟩
                      intro j hj hvj
                      cases j with
                      | zero => omega
                      | succ j' =>
                        cases j' with
                        | zero =>
                          rw [List.take_succ_cons, List.take_zero,
                            utf8Err_four_nil hb1 hb2 hb3 hb4 hb5] at hvj
                          simp at hvj
                        | succ j'' =>
                          cases j'' with
                          | zero =>
                            rw [List.take_succ_cons, List.take_succ_cons,
                              List.take_zero,
                              utf8Err_four_nil2 hb1 hb2 hb3 hb4 hb5 hc] at hvj
                            simp at hvj
                          | succ j3 =>
                            rw [List.take_succ_cons, List.take_succ_cons,
                              List.take_succ_cons,
                              utf8Err_four_badd hb1 hb2 hb3 hb4 hb5 hc hd] at hvj
                            simp at hvj
                · rw [utf8Err_four_badc hb1 hb2 hb3 hb4 hb5 hc] at herr
                  simp only [Option.some.injEq] at herr
                  subst herr
                  refine ⟨by omega, by simp [utf8Err], ?_⟩
                  intro j hj hvj
                  cases j with
                  | zero => omega
                  | succ j' =>
                    cases j' with
                    | zero =>
                      rw [List.take_succ_cons, List.take_zero,
                        utf8Err_four_nil hb1 hb2 hb3 hb4 hb5] at hvj
                      simp at hvj
                    | succ j'' =>
                      rw [List.take_succ_cons, List.take_succ_cons,
                        utf8Err_four_badc hb1 hb2 hb3 hb4 hb5 hc] at hvj
                      simp at hvj
            · rw [utf8Err_big hb1 hb2 hb3 hb4 hb5] at herr
              simp only [Option.some.injEq] at herr
              subst herr
              refine ⟨by omega, by simp [utf8Err], ?_⟩
              intro j hj hvj
              cases j with
              | zero => omega
              | succ j' =>
                rw [List.take_succ_cons, utf8Err_big hb1 hb2 hb3 hb4 hb5] at hvj
                simp at hvj
  intro bytes p herr
  exact main (bytes.length + 1) bytes p (by omega) herr

/-! ## The UTF-8 stitching stream (`src/utf8_stream.rs`) -/

/-- `errors.rs`: `Utf8StreamError`.  The `Utf8Error` case carries the
`valid_up_to` position of the Rust `Utf8Error`. -/
inductive Utf8StreamError (E : Type) where
  | Transport (e : E)
  | Utf8Error (p : Nat)
deriving DecidableEq

/-- `utf8_stream.rs`: `Utf8StreamState` — `Active` holds the upstream items
not yet delivered and the carried-over bytes. -/
inductive Utf8StreamState (E : Type) where
  | Active (stream : List (Except E (List Byte))) (buffer : List Byte)
  | Terminated

/-- `utf8_stream.rs`: `Utf8Stream::poll_next`, as a state transition.  The
emitted `Str` values are modelled by their backing byte lists. -/
def Utf8Stream.poll_next {E : Type} :
    Utf8StreamState E → Option (Except (Utf8StreamError E) (List Byte)) × Utf8StreamState E
  | .Terminated => (none, .Terminated)
  | .Active stream buffer0 =>
    match stream with
    | [] =>
      if buffer0.isEmpty then (none, .Terminated)
      else
        match utf8Err buffer0 with
        | none => (some (.ok buffer0), .Terminated)
        | some p => (some (.error (.Utf8Error p)), .Terminated)
    | .error e :: rest => (some (.error (.Transport e)), .Active rest buffer0)
    | .ok bytes :: rest =>
      match utf8Err (buffer0 ++ bytes) with
      | none => (some (.ok (buffer0 ++ bytes)), .Active rest [])
      | some valid_to =>
        (some (.ok ((buffer0 ++ bytes).take valid_to)),
         .Active rest ((buffer0 ++ bytes).drop valid_to))

/-- C10: `Utf8Stream` defers invalid bytes to EOF.  Polling an Ok chunk always
yields exactly one `Ready(Ok s)` where `s` is the longest valid-UTF-8 prefix
of leftover-plus-chunk (possibly empty) and the remaining bytes stay
buffered; a `Utf8Error` appears only on the poll that observes EOF with a
non-empty leftover, and an EOF poll with an empty leftover just ends the
stream. -/
theorem C10_utf8_stream_defers_invalid {E : Type}
    (leftover chunk : List Byte) (rest : List (Except E (List Byte))) :
    (∃ k,
      Utf8Stream.poll_next (.Active (.ok chunk :: rest) leftover) =
        (some (.ok ((leftover ++ chunk).take k)),
         .Active rest ((leftover ++ chunk).drop k)) ∧
      isValidUtf8 ((leftover ++ chunk).take k) = true ∧
      ∀ j, j ≤ (leftover ++ chunk).length →
        isValidUtf8 ((leftover ++ chunk).take j) = true → j ≤ k) ∧
    (∀ p, utf8Err leftover = some p →
      Utf8Stream.poll_next (.Active ([] : List (Except E (List Byte))) leftover) =
        (some (.error (.Utf8Error p)), .Terminated)) ∧
    (leftover = [] →
      Utf8Stream.poll_next (.Active ([] : List (Except E (List Byte))) leftover) =
        (none, .Terminated)) := by
  refine ⟨?_, ?_, ?_⟩
  · cases hu : utf8Err (leftover ++ chunk) with
    | none =>
      refine ⟨(leftover ++ chunk).length, ?_, ?_, ?_⟩
      · simp [Utf8Stream.poll_next, hu]
      · unfold isValidUtf8
        rw [List.take_length, hu]
        rfl
      · intro j hj _
        exact hj
    | some p =>
      obtain ⟨h1, h2, h3⟩ := utf8Err_longest (leftover ++ chunk) p hu
      refine ⟨p, ?_, ?_, ?_⟩
      · simp [Utf8Stream.poll_next, hu]
      · simp [isValidUtf8, h2]
      · intro j hj hv
        refine h3 j hj ?_
        simpa [isValidUtf8, Option.isNone_iff_eq_none] using hv
  · intro p hp
    have hne : ¬leftover.isEmpty = true := by
      cases leftover with
      | nil => simp [utf8Err] at hp
      | cons x xs => simp
    simp [Utf8Stream.poll_next, hne, hp]
  · intro h
    subst h
    simp [Utf8Stream.poll_next]

/-- Witness for C10: a split emoji produces `Ok ""` with bytes buffered, and
the truncated pair errors only at the EOF poll. -/
theorem C10_utf8_stream_defers_invalid_witness :
    utf8Err [240, 159] = some 0 ∧
    Utf8Stream.poll_next (.Active ([] : List (Except Unit (List Byte))) [240, 159]) =
      (some (.error (.Utf8Error 0)), .Terminated) ∧
    Utf8Stream.poll_next (.Active ([] : List (Except Unit (List Byte))) []) =
      (none, .Terminated) :=
  ⟨rfl,
    (C10_utf8_stream_defers_invalid (E := Unit) [240, 159] [] []).2.1 0 rfl,
    (C10_utf8_stream_defers_invalid (E := Unit) [] [] []).2.2 rfl⟩

/-! ## The Bytes-specialised adapter (`src/event_stream/bytes.rs`) -/

/-- `bytes.rs`: `parse_event_bytes`.  Its loop is the loop of `parse_event`
run over `parse_line_from_bytes`, and `parse_line_from_bytes` coincides with
`parse_line_from_buffer`, so the function coincides with `parse_event`. -/
def parse_event_bytes (bytes : List Byte) (builder : EventBuilder) : ParseEventResult :=
  parse_event bytes builder

/-- `bytes.rs`: the `EventStreamBytes` adapter, with the upstream stream
materialised as its pending item list. -/
structure EventStreamBytes (E : Type) where
  stream : List (Except E (List Byte))
  buffer : List Byte
  remainder : List Byte
  builder : EventBuilder
  state : EventStreamState
  last_event_id : List Byte

/-- `bytes.rs`: `EventStreamBytes::new`. -/
def EventStreamBytes.new {E : Type} (stream : List (Except E (List Byte))) :
    EventStreamBytes E :=
  { stream := stream
    buffer := []
    remainder := []
    builder := EventBuilder.default
    state := .NotStarted
    last_event_id := [] }

/-- `bytes.rs`: the `try_parse_remainder!` macro: drain one outcome from the
remainder, updating `last_event_id` when an event is produced; on a quiet end
the leftover moves into the buffer (the macro's emptiness test before the
move only skips appending an empty list, so the move is rendered as an
unconditional append). -/
def try_parse_remainder {E : Type} (s : EventStreamBytes E) :
    Option (Except (EventStreamError E) Event) × EventStreamBytes E :=
  if s.remainder.isEmpty then (none, s)
  else
    match parse_event_bytes s.remainder s.builder with
    | (.ok (some event), rem, bl) =>
      (some (.ok event),
       { s with remainder := rem, builder := bl, last_event_id := event.id })
    | (.ok none, rem, bl) =>
      (none, { s with buffer := s.buffer ++ rem, remainder := [], builder := bl })
    | (.error e, rem, bl) =>
      (some (.error (.Utf8Error e)), { s with remainder := rem, builder := bl })

/-- The `try_parse_event_buffer!` macro instantiated at the Bytes adapter. -/
def try_parse_event_buffer_bytes {E : Type} (s : EventStreamBytes E) :
    Option (Except (EventStreamError E) Event) × EventStreamBytes E :=
  match parse_event s.buffer s.builder with
  | (.ok (some event), b, bl) =>
    (some (.ok event),
     { s with buffer := b, builder := bl,
              state := if s.state = .NotStarted then .Started else s.state,
              last_event_id := event.id })
  | (.error e, b, bl) =>
    (some (.error (.Utf8Error e)), { s with buffer := b, builder := bl })
  | (.ok none, b, bl) => (none, { s with buffer := b, builder := bl })

/-- The chunk-pulling loop of `bytes.rs`: `EventStreamBytes::poll_next`,
rendered with the conventions of `poll_loop`.  An empty buffer and remainder
select the zero-copy path, which parses straight out of the arriving chunk
(after the BOM classification when not yet started); otherwise any remainder
and the chunk are appended to the buffer, which is then drained. -/
def poll_loop_bytes {E : Type} : List (Except E (List Byte)) → List Byte → List Byte →
    EventBuilder → EventStreamState → List Byte →
    Option (Except (EventStreamError E) Event) × EventStreamBytes E
  | [], buffer, remainder, builder, _, lid =>
    try_parse_event_buffer_bytes
      ⟨[], if (buffer ++ remainder).getLast? = some CR then (buffer ++ remainder) ++ [LF]
        else buffer ++ remainder, [], builder, .Terminated, lid⟩
  | .error e :: rest, buffer, remainder, builder, state, lid =>
    (some (.error (.Transport e)), ⟨rest, buffer, remainder, builder, state, lid⟩)
  | .ok chunk :: rest, buffer, remainder, builder, state, lid =>
    if chunk.isEmpty then poll_loop_bytes rest buffer remainder builder state lid
    else if buffer.isEmpty ∧ remainder.isEmpty then
      if state = .NotStarted ∧ starts_with_bom chunk = none then
        poll_loop_bytes rest (buffer ++ chunk) remainder builder .NotStarted lid
      else
        let rem2 := if state = .NotStarted ∧ starts_with_bom chunk = some true
          then chunk.drop BOM.length else chunk
        let state2 := if state = .NotStarted then EventStreamState.Started else state
        let t := try_parse_remainder
          (⟨rest, buffer, rem2, builder, state2, lid⟩ : EventStreamBytes E)
        if t.1.isSome then t
        else poll_loop_bytes rest t.2.buffer t.2.remainder t.2.builder t.2.state
          t.2.last_event_id
    else
      if state = .NotStarted ∧ starts_with_bom (buffer ++ remainder ++ chunk) = none then
        poll_loop_bytes rest (buffer ++ remainder ++ chunk) [] builder .NotStarted lid
      else
        let buffer3 := if state = .NotStarted ∧
            starts_with_bom (buffer ++ remainder ++ chunk) = some true
          then (buffer ++ remainder ++ chunk).drop BOM.length
          else buffer ++ remainder ++ chunk
        let state2 := if state = .NotStarted then EventStreamState.Started else state
        let t := try_parse_event_buffer_bytes
          (⟨rest, buffer3, [], builder, state2, lid⟩ : EventStreamBytes E)
        if t.1.isSome then t
        else poll_loop_bytes rest t.2.buffer t.2.remainder t.2.builder t.2.state
          t.2.last_event_id

/-- `bytes.rs`: `EventStreamBytes::poll_next`. -/
def EventStreamBytes.poll_next {E : Type} (s : EventStreamBytes E) :
    Option (Except (EventStreamError E) Event) × EventStreamBytes E :=
  let r := try_parse_remainder s
  if r.1.isSome then r
  else
    let t := try_parse_event_buffer_bytes r.2
    if t.1.isSome then t
    else if t.2.state = .Terminated then (none, t.2)
    else poll_loop_bytes t.2.stream t.2.buffer t.2.remainder t.2.builder t.2.state
      t.2.last_event_id

/-- View a Bytes-adapter state as the generic state it simulates: the logical
buffer is the buffer followed by the remainder. -/
def toGeneric {E : Type} (s : EventStreamBytes E) : EventStream E :=
  ⟨s.stream, s.buffer ++ s.remainder, s.builder, s.state, s.last_event_id⟩

/-- Invariant of reachable Bytes-adapter states: a pending remainder implies
an empty buffer and a started stream. -/
def invB {E : Type} (s : EventStreamBytes E) : Prop :=
  s.remainder ≠ [] → s.buffer = [] ∧ s.state ≠ .NotStarted

theorem tpr_empty {E : Type} {s : EventStreamBytes E} (h : s.remainder.isEmpty) :
    try_parse_remainder s = (none, s) := by
  unfold try_parse_remainder
  rw [if_pos h]

theorem tpr_some {E : Type} {s : EventStreamBytes E} {ev : Event} {rem : List Byte}
    {bl : EventBuilder} (hne : ¬s.remainder.isEmpty = true)
    (hp : parse_event_bytes s.remainder s.builder = (.ok (some ev), rem, bl)) :
    try_parse_remainder s =
      (some (.ok ev),
       { s with remainder := rem, builder := bl, last_event_id := ev.id }) := by
  unfold try_parse_remainder
  rw [if_neg hne, hp]

theorem tpr_none {E : Type} {s : EventStreamBytes E} {rem : List Byte}
    {bl : EventBuilder} (hne : ¬s.remainder.isEmpty = true)
    (hp : parse_event_bytes s.remainder s.builder = (.ok none, rem, bl)) :
    try_parse_remainder s =
      (none, { s with buffer := s.buffer ++ rem, remainder := [], builder := bl }) := by
  unfold try_parse_remainder
  rw [if_neg hne, hp]

theorem tpr_err {E : Type} {s : EventStreamBytes E} {e : Nat} {rem : List Byte}
    {bl : EventBuilder} (hne : ¬s.remainder.isEmpty = true)
    (hp : parse_event_bytes s.remainder s.builder = (.error e, rem, bl)) :
    try_parse_remainder s =
      (some (.error (.Utf8Error e)), { s with remainder := rem, builder := bl }) := by
  unfold try_parse_remainder
  rw [if_neg hne, hp]

theorem tpbB_some {E : Type} {s : EventStreamBytes E} {ev : Event} {b : List Byte}
    {bl : EventBuilder} (hp : parse_event s.buffer s.builder = (.ok (some ev), b, bl)) :
    try_parse_event_buffer_bytes s =
      (some (.ok ev),
       { s with buffer := b, builder := bl,
                state := if s.state = .NotStarted then .Started else s.state,
                last_event_id := ev.id }) := by
  unfold try_parse_event_buffer_bytes
  rw [hp]

theorem tpbB_err {E : Type} {s : EventStreamBytes E} {e : Nat} {b : List Byte}
    {bl : EventBuilder} (hp : parse_event s.buffer s.builder = (.error e, b, bl)) :
    try_parse_event_buffer_bytes s =
      (some (.error (.Utf8Error e)), { s with buffer := b, builder := bl }) := by
  unfold try_parse_event_buffer_bytes
  rw [hp]

theorem tpbB_none {E : Type} {s : EventStreamBytes E} {b : List Byte}
    {bl : EventBuilder} (hp : parse_event s.buffer s.builder = (.ok none, b, bl)) :
    try_parse_event_buffer_bytes s = (none, { s with buffer := b, builder := bl }) := by
  unfold try_parse_event_buffer_bytes
  rw [hp]

theorem plb_nil {E : Type} (buffer remainder : List Byte) (builder : EventBuilder)
    (st : EventStreamState) (lid : List Byte) :
    poll_loop_bytes ([] : List (Except E (List Byte))) buffer remainder builder st lid =
      try_parse_event_buffer_bytes
        ⟨[], crFix (buffer ++ remainder), [], builder, .Terminated, lid⟩ := rfl

theorem plb_err {E : Type} (e : E) (rest : List (Except E (List Byte)))
    (buffer remainder : List Byte) (builder : EventBuilder) (st : EventStreamState)
    (lid : List Byte) :
    poll_loop_bytes (.error e :: rest) buffer remainder builder st lid =
      (some (.error (.Transport e)), ⟨rest, buffer, remainder, builder, st, lid⟩) := rfl

theorem plb_empty_chunk {E : Type} {chunk : List Byte} (hch : chunk.isEmpty)
    (rest : List (Except E (List Byte))) (buffer remainder : List Byte)
    (builder : EventBuilder) (st : EventStreamState) (lid : List Byte) :
    poll_loop_bytes (.ok chunk :: rest) buffer remainder builder st lid =
      poll_loop_bytes rest buffer remainder builder st lid := by
  simp only [poll_loop_bytes, if_pos hch]

theorem plb_fast_wait {E : Type} {chunk buffer remainder : List Byte}
    {st : EventStreamState} (hch : ¬chunk.isEmpty = true)
    (hfast : buffer.isEmpty = true ∧ remainder.isEmpty = true)
    (hcont : st = .NotStarted ∧ starts_with_bom chunk = none)
    (rest : List (Except E (List Byte))) (builder : EventBuilder) (lid : List Byte) :
    poll_loop_bytes (.ok chunk :: rest) buffer remainder builder st lid =
      poll_loop_bytes rest (buffer ++ chunk) remainder builder .NotStarted lid := by
  simp only [poll_loop_bytes, if_neg hch, if_pos hfast, if_pos hcont]

theorem plb_fast_go {E : Type} {chunk buffer remainder : List Byte}
    {st : EventStreamState} {R2 : List Byte} {S2 : EventStreamState}
    (hch : ¬chunk.isEmpty = true)
    (hfast : buffer.isEmpty = true ∧ remainder.isEmpty = true)
    (hnc : ¬(st = .NotStarted ∧ starts_with_bom chunk = none))
    (hR2 : (if st = .NotStarted ∧ starts_with_bom chunk = some true
      then chunk.drop BOM.length else chunk) = R2)
    (hS2 : (if st = .NotStarted then EventStreamState.Started else st) = S2)
    (rest : List (Except E (List Byte))) (builder : EventBuilder) (lid : List Byte) :
    poll_loop_bytes (.ok chunk :: rest) buffer remainder builder st lid =
      if (try_parse_remainder
          (⟨rest, buffer, R2, builder, S2, lid⟩ : EventStreamBytes E)).1.isSome
      then try_parse_remainder (⟨rest, buffer, R2, builder, S2, lid⟩ : EventStreamBytes E)
      else poll_loop_bytes rest
        (try_parse_remainder
          (⟨rest, buffer, R2, builder, S2, lid⟩ : EventStreamBytes E)).2.buffer
        (try_parse_remainder
          (⟨rest, buffer, R2, builder, S2, lid⟩ : EventStreamBytes E)).2.remainder
        (try_parse_remainder
          (⟨rest, buffer, R2, builder, S2, lid⟩ : EventStreamBytes E)).2.builder
        (try_parse_remainder
          (⟨rest, buffer, R2, builder, S2, lid⟩ : EventStreamBytes E)).2.state
        (try_parse_remainder
          (⟨rest, buffer, R2, builder, S2, lid⟩ : EventStreamBytes E)).2.last_event_id
      := by
  simp only [poll_loop_bytes, if_neg hch, if_pos hfast, if_neg hnc, hR2, hS2]

theorem plb_slow_wait {E : Type} {chunk buffer remainder : List Byte}
    {st : EventStreamState} (hch : ¬chunk.isEmpty = true)
    (hslow : ¬(buffer.isEmpty = true ∧ remainder.isEmpty = true))
    (hcont : st = .NotStarted ∧ starts_with_bom (buffer ++ remainder ++ chunk) = none)
    (rest : List (Except E (List Byte))) (builder : EventBuilder) (lid : List Byte) :
    poll_loop_bytes (.ok chunk :: rest) buffer remainder builder st lid =
      poll_loop_bytes rest (buffer ++ remainder ++ chunk) [] builder .NotStarted lid := by
  simp only [poll_loop_bytes, if_neg hch, if_neg hslow, if_pos hcont]

theorem plb_slow_go {E : Type} {chunk buffer remainder : List Byte}
    {st : EventStreamState} {B3 : List Byte} {S2 : EventStreamState}
    (hch : ¬chunk.isEmpty = true)
    (hslow : ¬(buffer.isEmpty = true ∧ remainder.isEmpty = true))
    (hnc : ¬(st = .NotStarted ∧ starts_with_bom (buffer ++ remainder ++ chunk) = none))
    (hB3 : (if st = .NotStarted ∧ starts_with_bom (buffer ++ remainder ++ chunk) = some true
      then (buffer ++ remainder ++ chunk).drop BOM.length
      else buffer ++ remainder ++ chunk) = B3)
    (hS2 : (if st = .NotStarted then EventStreamState.Started else st) = S2)
    (rest : List (Except E (List Byte))) (builder : EventBuilder) (lid : List Byte) :
    poll_loop_bytes (.ok chunk :: rest) buffer remainder builder st lid =
      if (try_parse_event_buffer_bytes
          (⟨rest, B3, [], builder, S2, lid⟩ : EventStreamBytes E)).1.isSome
      then try_parse_event_buffer_bytes
        (⟨rest, B3, [], builder, S2, lid⟩ : EventStreamBytes E)
      else poll_loop_bytes rest
        (try_parse_event_buffer_bytes
          (⟨rest, B3, [], builder, S2, lid⟩ : EventStreamBytes E)).2.buffer
        (try_parse_event_buffer_bytes
          (⟨rest, B3, [], builder, S2, lid⟩ : EventStreamBytes E)).2.remainder
        (try_parse_event_buffer_bytes
          (⟨rest, B3, [], builder, S2, lid⟩ : EventStreamBytes E)).2.builder
        (try_parse_event_buffer_bytes
          (⟨rest, B3, [], builder, S2, lid⟩ : EventStreamBytes E)).2.state
        (try_parse_event_buffer_bytes
          (⟨rest, B3, [], builder, S2, lid⟩ : EventStreamBytes E)).2.last_event_id
      := by
  simp only [poll_loop_bytes, if_neg hch, if_neg hslow, if_neg hnc, hB3, hS2]

/-- One buffer drain of the Bytes adapter simulates one drain of the generic
adapter when no remainder is pending. -/
theorem tpbB_correspond {E : Type} (s : EventStreamBytes E) (hrem : s.remainder = []) :
    (try_parse_event_buffer_bytes s).1 = (try_parse_event_buffer (toGeneric s)).1 ∧
    toGeneric (try_parse_event_buffer_bytes s).2 = (try_parse_event_buffer (toGeneric s)).2 ∧
    (try_parse_event_buffer_bytes s).2.remainder = [] := by
  have hbuf : (toGeneric s).buffer = s.buffer := by simp [toGeneric, hrem]
  cases hp : parse_event s.buffer s.builder with
  | mk pr q =>
    obtain ⟨b, bl⟩ := q
    have hpg : parse_event (toGeneric s).buffer (toGeneric s).builder = (pr, b, bl) := by
      rw [hbuf]
      exact hp
    cases pr with
    | error e =>
      rw [tpbB_err hp, tpb_err (s := toGeneric s) hpg]
      refine ⟨rfl, ?_, hrem⟩
      simp [toGeneric, hrem]
    | ok o =>
      cases o with
      | some ev =>
        rw [tpbB_some hp, tpb_some_ok (s := toGeneric s) hpg]
        refine ⟨rfl, ?_, hrem⟩
        simp [toGeneric, hrem]
      | none =>
        rw [tpbB_none hp, tpb_none (s := toGeneric s) hpg]
        refine ⟨rfl, ?_, hrem⟩
        simp [toGeneric, hrem]

/-- The chunk loop of the Bytes adapter simulates the generic chunk loop:
same emitted outcome, simulating successor, and the remainder invariant. -/
theorem poll_loop_bytes_correspond {E : Type} :
    ∀ (stream : List (Except E (List Byte))) (buffer : List Byte)
      (builder : EventBuilder) (st : EventStreamState) (lid : List Byte),
      (poll_loop_bytes stream buffer [] builder st lid).1 =
        (poll_loop stream buffer builder st lid).1 ∧
      toGeneric (poll_loop_bytes stream buffer [] builder st lid).2 =
        (poll_loop stream buffer builder st lid).2 ∧
      invB (poll_loop_bytes stream buffer [] builder st lid).2 := by
  intro stream
  induction stream with
  | nil =>
    intro buffer builder st lid
    rw [plb_nil, poll_loop_nil]
    rw [show buffer ++ ([] : List Byte) = buffer from List.append_nil buffer]
    obtain ⟨h1, h2, h3⟩ := tpbB_correspond
      (⟨[], crFix buffer, [], builder, .Terminated, lid⟩ : EventStreamBytes E) rfl
    have hg : toGeneric (⟨[], crFix buffer, [], builder, .Terminated, lid⟩ :
        EventStreamBytes E) =
        (⟨[], crFix buffer, builder, .Terminated, lid⟩ : EventStream E) := by
      simp [toGeneric]
    rw [hg] at h1 h2
    exact ⟨h1, h2, fun hr => absurd h3 hr⟩
  | cons item rest ih =>
    intro buffer builder st lid
    cases item with
    | error e =>
      rw [plb_err, poll_loop_err_item]
      exact ⟨rfl, by simp [toGeneric], fun hr => absurd rfl hr⟩
    | ok chunk =>
      by_cases hch : chunk.isEmpty
      · rw [plb_empty_chunk hch, poll_loop_empty_chunk hch]
        exact ih buffer builder st lid
      · by_cases hbe : buffer.isEmpty
        · have hbnil : buffer = [] := by simpa using hbe
          subst hbnil
          have hfast : (([] : List Byte)).isEmpty = true ∧
              (([] : List Byte)).isEmpty = true := ⟨rfl, rfl⟩
          by_cases hcont : st = .NotStarted ∧ starts_with_bom chunk = none
          · have hcontg : st = .NotStarted ∧
                starts_with_bom (([] : List Byte) ++ chunk) = none := hcont
            rw [plb_fast_wait hch hfast hcont rest builder lid,
              poll_loop_bom_wait hch hcontg rest builder lid]
            exact ih (([] : List Byte) ++ chunk) builder .NotStarted lid
          · obtain ⟨R2, hR2⟩ : ∃ R2, (if st = .NotStarted ∧
                starts_with_bom chunk = some true
                then chunk.drop BOM.length else chunk) = R2 := ⟨_, rfl⟩
            obtain ⟨S2, hS2⟩ : ∃ S2, (if st = .NotStarted
                then EventStreamState.Started else st) = S2 := ⟨_, rfl⟩
            have hS2ne : S2 ≠ EventStreamState.NotStarted := by
              rw [← hS2]
              by_cases h : st = .NotStarted
              · simp [h]
              · simp [h]
            have hncg : ¬(st = .NotStarted ∧
                starts_with_bom (([] : List Byte) ++ chunk) = none) := hcont
            have hR2g : (if st = .NotStarted ∧
                starts_with_bom (([] : List Byte) ++ chunk) = some true
                then (([] : List Byte) ++ chunk).drop BOM.length
                else ([] : List Byte) ++ chunk) = R2 := hR2
            rw [plb_fast_go hch hfast hcont hR2 hS2 rest builder lid,
              poll_loop_chunk_go hch hncg hR2g hS2 rest builder lid]
            by_cases hR2e : R2.isEmpty
            · have hR2nil : R2 = [] := by simpa using hR2e
              have htpr := tpr_empty
                (s := (⟨rest, [], R2, builder, S2, lid⟩ : EventStreamBytes E)) hR2e
              have hpe : parse_event R2 builder = (.ok none, R2, builder) := by
                rw [hR2nil]
                rfl
              have htpb := tpb_none
                (s := (⟨rest, R2, builder, S2, lid⟩ : EventStream E)) hpe
              rw [htpr, htpb]
              simp only [Option.isSome_none, Bool.false_eq_true, if_false]
              rw [hR2nil]
              exact ih [] builder S2 lid
            · cases hp : parse_event R2 builder with
              | mk pr q =>
                obtain ⟨rem1, bl1⟩ := q
                have hpb : parse_event_bytes
                    (⟨rest, ([] : List Byte), R2, builder, S2, lid⟩ :
                      EventStreamBytes E).remainder
                    (⟨rest, ([] : List Byte), R2, builder, S2, lid⟩ :
                      EventStreamBytes E).builder = (pr, rem1, bl1) := hp
                cases pr with
                | error e =>
                  rw [tpr_err hR2e hpb, tpb_err
                    (s := (⟨rest, R2, builder, S2, lid⟩ : EventStream E)) hp]
                  refine ⟨?_, ?_, ?_⟩
                  · simp
                  · simp [toGeneric]
                  · simp only [Option.isSome_some, if_true]
                    intro hr
                    exact ⟨rfl, hS2ne⟩
                | ok o =>
                  cases o with
                  | some ev =>
                    rw [tpr_some hR2e hpb, tpb_some_ok
                      (s := (⟨rest, R2, builder, S2, lid⟩ : EventStream E)) hp]
                    refine ⟨?_, ?_, ?_⟩
                    · simp
                    · simp [toGeneric, hS2ne]
                    · simp only [Option.isSome_some, if_true]
                      intro hr
                      exact ⟨rfl, hS2ne⟩
                  | none =>
                    rw [tpr_none hR2e hpb, tpb_none
                      (s := (⟨rest, R2, builder, S2, lid⟩ : EventStream E)) hp]
                    simp only [Option.isSome_none, Bool.false_eq_true, if_false]
                    exact ih rem1 bl1 S2 lid
        · have hslow : ¬(buffer.isEmpty = true ∧ ([] : List Byte).isEmpty = true) := by
            simp [hbe]
          have hae : buffer ++ ([] : List Byte) ++ chunk = buffer ++ chunk := by simp
          by_cases hcont : st = .NotStarted ∧ starts_with_bom (buffer ++ chunk) = none
          · have hcontb : st = .NotStarted ∧
                starts_with_bom (buffer ++ ([] : List Byte) ++ chunk) = none := by
              rw [hae]
              exact hcont
            rw [plb_slow_wait hch hslow hcontb rest builder lid,
              poll_loop_bom_wait hch hcont rest builder lid, hae]
            exact ih (buffer ++ chunk) builder .NotStarted lid
          · obtain ⟨B3, hB3⟩ : ∃ B3, (if st = .NotStarted ∧
                starts_with_bom (buffer ++ chunk) = some true
                then (buffer ++ chunk).drop BOM.length else buffer ++ chunk) = B3 :=
              ⟨_, rfl⟩
            obtain ⟨S2, hS2⟩ : ∃ S2, (if st = .NotStarted
                then EventStreamState.Started else st) = S2 := ⟨_, rfl⟩
            have hncb : ¬(st = .NotStarted ∧
                starts_with_bom (buffer ++ ([] : List Byte) ++ chunk) = none) := by
              rw [hae]
              exact hcont
            have hB3b : (if st = .NotStarted ∧
                starts_with_bom (buffer ++ ([] : List Byte) ++ chunk) = some true
                then (buffer ++ ([] : List Byte) ++ chunk).drop BOM.length
                else buffer ++ ([] : List Byte) ++ chunk) = B3 := by
              rw [hae]
              exact hB3
            rw [plb_slow_go hch hslow hncb hB3b hS2 rest builder lid,
              poll_loop_chunk_go hch hcont hB3 hS2 rest builder lid]
            obtain ⟨h1, h2, h3⟩ := tpbB_correspond
              (⟨rest, B3, [], builder, S2, lid⟩ : EventStreamBytes E) rfl
            have hg : toGeneric (⟨rest, B3, [], builder, S2, lid⟩ :
                EventStreamBytes E) = (⟨rest, B3, builder, S2, lid⟩ : EventStream E) := by
              simp [toGeneric]
            rw [hg] at h1 h2
            by_cases hx : (try_parse_event_buffer
                (⟨rest, B3, builder, S2, lid⟩ : EventStream E)).1.isSome
            · have hx' : (try_parse_event_buffer_bytes
                  (⟨rest, B3, [], builder, S2, lid⟩ : EventStreamBytes E)).1.isSome := by
                rw [h1]
                exact hx
              rw [if_pos hx', if_pos hx]
              exact ⟨h1, h2, fun hr => absurd h3 hr⟩
            · have hx' : ¬(try_parse_event_buffer_bytes
                  (⟨rest, B3, [], builder, S2, lid⟩ :
                    EventStreamBytes E)).1.isSome = true := by
                rw [h1]
                exact hx
              rw [if_neg hx', if_neg hx]
              have hb2 : (try_parse_event_buffer_bytes
                  (⟨rest, B3, [], builder, S2, lid⟩ : EventStreamBytes E)).2.buffer =
                  (try_parse_event_buffer
                    (⟨rest, B3, builder, S2, lid⟩ : EventStream E)).2.buffer := by
                have hcb : (try_parse_event_buffer_bytes
                    (⟨rest, B3, [], builder, S2, lid⟩ :
                      EventStreamBytes E)).2.buffer ++
                    (try_parse_event_buffer_bytes
                      (⟨rest, B3, [], builder, S2, lid⟩ :
                        EventStreamBytes E)).2.remainder =
                    (try_parse_event_buffer
                      (⟨rest, B3, builder, S2, lid⟩ : EventStream E)).2.buffer :=
                  congrArg EventStream.buffer h2
                rw [h3, List.append_nil] at hcb
                exact hcb
              have hbl2 : (try_parse_event_buffer_bytes
                  (⟨rest, B3, [], builder, S2, lid⟩ : EventStreamBytes E)).2.builder =
                  (try_parse_event_buffer
                    (⟨rest, B3, builder, S2, lid⟩ : EventStream E)).2.builder :=
                congrArg EventStream.builder h2
              have hst2 : (try_parse_event_buffer_bytes
                  (⟨rest, B3, [], builder, S2, lid⟩ : EventStreamBytes E)).2.state =
                  (try_parse_event_buffer
                    (⟨rest, B3, builder, S2, lid⟩ : EventStream E)).2.state :=
                congrArg EventStream.state h2
              have hlid2 : (try_parse_event_buffer_bytes
                  (⟨rest, B3, [], builder, S2, lid⟩ :
                    EventStreamBytes E)).2.last_event_id =
                  (try_parse_event_buffer
                    (⟨rest, B3, builder, S2, lid⟩ : EventStream E)).2.last_event_id :=
                congrArg EventStream.last_event_id h2
              rw [hb2, hbl2, hst2, hlid2, h3]
              exact ih _ _ _ _

/-- One poll of the Bytes adapter simulates one poll of the generic adapter
on any reachable state. -/
theorem poll_next_bytes_correspond {E : Type} (s : EventStreamBytes E) (hinv : invB s) :
    (s.poll_next).1 = ((toGeneric s).poll_next).1 ∧
    toGeneric (s.poll_next).2 = ((toGeneric s).poll_next).2 ∧
    invB (s.poll_next).2 := by
  by_cases hrem : s.remainder.isEmpty
  · -- no pending remainder: the entry drain of the remainder is a no-op
    have hrnil : s.remainder = [] := by simpa using hrem
    have hpoll : s.poll_next =
        (if (try_parse_event_buffer_bytes s).1.isSome then try_parse_event_buffer_bytes s
         else if (try_parse_event_buffer_bytes s).2.state = .Terminated then
           (none, (try_parse_event_buffer_bytes s).2)
         else poll_loop_bytes (try_parse_event_buffer_bytes s).2.stream
           (try_parse_event_buffer_bytes s).2.buffer
           (try_parse_event_buffer_bytes s).2.remainder
           (try_parse_event_buffer_bytes s).2.builder
           (try_parse_event_buffer_bytes s).2.state
           (try_parse_event_buffer_bytes s).2.last_event_id) := by
      unfold EventStreamBytes.poll_next
      rw [tpr_empty hrem]
      rfl
    have hgbuf : (toGeneric s).buffer = s.buffer := by simp [toGeneric, hrnil]
    cases hp : parse_event s.buffer s.builder with
    | mk pr q =>
      obtain ⟨b0, bl0⟩ := q
      have hpg : parse_event (toGeneric s).buffer (toGeneric s).builder = (pr, b0, bl0) := by
        rw [hgbuf]
        exact hp
      cases pr with
      | error e =>
        rw [hpoll, tpbB_err hp]
        rw [poll_next_of_tpb_some (tpb_err (s := toGeneric s) hpg)]
        refine ⟨?_, ?_, ?_⟩
        · simp
        · simp [toGeneric, hrnil]
        · simp only [Option.isSome_some, if_true]
          intro hr
          exact absurd hrnil hr
      | ok o =>
        cases o with
        | some ev =>
          rw [hpoll, tpbB_some hp]
          rw [poll_next_of_tpb_some (tpb_some_ok (s := toGeneric s) hpg)]
          refine ⟨?_, ?_, ?_⟩
          · simp
          · simp [toGeneric, hrnil]
          · simp only [Option.isSome_some, if_true]
            intro hr
            exact absurd hrnil hr
        | none =>
          rw [hpoll, tpbB_none hp]
          simp only [Option.isSome_none, Bool.false_eq_true, if_false]
          by_cases hterm : s.state = .Terminated
          · rw [poll_next_of_tpb_none_term (tpb_none (s := toGeneric s) hpg) hterm]
            refine ⟨?_, ?_, ?_⟩
            · simp [hterm]
            · simp [toGeneric, hrnil, hterm]
            · simp only [hterm, if_true]
              intro hr
              exact absurd hrnil hr
          · rw [poll_next_of_tpb_none_loop (tpb_none (s := toGeneric s) hpg) hterm]
            have hstc : ({ s with buffer := b0, builder := bl0 } :
                EventStreamBytes E).state = s.state := rfl
            rw [if_neg (by rw [hstc]; exact hterm)]
            obtain ⟨h1, h2, h3⟩ := poll_loop_bytes_correspond s.stream b0 bl0 s.state
              s.last_event_id
            have hrw : ({ s with buffer := b0, builder := bl0 } :
                EventStreamBytes E).remainder = [] := hrnil
            rw [hrw] at *
            exact ⟨h1, by simpa [toGeneric, hrnil] using h2, h3⟩
  · -- pending remainder: entry drain parses straight out of it
    have hrne : s.remainder ≠ [] := by simpa using hrem
    obtain ⟨hbnil, hstne⟩ := hinv hrne
    have hgbuf : (toGeneric s).buffer = s.remainder := by simp [toGeneric, hbnil]
    cases hp : parse_event s.remainder s.builder with
    | mk pr q =>
      obtain ⟨rem0, bl0⟩ := q
      have hpb : parse_event_bytes s.remainder s.builder = (pr, rem0, bl0) := hp
      have hpg : parse_event (toGeneric s).buffer (toGeneric s).builder = (pr, rem0, bl0) := by
        rw [hgbuf]
        exact hp
      cases pr with
      | error e =>
        have hpoll : s.poll_next =
            (some (.error (.Utf8Error e)),
             { s with remainder := rem0, builder := bl0 }) := by
          unfold EventStreamBytes.poll_next
          rw [tpr_err hrem hpb]
          rfl
        rw [hpoll, poll_next_of_tpb_some (tpb_err (s := toGeneric s) hpg)]
        refine ⟨rfl, ?_, ?_⟩
        · simp [toGeneric, hbnil]
        · intro hr
          exact ⟨hbnil, hstne⟩
      | ok o =>
        cases o with
        | some ev =>
          have hpoll : s.poll_next =
              (some (.ok ev),
               { s with
                  remainder := rem0
                  builder := bl0
                  last_event_id := ev.id }) := by
            unfold EventStreamBytes.poll_next
            rw [tpr_some hrem hpb]
            rfl
          rw [hpoll, poll_next_of_tpb_some (tpb_some_ok (s := toGeneric s) hpg)]
          refine ⟨rfl, ?_, ?_⟩
          · simp [toGeneric, hbnil, hstne]
          · intro hr
            exact ⟨hbnil, hstne⟩
        | none =>
          -- quiet drain: the leftover moves into the buffer, and the second
          -- drain of the poll is a no-op on the now-quiescent buffer
          have hq : parse_line_from_buffer rem0 = none := by
            have := parse_event_quiescent
              (show (parse_event s.remainder s.builder).1 = .ok none by simp [hp])
            rwa [hp] at this
          have hp2 : parse_event
              (({ s with
                  buffer := s.buffer ++ rem0
                  remainder := []
                  builder := bl0 } : EventStreamBytes E)).buffer
              (({ s with
                  buffer := s.buffer ++ rem0
                  remainder := []
                  builder := bl0 } : EventStreamBytes E)).builder =
              (.ok none, rem0, bl0) := by
            rw [show (({ s with
                buffer := s.buffer ++ rem0
                remainder := []
                builder := bl0 } : EventStreamBytes E)).buffer = rem0 from by
              simp [hbnil]]
            exact parse_event_none bl0 hq
          have htpbB : (try_parse_event_buffer_bytes ({ s with
              buffer := s.buffer ++ rem0
              remainder := []
              builder := bl0 } : EventStreamBytes E)) =
              (none, { s with
                buffer := rem0
                remainder := ([] : List Byte)
                builder := bl0 }) := by
            rw [tpbB_none hp2]
          have hpoll : s.poll_next =
              (if (({ s with
                  buffer := rem0
                  remainder := ([] : List Byte)
                  builder := bl0 } : EventStreamBytes E)).state = .Terminated then
                (none, ({ s with
                  buffer := rem0
                  remainder := ([] : List Byte)
                  builder := bl0 } : EventStreamBytes E))
               else poll_loop_bytes s.stream rem0 [] bl0 s.state s.last_event_id) := by
            unfold EventStreamBytes.poll_next
            rw [tpr_none hrem hpb]
            simp only [Option.isSome_none, Bool.false_eq_true, if_false]
            rw [htpbB]
            rfl
          by_cases hterm : s.state = .Terminated
          · rw [hpoll, if_pos hterm,
              poll_next_of_tpb_none_term (tpb_none (s := toGeneric s) hpg) hterm]
            refine ⟨rfl, ?_, ?_⟩
            · simp [toGeneric, hbnil]
            · intro hr
              exact absurd rfl hr
          · rw [hpoll, if_neg hterm,
              poll_next_of_tpb_none_loop (tpb_none (s := toGeneric s) hpg) hterm]
            obtain ⟨h1, h2, h3⟩ := poll_loop_bytes_correspond s.stream rem0 bl0 s.state
              s.last_event_id
            exact ⟨h1, h2, h3⟩

/-- Drain the Bytes adapter with explicit fuel. -/
def driveB_fuel {E : Type} :
    Nat → EventStreamBytes E → List (Except (EventStreamError E) Event)
  | 0, _ => []
  | fuel + 1, s =>
    match (EventStreamBytes.poll_next s).1 with
    | none => []
    | some r => r :: driveB_fuel fuel (EventStreamBytes.poll_next s).2

/-- All outputs of the Bytes adapter until it reports `Ready(None)`; the fuel
of the simulated generic state is enough by the bisimulation. -/
def driveB {E : Type} (s : EventStreamBytes E) : List (Except (EventStreamError E) Event) :=
  driveB_fuel ((toGeneric s).measure + 1) s

theorem driveB_fuel_correspond {E : Type} :
    ∀ (n : Nat) (s : EventStreamBytes E), invB s →
      driveB_fuel n s = drive_fuel n (toGeneric s) := by
  intro n
  induction n with
  | zero => intro s _; rfl
  | succ n ih =>
    intro s hinv
    obtain ⟨h1, h2, h3⟩ := poll_next_bytes_correspond s hinv
    show (match (EventStreamBytes.poll_next s).1 with
      | none => []
      | some r => r :: driveB_fuel n (EventStreamBytes.poll_next s).2) =
      (match ((toGeneric s).poll_next).1 with
      | none => []
      | some r => r :: drive_fuel n ((toGeneric s).poll_next).2)
    rw [h1]
    cases hr : ((toGeneric s).poll_next).1 with
    | none => rfl
    | some r =>
      simp only
      rw [ih (EventStreamBytes.poll_next s).2 h3, h2]

theorem driveB_eq_drive {E : Type} (s : EventStreamBytes E) (hinv : invB s) :
    driveB s = drive (toGeneric s) := by
  unfold driveB drive
  exact driveB_fuel_correspond ((toGeneric s).measure + 1) s hinv

/-- C2: refinement equivalence of the two adapters.  Over any upstream item
sequence — Ok chunks of any contents, transport errors, then EOF — the Bytes
adapter delivers exactly the same sequence of poll results as the generic
adapter: the same events in the same order, the same errors, and the same
end of stream. -/
theorem C2_bytes_adapter_refinement {E : Type} (items : List (Except E (List Byte))) :
    driveB (EventStreamBytes.new items) = drive (EventStream.new items) := by
  have hinv : invB (EventStreamBytes.new items) := fun h => absurd rfl h
  rw [driveB_eq_drive (EventStreamBytes.new items) hinv]
  rfl

end Sseer